import Mathlib

/-!
# llxml: scanner, document parser, merge engine and writer

A shallow embedding of `src/llxml/xml.cpp`, `src/llxml/xml.hpp`,
`src/llxml/fileutil.cpp` and of the functions `FileMatches`, `ParseFile`,
`InspectFile` and `InspectFiles` of `src/llxml/llxml.cpp`.

Modelling conventions.

* A `char` is a natural number (its unsigned byte value); a `std::string` and
  the `std::vector<char>` buffer are lists of bytes.
* `std::map<std::string, T>` is an association list kept in ascending key
  order (byte-wise lexicographic, as `std::string::operator<`), so that
  walking the list is the iteration order of the map.
* `std::regex` is a library outside the repository.  A compiled pattern is
  modelled by its search function (offset and length of the leftmost match,
  alternatives and greedy repetitions tried in the ECMAScript backtracking
  order).  None of the patterns used by `parse` can match the empty string,
  so the match flag passed as `rxFlags` does not change the result on the
  platforms where it denotes `match_not_null`.
* The stream `err` and `std::cerr` are modelled by the list of messages
  written to them.
* Reads of C strings stop at the terminating NUL; a read beyond the end of
  the buffer yields NUL.  The comparison of a closing tag against an empty
  block stack, which in the source starts past the end of an empty string,
  is taken to report a difference.
* Loops are given a number of passes that always suffices (`parseLoop_total`);
  exceptions thrown by the regex library are not modelled.
* The file system is a parameter: what `stat`, `ifstream` and the directory
  scan report for a path.
-/

namespace Llxml

/-- A byte string: `std::string` and the contents of `std::vector<char>`. -/
abbrev Bytes := List Nat

/-- The bytes of a string literal. -/
def lit (s : String) : Bytes := s.toList.map Char.toNat

/-! ## `std::map<std::string, T>` -/

/-- Byte-wise lexicographic order of `std::string::operator<`. -/
def keyLt : Bytes → Bytes → Bool
  | [], [] => false
  | [], _ :: _ => true
  | _ :: _, [] => false
  | a :: as, b :: bs => if a < b then true else if b < a then false else keyLt as bs

/-- The map `std::map<std::string, V>`, entries in iteration order. -/
abbrev StdMap (V : Type) := List (Bytes × V)

namespace StdMap

variable {V : Type}

/-- The lookup `m.find(key)` / `m.at(key)`: `none` stands for `end()`. -/
def find : StdMap V → Bytes → Option V
  | [], _ => none
  | (k, v) :: rest, key => if key = k then some v else find rest key

/-- The assignment `m[key] = value`. -/
def insert : StdMap V → Bytes → V → StdMap V
  | [], key, value => [(key, value)]
  | (k, v) :: rest, key, value =>
    if key = k then (key, value) :: rest
    else if keyLt key k then (key, value) :: (k, v) :: rest
    else (k, v) :: insert rest key value

/-- The keys of the map in iteration order. -/
def keys (m : StdMap V) : List Bytes := m.map Prod.fst

/-- The member `m.size()`. -/
def size (m : StdMap V) : Nat := m.length

end StdMap

/-- The typedef `XmlData` of xml.hpp. -/
abbrev XmlData := StdMap Bytes

/-- The struct `FileData` of xml.hpp. -/
structure FileData where
  rows : List Bytes
  meta : XmlData
  data : XmlData
  updates : XmlData
  extra : XmlData
  deriving DecidableEq, Repr

/-- A default-constructed `FileData`. -/
def FileData.empty : FileData := ⟨[], [], [], [], []⟩

/-- The member `XmlBuffer::filesData`. -/
abbrev FilesData := StdMap FileData

/-- Messages written to `err` and `std::cerr`. -/
inductive LogMsg where
  /-- `Warning - duplicate: key in filePath` with the old and new value (checkDuplicate). -/
  | duplicate (key filePath old new : Bytes)
  /-- `Warning - duplicate: key, file=` written by `update`. -/
  | duplicateFile (key file : Bytes)
  /-- `Error - Line: n Unknown: text, In: filePath`. -/
  | unknown (line : Nat) (text filePath : Bytes)
  /-- `Warning - extra: text, In: filePath`. -/
  | extra (text filePath : Bytes)
  deriving DecidableEq, Repr

/-! ## Regular expressions of xml.cpp -/

/-- The result of `std::regex_search`: `match.position()`, `match.length()`
and the first capture group `match[1]`. -/
structure Match where
  position : Nat
  length : Nat
  group1 : Bytes
  deriving DecidableEq, Repr

/-- A compiled `std::regex`, given by its search over a subject. -/
abbrev Regex := Bytes → Option Match

/-- Leftmost search: the first start offset at which the anchored matcher
succeeds; the matcher gives the length of the match and its first group. -/
def regex_search (matchAt : Bytes → Option (Nat × Bytes)) : Regex
  | [] => (matchAt []).map fun r => ⟨0, r.1, r.2⟩
  | c :: rest =>
    match matchAt (c :: rest) with
    | some r => some ⟨0, r.1, r.2⟩
    | none => (regex_search matchAt rest).map fun m => ⟨m.position + 1, m.length, m.group1⟩

/-- The atom `.` of the ECMAScript grammar: any character but CR and LF. -/
def isDot (c : Nat) : Bool := c != 10 && c != 13

/-- The group `( |\r|\n)`. -/
def isBlank (c : Nat) : Bool := c == 32 || c == 13 || c == 10

/-- Length of the greedy repetition `( |\r|\n)*` at the head of the subject. -/
def blankRun (s : Bytes) : Nat := (s.takeWhile isBlank).length

/-- Anchored matcher of a pattern `literal( |\r|\n)*`. -/
def litBlankAt (l : Bytes) (s : Bytes) : Option (Nat × Bytes) :=
  if l.isPrefixOf s then some (l.length + blankRun (s.drop l.length), []) else none

/-- A greedy choice: the first of `f n, f (n-1), ..., f lo` that succeeds. -/
def greedy {α : Type} (f : Nat → Option α) (lo : Nat) : Nat → Option α
  | 0 => if lo = 0 then f 0 else none
  | n + 1 => if n + 1 < lo then none else
    match f (n + 1) with
    | some r => some r
    | none => greedy f lo n

/-- The pattern `begPat("<.")`. -/
def begPat : Regex :=
  regex_search fun s =>
    match s with
    | 60 :: c :: _ => if isDot c then some (2, []) else none
    | _ => none

/-- The pattern `xmlPatEnd("[?][>]( |\r|\n)*")`. -/
def xmlPatEnd : Regex := regex_search (litBlankAt (lit "?>"))

/-- The pattern `commentPatEnd("-->( |\r|\n)*")`. -/
def commentPatEnd : Regex := regex_search (litBlankAt (lit "-->"))

/-- The pattern `stringPatEnd("</string>( |\r|\n)*")`. -/
def stringPatEnd : Regex := regex_search (litBlankAt (lit "</string>"))

/-- Anchored matcher of `eoxPat("<[^<]+>( |\r|\n)*")`: after `<`, the greedy
`[^<]+` takes the whole run of bytes other than `<` and gives bytes back until
the next byte is `>`. -/
def eoxAt (s : Bytes) : Option (Nat × Bytes) :=
  match s with
  | 60 :: rest =>
    let run := (rest.takeWhile (fun c => c != 60)).length
    greedy (fun n =>
      match rest.drop n with
      | 62 :: after => some (1 + n + 1 + blankRun after, [])
      | _ => none) 1 run
  | _ => none

/-- The pattern `eoxPat`. -/
def eoxPat : Regex := regex_search eoxAt

/-- The rest of `stringPat` after the capture group,
`.[^>]*>(.|\r|\n)*</string>( |\r|\n)*`: its length when it matches at the head
of the subject.  `[^>]*` must stop at the first `>`; the greedy
`(.|\r|\n)*` stops at the last `</string>`. -/
def stringPatTail (s : Bytes) : Option Nat :=
  match s with
  | [] => none
  | c :: rest =>
    if !isDot c then none else
    let q := (rest.takeWhile (fun c => c != 62)).length
    match rest.drop q with
    | [] => none
    | _ :: after =>
      greedy (fun r =>
        if (lit "</string>").isPrefixOf (after.drop r)
        then some (1 + q + 1 + r + 9 + blankRun (after.drop (r + 9))) else none)
        0 after.length

/-- The part `([^'\"]+).[^>]*>...` of `stringPat`: the capture group takes
the longest run of bytes other than quotes for which the rest matches. -/
def stringPatName (s : Bytes) : Option (Nat × Bytes) :=
  let run := (s.takeWhile (fun c => c != 39 && c != 34)).length
  greedy (fun m =>
    match stringPatTail (s.drop m) with
    | some t => some (m + t, s.take m)
    | none => none) 1 run

/-- Anchored matcher of
`stringPat("<string.*name=.([^'\"]+).[^>]*>(.|\r|\n)*</string>( |\r|\n)*")`. -/
def stringPatAt (s : Bytes) : Option (Nat × Bytes) :=
  if (lit "<string").isPrefixOf s then
    let rest := s.drop 7
    let run := (rest.takeWhile isDot).length
    greedy (fun k =>
      if (lit "name=").isPrefixOf (rest.drop k) then
        match rest.drop (k + 5) with
        | c :: after =>
          if isDot c then
            (stringPatName after).map fun r => (7 + k + 5 + 1 + r.1, r.2)
          else none
        | [] => none
      else none) 0 run
  else none

/-- The pattern `stringPat`. -/
def stringPat : Regex := regex_search stringPatAt

/-! ## Statement scanner -/

/-- The member `XmlBuffer::getNext`: the returned pointer (as an offset into
the buffer, `none` for `nullptr`) and the new value of `pos`. -/
def getNext (xmlPatBeg : Regex) (buf : Bytes) (pos : Nat) : Option Nat × Nat :=
  match xmlPatBeg (buf.drop pos) with
  | some m =>
    (if m.position + m.length > 0 then some (pos + m.position) else none, pos + m.position)
  | none => (none, pos)

/-- The member `XmlBuffer::getStatement`: the result, the value of
`outStatement` after the call and the new value of `pos`. -/
def getStatement (xmlPatEnd : Regex) (buf : Bytes) (pos : Nat) (outStatement : Bytes) :
    Bool × Bytes × Nat :=
  match xmlPatEnd (buf.drop pos) with
  | some m =>
    (true, (buf.drop pos).take (m.position + m.length), pos + (m.position + m.length))
  | none => (false, outStatement, pos)

/-- Decimal digits of a number, most significant first (at most `fuel` + 1 digits). -/
def decimal : Nat → Nat → Bytes → Bytes
  | 0, n, acc => (48 + n % 10) :: acc
  | fuel + 1, n, acc =>
    if n < 10 then (48 + n) :: acc else decimal fuel (n / 10) ((48 + n % 10) :: acc)

/-- The conversion `%d` of `snprintf` applied to an `unsigned` argument. -/
def formatD (num : Nat) : Bytes :=
  if num < 2147483648 then decimal 10 num [] else 45 :: decimal 10 (4294967296 - num) []

/-- The constant `META_PREFIX`. -/
def META_PREFIX : Bytes := lit "_#"

/-- The function `nextKey`: `snprintf` into `tagStr[10]` keeps at most nine bytes. -/
def nextKey (num : Nat) : Bytes := (META_PREFIX ++ formatD num).take 9

/-- The increment `row++` of an `unsigned`. -/
def incr (row : Nat) : Nat := (row + 1) % 4294967296

/-- The function `clean`: the string without its `\n` bytes. -/
def clean (str : Bytes) : Bytes := str.filter fun c => c != 10

/-- The function `checkDuplicate`: the messages it writes. -/
def checkDuplicate (data : XmlData) (key value filePath : Bytes) : List LogMsg :=
  match data.find key with
  | some old => if old ≠ value then [LogMsg.duplicate key filePath old value] else []
  | none => []

/-- The C library `isspace` in the C locale. -/
def isspace (c : Nat) : Bool := c == 32 || (9 ≤ c && c ≤ 13)

/-- The view `c_str()` of a string as a C string: the bytes before the first NUL. -/
def c_str (s : Bytes) : Bytes := s.takeWhile fun c => c != 0

/-- The loop of `equalIgnoreWhite` over the two C strings; a missing head is
the terminating NUL. -/
def equalIgnoreWhiteLoop : Nat → Bytes → Bytes → Bool
  | 0, _, p2 => p2.headD 0 == 0
  | fuel + 1, p1, p2 =>
    if p1.headD 0 = 0 then p2.headD 0 == 0
    else
      let q1 := p1.dropWhile isspace
      let q2 := p2.dropWhile isspace
      if q1.headD 0 ≠ q2.headD 0 then false
      else if q1.headD 0 = 0 then q2.headD 0 == 0
      else equalIgnoreWhiteLoop fuel q1.tail q2.tail

/-- The function `equalIgnoreWhite`. -/
def equalIgnoreWhite (str1 str2 : Bytes) : Bool :=
  equalIgnoreWhiteLoop (c_str str1).length (c_str str1) (c_str str2)

/-- The C library `strncmp(s1, s2, n) == 0`; a missing head is the terminating NUL. -/
def strncmpEq : Bytes → Bytes → Nat → Bool
  | _, _, 0 => true
  | s1, s2, n + 1 =>
    if s1.headD 0 ≠ s2.headD 0 then false
    else if s1.headD 0 = 0 then true
    else strncmpEq s1.tail s2.tail n

/-- The member `XmlBuffer::lineAt`. -/
def lineAt (buf : Bytes) (pos : Nat) : Nat := (buf.take pos).count 10

/-! ## Merge engine -/

/-- The body of the loop of `XmlBuffer::update` over the documents from the
current one on: the documents after the call, the final value of `updated`
and the messages written to `std::cerr`. -/
def updateLoop (key statement : Bytes) :
    List (Bytes × FileData) → Bool → List (Bytes × FileData) × Bool × List LogMsg
  | [], updated => ([], updated, [])
  | (path, fileData) :: rest, updated =>
    match fileData.data.find key with
    | some prevStatement =>
      if updated then
        let r := updateLoop key statement rest updated
        ((path, fileData) :: r.1, r.2.1,
          (if prevStatement ≠ statement then [LogMsg.duplicateFile key path] else []) ++ r.2.2)
      else
        let updates :=
          if prevStatement.isEmpty || !equalIgnoreWhite prevStatement statement
          then fileData.updates.insert key prevStatement else fileData.updates
        let r := updateLoop key statement rest true
        ((path, { fileData with updates := updates,
                                data := fileData.data.insert key statement }) :: r.1,
          r.2.1, r.2.2)
    | none =>
      let r := updateLoop key statement rest updated
      ((path, { fileData with extra := fileData.extra.insert key statement }) :: r.1,
        r.2.1, r.2.2)

/-- The member `XmlBuffer::update`. -/
def update (filesData : FilesData) (key statement : Bytes) :
    FilesData × Bool × List LogMsg :=
  updateLoop key statement filesData false

/-- The member `XmlBuffer::getUpdates`. -/
def getUpdates (filesData : FilesData) : Nat :=
  (filesData.foldl (fun updates file => updates + file.2.updates.size) 0) % 4294967296

/-- The member `XmlBuffer::getExtras`. -/
def getExtras (filesData : FilesData) : Nat :=
  (filesData.foldl (fun extras file => extras + file.2.extra.size) 0) % 4294967296

/-- The member `XmlBuffer::clearData`. -/
def clearData (filesData : FilesData) : FilesData :=
  filesData.map fun file =>
    (file.1, { file.2 with data := file.2.data.map fun data => (data.1, []) })

/-! ## Document parser -/

/-- The local variables of `XmlBuffer::parse` together with the members it
reads and writes.  `fileData` is the referent of the reference `fileData`:
the entry `filesData[filePath]` in master mode (stored back when `parse`
returns), the static `noData` otherwise.  `err` and `cerr` are the messages
written so far.  `skipped` is a ghost counter, not a variable of the source:
the number of bytes the cursor has passed without their being copied into
the statement of a row (a gap of one byte, and the span of a `<string `
statement whose validation failed). -/
structure ParseState where
  pos : Nat
  lastPos : Nat
  row : Nat
  key : Bytes
  statement : Bytes
  blockKeys : List Bytes
  fileData : FileData
  filesData : FilesData
  err : List LogMsg
  cerr : List LogMsg
  skipped : Nat
  deriving DecidableEq, Repr

/-- The statements `fileData.rows.push_back(key); checkDuplicate(err,
fileData.meta, key, statement, filePath); fileData.meta[key] = statement;`. -/
def pushMeta (filePath : Bytes) (st : ParseState) : ParseState :=
  { st with
    fileData := { st.fileData with
      rows := st.fileData.rows ++ [st.key]
      meta := st.fileData.meta.insert st.key st.statement }
    err := st.err ++ checkDuplicate st.fileData.meta st.key st.statement filePath }

/-- The statements `fileData.rows.push_back(key); checkDuplicate(err,
fileData.data, key, statement, filePath); fileData.data[key] = statement;`. -/
def pushData (filePath : Bytes) (st : ParseState) : ParseState :=
  { st with
    fileData := { st.fileData with
      rows := st.fileData.rows ++ [st.key]
      data := st.fileData.data.insert st.key st.statement }
    err := st.err ++ checkDuplicate st.fileData.data st.key st.statement filePath }

/-- Lines 214-222 of `parse`: the text skipped before the tag, entered with
`pos` already advanced by `getNext`. -/
def gapRow (buf filePath : Bytes) (master : Bool) (st : ParseState) : ParseState :=
  if st.pos > st.lastPos + 1 then
    let st1 := { st with key := nextKey st.row, row := incr st.row }
    if master then
      pushMeta filePath
        { st1 with statement := (buf.drop st.lastPos).take (st.pos - st.lastPos) }
    else st1
  else { st with skipped := st.skipped + (st.pos - st.lastPos) }

/-- The statements `okay = getStatement(pat, statement); nextKey(row++, key);`
of the cases `'?'` and `'!'`. -/
def metaStatement (pat : Regex) (buf : Bytes) (st : ParseState) : Bool × ParseState :=
  let r := getStatement pat buf st.pos st.statement
  (r.1, { st with statement := r.2.1, pos := r.2.2, key := nextKey st.row, row := incr st.row })

/-- The case `'/'` of the switch.  With an empty block stack `key` is the
empty string and the comparison starts one byte past its terminator with an
unbounded length; that read is taken to report a difference. -/
def closeStatement (buf : Bytes) (nextPtr : Nat) (st : ParseState) : Bool × ParseState :=
  match st.blockKeys.getLast? with
  | none => (false, { st with key := [] })
  | some back =>
    if strncmpEq back.tail (buf.drop (nextPtr + 2)) (back.length - 1) then
      let r := getStatement eoxPat buf st.pos st.statement
      (r.1, { st with statement := r.2.1, pos := r.2.2, key := nextKey st.row,
                      row := incr st.row, blockKeys := st.blockKeys.dropLast })
    else (false, { st with key := back })

/-- The case `'s'` of the switch: the flags `okay` and `isMeta` and the state. -/
def stringStatement (buf filePath : Bytes) (nextPtr : Nat) (st : ParseState) :
    Bool × Bool × ParseState :=
  if strncmpEq (lit "<string ") (buf.drop nextPtr) 8 then
    let r := getStatement stringPatEnd buf st.pos st.statement
    let st1 := { st with statement := r.2.1, pos := r.2.2 }
    match stringPat (clean st1.statement) with
    | some m =>
      if r.1 then (true, false, { st1 with key := m.group1 })
      else (false, true, { st1 with
        err := st1.err ++ [LogMsg.unknown (lineAt buf st1.pos) (clean st1.statement) filePath] })
    | none =>
      (false, true, { st1 with
        err := st1.err ++ [LogMsg.unknown (lineAt buf st1.pos) (clean st1.statement) filePath]
        skipped := st1.skipped + (st1.pos - st.pos) })
  else (false, true, st)

/-- The switch on `nextPtr[1]`: the flags `okay` and `isMeta` and the state. -/
def classify (buf filePath : Bytes) (nextPtr : Nat) (st : ParseState) :
    Bool × Bool × ParseState :=
  let c := (buf.drop (nextPtr + 1)).headD 0
  if c = 63 then
    let r := metaStatement xmlPatEnd buf st
    (r.1, true, r.2)
  else if c = 33 then
    let r := metaStatement commentPatEnd buf st
    (r.1, true, r.2)
  else if c = 47 then
    let r := closeStatement buf nextPtr st
    (r.1, true, r.2)
  else if c = 115 then stringStatement buf filePath nextPtr st
  else (false, true, st)

/-- Lines 265-294 of `parse`: the row is recorded, or the statement is taken
as the opening of a block; `none` is the `return false`. -/
def record (buf filePath : Bytes) (master : Bool)
    (okay isMeta : Bool) (st : ParseState) : Option ParseState :=
  if okay then
    if master then
      if isMeta then some (pushMeta filePath st) else some (pushData filePath st)
    else if !isMeta then
      let r := update st.filesData st.key st.statement
      some { st with
        filesData := r.1
        cerr := st.cerr ++ r.2.2
        err := st.err ++
          (if !r.2.1 then [LogMsg.extra (clean st.statement) filePath] else []) }
    else some st
  else
    let r := getStatement eoxPat buf st.pos st.statement
    if r.1 then
      let st1 := { st with statement := r.2.1, pos := r.2.2,
                           blockKeys := st.blockKeys ++ [r.2.1] }
      if master then
        some (pushMeta filePath { st1 with key := nextKey st1.row, row := incr st1.row })
      else some st1
    else none

/-- One pass through the body of the `while` loop of `parse`.  The result is
the state and `none` when the loop goes on, `some b` when `parse` returns `b`. -/
def parseStep (buf filePath : Bytes) (master : Bool) (st : ParseState) :
    ParseState × Option Bool :=
  match getNext begPat buf st.pos with
  | (none, pos) => ({ st with pos := pos }, some (decide (st.filesData.size > 0)))
  | (some nextPtr, pos) =>
    let st1 := gapRow buf filePath master { st with pos := pos }
    let c := classify buf filePath nextPtr st1
    match record buf filePath master c.1 c.2.1 c.2.2 with
    | some st2 => ({ st2 with lastPos := st2.pos }, none)
    | none =>
      ({ c.2.2 with
          err := c.2.2.err ++
            [LogMsg.unknown (lineAt buf c.2.2.pos) ((buf.drop nextPtr).take 10) filePath] },
        some false)

/-- The `while` loop of `parse`, at most `fuel` passes: the final state and
the value returned, `none` when the passes do not suffice. -/
def parseLoop (buf filePath : Bytes) (master : Bool) :
    Nat → ParseState → Option (ParseState × Bool)
  | 0, _ => none
  | fuel + 1, st =>
    match parseStep buf filePath master st with
    | (st1, some b) => some (st1, b)
    | (st1, none) => parseLoop buf filePath master fuel st1

/-- The state of `parse` when the loop is entered: `filesData[filePath]`
creates the entry of a new document in master mode. -/
def parseInit (filesData : FilesData) (filePath : Bytes) (master : Bool) : ParseState :=
  let fileData := if master then (filesData.find filePath).getD FileData.empty
                  else FileData.empty
  { pos := 0, lastPos := 0, row := 0, key := [], statement := [], blockKeys := []
    fileData := fileData
    filesData := if master then filesData.insert filePath fileData else filesData
    err := [], cerr := [], skipped := 0 }

/-- What a call of `XmlBuffer::parse` leaves behind. -/
structure ParseResult where
  ok : Bool
  filesData : FilesData
  err : List LogMsg
  cerr : List LogMsg
  deriving DecidableEq, Repr

/-- The run of `parse` on a buffer: the final loop state and the value
returned.  Each pass moves the cursor forward, so `buf.length + 1` passes
suffice. -/
def parseRun (buf : Bytes) (filesData : FilesData) (filePath : Bytes) (master : Bool) :
    Option (ParseState × Bool) :=
  parseLoop buf filePath master (buf.length + 1) (parseInit filesData filePath master)

/-- The member `XmlBuffer::parse(err, filePath, master)` on the buffer `buf`. -/
def parse (buf : Bytes) (filesData : FilesData) (filePath : Bytes) (master : Bool) :
    Option ParseResult :=
  (parseRun buf filesData filePath master).map fun r =>
    { ok := r.2
      filesData := if master then r.1.filesData.insert filePath r.1.fileData
                   else r.1.filesData
      err := r.1.err, cerr := r.1.cerr }

/-! ## Document writer -/

/-- The lookup of lines 403-405 of `writeFilesTo`: `xmlMeta.at(key)` when the
key starts with `META_PREFIX`, else `xmlData.at(key)`; `none` when `at` throws. -/
def rowText (fileData : FileData) (key : Bytes) : Option Bytes :=
  if key.take 2 = META_PREFIX then fileData.meta.find key else fileData.data.find key

/-- The loop of lines 402-407 of `writeFilesTo` over the keys still to be
written: the bytes sent to the sink, `none` when a lookup throws. -/
def writeLoop (fileData : FileData) : List Bytes → Option Bytes
  | [] => some []
  | key :: rest =>
    match rowText fileData key with
    | some str => (writeLoop fileData rest).map fun out => str ++ out
    | none => none

/-- The bytes `writeFilesTo` writes for one document. -/
def writeRows (fileData : FileData) : Option Bytes := writeLoop fileData fileData.rows

/-- The `SLASH_CHAR` of fileutil.cpp outside Windows. -/
def SLASH_CHAR : Nat := 47

/-- The index of `std::string::rfind(c)`: that of the last `c`, `none` for `npos`. -/
def rfind : Bytes → Nat → Option Nat
  | [], _ => none
  | x :: rest, c =>
    match rfind rest c with
    | some i => some (i + 1)
    | none => if x = c then some 0 else none

/-- The name part of `FileUtil::getName`: the path after its last slash, the
whole path when it has none (`npos + 1` is 0). -/
def getName (inPath : Bytes) : Bytes :=
  match rfind inPath SLASH_CHAR with
  | none => inPath
  | some i => inPath.drop (i + 1)

/-- The directories of `FileUtil::getDirs`: the path before its last slash,
empty when it has none. -/
def getDirs (inPath : Bytes) : Bytes :=
  match rfind inPath SLASH_CHAR with
  | none => []
  | some dirEnd => inPath.take dirEnd

/-- The loop of `FileUtil::getParts` over the bytes of the string behind
`customFmt`; the end of the list is the terminating NUL. A byte other than
`%` is copied; after `%` the next byte selects the name (`n`), the
directories (`p`) or is copied itself. A `%` as last byte takes the
terminator as that next byte and then reads behind it: `none`. -/
def getParts : Bytes → Bytes → Option Bytes
  | [], _ => some []
  | c :: fmt, inPath =>
    if c = 0 then some []
    else if c ≠ 37 then (getParts fmt inPath).map fun out => c :: out
    else
      match fmt with
      | [] => none
      | d :: fmt1 =>
        (getParts fmt1 inPath).map fun out =>
          (if d = 110 then getName inPath else if d = 112 then getDirs inPath else [d]) ++ out

/-- What one pass of the loop of `writeFilesTo` does with a document:
`noUpdates` and `failedCreation` are the two `continue` exits with their
message on cerr, `saved` the bytes sent to the file `outPath` (with the
number of updates of the message on cerr), `stdout` the bytes sent to cout,
`thrown` a lookup `at` that throws `out_of_range`, which nothing catches. -/
inductive Emitted where
  | noUpdates (outPath : Bytes)
  | failedCreation (outPath : Bytes)
  | saved (outPath : Bytes) (updates : Nat) (out : Bytes)
  | stdout (out : Bytes)
  | thrown
  deriving DecidableEq, Repr

/-- The line `writeFilesTo` sends to cout before a document in verbose mode. -/
def fileHeader (filePath : Bytes) : Bytes := lit "\n==== File: " ++ filePath ++ [10]

/-- The verbose loop of `writeFilesTo` over the updates: whether every
`xmlData.at(upd.first)` finds its key. -/
def updatesFound (fileData : FileData) : Bool :=
  fileData.updates.all fun upd => (fileData.data.find upd.1).isSome

/-- The body of the loop of `writeFilesTo` for one document; `canOpen` tells
whether `outF.open(outPath)` succeeds. `none` when `getParts` reads behind
its template. -/
def writeFile (outFmt : Bytes) (verbose : Bool) (canOpen : Bytes → Bool)
    (file : Bytes × FileData) : Option Emitted :=
  match getParts outFmt file.1 with
  | none => none
  | some outPath =>
    let toStdout := outPath == lit "-"
    if file.2.updates.isEmpty && !toStdout then some (Emitted.noUpdates outPath)
    else if !toStdout && !canOpen outPath then some (Emitted.failedCreation outPath)
    else if verbose && !updatesFound file.2 then some Emitted.thrown
    else
      match writeRows file.2 with
      | none => some Emitted.thrown
      | some out =>
        if toStdout then
          some (Emitted.stdout ((if verbose then fileHeader file.1 else []) ++ out))
        else some (Emitted.saved outPath file.2.updates.size out)

/-- The loop of `writeFilesTo` over the documents in key order: what happened
to each document it reached; a lookup that throws ends it. -/
def writeFiles (outFmt : Bytes) (verbose : Bool) (canOpen : Bytes → Bool) :
    FilesData → Option (List (Bytes × Emitted))
  | [] => some []
  | file :: rest =>
    match writeFile outFmt verbose canOpen file with
    | none => none
    | some Emitted.thrown => some [(file.1, Emitted.thrown)]
    | some e => (writeFiles outFmt verbose canOpen rest).map fun es => (file.1, e) :: es

/-- `XmlBuffer::writeFilesTo`: nothing for an empty template, else the loop
over the documents. -/
def writeFilesTo (filesData : FilesData) (outFmt : Bytes) (verbose : Bool)
    (canOpen : Bytes → Bool) : Option (List (Bytes × Emitted)) :=
  if outFmt.length = 0 then some [] else writeFiles outFmt verbose canOpen filesData

/-- Whether a pass of `writeFilesTo` emitted the document to a sink. -/
def Emitted.isEmitted : Emitted → Bool
  | Emitted.saved _ _ _ => true
  | Emitted.stdout _ => true
  | _ => false

/-- A pattern is well formed when every match is non-empty and lies within
the subject. -/
def Regex.WellFormed (pat : Regex) : Prop :=
  ∀ s m, pat s = some m → 0 < m.length ∧ m.position + m.length ≤ s.length

/-- The rows of a document are lossless when the cursor skipped no byte, no
key was recorded twice and no key of the data map starts with `META_PREFIX`. -/
def Lossless (fileData : FileData) (skipped : Nat) : Prop :=
  skipped = 0 ∧ fileData.rows.Nodup ∧ ∀ key ∈ fileData.data.keys, key.take 2 ≠ META_PREFIX

/-- The rows written so far reproduce the first `upTo` bytes of the buffer,
provided they are lossless. -/
def Written (buf : Bytes) (st : ParseState) (upTo : Nat) : Prop :=
  Lossless st.fileData st.skipped → writeRows st.fileData = some (buf.take upTo)

/-- What the switch of `parse` guarantees about its outcome: it leaves the
document and `lastPos` alone and never moves the cursor back; when `okay` is
set, `statement` is the span of the buffer from the old to the new cursor and
a meta key starts with `META_PREFIX`; when `okay` is not set, the cursor has
moved only over bytes counted as skipped. -/
def Classified (buf : Bytes) (st : ParseState) (okay isMeta : Bool) (st' : ParseState) :
    Prop :=
  st'.fileData = st.fileData ∧ st'.lastPos = st.lastPos ∧ st.pos ≤ st'.pos
    ∧ st.skipped ≤ st'.skipped
    ∧ (okay = true → st.pos < st'.pos ∧ st'.pos ≤ buf.length
        ∧ st'.statement = (buf.drop st.pos).take (st'.pos - st.pos)
        ∧ st'.skipped = st.skipped
        ∧ (isMeta = true → st'.key.take 2 = META_PREFIX))
    ∧ (okay = false → st'.skipped = st.skipped → st'.pos = st.pos)

/-- The check that a master parse into an empty Document Set was lossless:
it returned true, the last statement ends at the end of the buffer, the
cursor skipped no byte, the recorded keys are pairwise distinct and no key of
the data map starts with `META_PREFIX`. -/
def losslessRun (buf filePath : Bytes) : Bool :=
  match parseRun buf [] filePath true with
  | some (st, ok) =>
    ok && st.lastPos == buf.length && st.skipped == 0
      && decide st.fileData.rows.Nodup
      && st.fileData.data.keys.all fun key => key.take 2 != META_PREFIX
  | none => false

/-! ## `ParseFile` -/

/-- The variable `separator` of llxml.cpp; no option changes it. -/
def separator : Bytes := lit ","

/-- What `stat` and `ifstream` report for a path: `none` when `stat` fails,
`some none` when the stream is not good after `open`, else the bytes of the
file, whose number is `st_size`. -/
abbrev FileSystem := Bytes → Option (Option Bytes)

/-- The file-scope variables of llxml.cpp that `ParseFile` reads and writes:
`master`, the vector of `xmlBuffer`, its member `filesData`, `parseErrCnt`. -/
structure Run where
  master : Bool
  buffer : Bytes
  filesData : FilesData
  parseErrCnt : Nat
  deriving DecidableEq, Repr

/-- The statements `xmlBuffer.resize(filestat.st_size + 1); in.read(...);
xmlBuffer.push_back('\0');`: `resize` keeps the bytes below the new size and
fills up with NUL, `read` overwrites the first `st_size` bytes. -/
def loadBuffer (buffer contents : Bytes) : Bytes :=
  let size := contents.length + 1
  let resized := buffer.take size ++ List.replicate (size - buffer.length) 0
  contents ++ resized.drop contents.length ++ [0]

/-- The function `ParseFile`: the variables after the call and the value
returned.  The messages it writes are not modelled. -/
def ParseFile (fs : FileSystem) (run : Run) (filepath : Bytes) : Run × Bool :=
  if filepath = separator then
    ({ run with master := false, filesData := clearData run.filesData }, false)
  else
    match fs filepath with
    | none => (run, false)
    | some none => (run, false)
    | some (some contents) =>
      let buffer := loadBuffer run.buffer contents
      match parse buffer run.filesData filepath run.master with
      | some r =>
        ({ run with
            buffer := buffer
            filesData := r.filesData
            parseErrCnt := if r.ok then run.parseErrCnt else incr run.parseErrCnt },
          r.ok)
      | none => ({ run with buffer := buffer }, false)

/-- The invariant of a `std::map`: the keys are in strictly ascending order. -/
def StdMap.WellFormed {V : Type} (m : StdMap V) : Prop :=
  m.keys.Pairwise fun a b => keyLt a b = true

/-- What slave mode must leave alone in a document: its path, rows and meta
and the keys of its data map. -/
def frameOf (file : Bytes × FileData) : Bytes × List Bytes × XmlData × List Bytes :=
  (file.1, file.2.rows, file.2.meta, file.2.data.keys)

/-! ## Observers of a run -/

/-- The document as it stands when `parse` takes the `return false` of line
292: the rows recorded by the earlier passes and, in the failing pass, the
text skipped before the tag.  `none` when the loop ends because no tag is
left. -/
def fatalDoc (buf filePath : Bytes) (master : Bool) : Nat → ParseState → Option FileData
  | 0, _ => none
  | fuel + 1, st =>
    match parseStep buf filePath master st with
    | (st1, none) => fatalDoc buf filePath master fuel st1
    | (_, some _) =>
      match getNext begPat buf st.pos with
      | (some _, pos) => some (gapRow buf filePath master { st with pos := pos }).fileData
      | (none, _) => none

/-- The fatal failure of a call of `parse`, if there is one: the document as
it stands at the failing tag. -/
def fatalRun (buf : Bytes) (filesData : FilesData) (filePath : Bytes) (master : Bool) :
    Option FileData :=
  fatalDoc buf filePath master (buf.length + 1) (parseInit filesData filePath master)

/-- The test `key.compare(0, 2, META_PREFIX) == 0` of line 403. -/
def isMetaKey (key : Bytes) : Bool := key.take 2 == META_PREFIX

/-- Whether the pass of the loop that starts in `st` (master mode) classifies
its tag as a StringEntry: `okay` is set and `isMeta` is cleared. -/
def stringPass (buf filePath : Bytes) (st : ParseState) : Bool :=
  match getNext begPat buf st.pos with
  | (some nextPtr, pos) =>
    let c := classify buf filePath nextPtr (gapRow buf filePath true { st with pos := pos })
    c.1 && !c.2.1
  | (none, _) => false

/-- The StringEntry statements of a master parse in the order of the passes
that record them: name and text. -/
def stringEntries (buf filePath : Bytes) : Nat → ParseState → List (Bytes × Bytes)
  | 0, _ => []
  | fuel + 1, st =>
    match parseStep buf filePath true st with
    | (st1, none) =>
      (if stringPass buf filePath st then [(st1.key, st1.statement)] else [])
        ++ stringEntries buf filePath fuel st1
    | (_, some _) => []

/-- The StringEntry statements of the master parse of a buffer into an empty
Document Set. -/
def stringEntriesOf (buf filePath : Bytes) : List (Bytes × Bytes) :=
  stringEntries buf filePath (buf.length + 1) (parseInit [] filePath true)

/-- Spec: the template expansion in the words of the specification
(`formatPath`): each `%n` is replaced by the file name, each `%p` by the
containing directory, every other character is passed through. -/
def formatPath : Bytes → Bytes → Bytes
  | [], _ => []
  | [c], _ => [c]
  | c :: d :: fmt, inPath =>
    if c = 37 ∧ d = 110 then getName inPath ++ formatPath fmt inPath
    else if c = 37 ∧ d = 112 then getDirs inPath ++ formatPath fmt inPath
    else c :: formatPath (d :: fmt) inPath

/-- Whether every `%` of a template is followed by `n` or by `p`. -/
def substOnly : Bytes → Bool
  | [] => true
  | [c] => c != 37
  | c :: d :: fmt =>
    if c = 37 then (d == 110 || d == 112) && substOnly fmt else substOnly (d :: fmt)

/-- Spec: a string after each maximal run of whitespace characters is
collapsed into one space, the comparison key the specification names for
`equalIgnoreWhite`. -/
def collapseWhite : Bytes → Bytes
  | [] => []
  | [c] => [if isspace c then 32 else c]
  | c :: d :: rest =>
    if isspace c && isspace d then collapseWhite (d :: rest)
    else (if isspace c then 32 else c) :: collapseWhite (d :: rest)

/-- A string without its whitespace characters. -/
def stripWhite (s : Bytes) : Bytes := s.filter fun c => !isspace c

/-- Whether the last byte of a string is a whitespace character. -/
def endsInWhite (s : Bytes) : Bool :=
  match s.getLast? with
  | some c => isspace c
  | none => false

/-! ## Inputs of the scenarios -/

/-- The example file of the header of xml.cpp, reduced to the rows of the scenario. -/
def masterXml : Bytes :=
  lit ("<?xml version=\"1.0\" encoding=\"utf-8\"?>\n<resources>\n"
    ++ "    <string name=\"word1\">Your Drive</string>\n"
    ++ "    <string name=\"word2\">Radar</string>\n</resources>\n")

/-- A slave file that translates `word1`. -/
def slaveWord1 : Bytes :=
  lit "<resources>\n    <string name=\"word1\">Votre Disque</string>\n</resources>\n"

/-- The entry of `word1` in `masterXml`, with the blanks the end pattern absorbs. -/
def masterWord1Entry : Bytes := lit "<string name=\"word1\">Your Drive</string>\n    "

/-- The entry of `word1` in `slaveWord1`. -/
def slaveWord1Entry : Bytes := lit "<string name=\"word1\">Votre Disque</string>\n"

/-- The master parse of the first scenario, into an empty Document Set. -/
def scenarioMaster : Option ParseResult := parse masterXml [] (lit "values/strings.xml") true

/-- The slave parse of the first scenario, after the master parse. -/
def scenarioSlave : Option ParseResult :=
  scenarioMaster.bind fun r => parse slaveWord1 r.filesData (lit "values-fr/strings.xml") false

/-- A slave file that holds only the entry `word3`. -/
def slaveWord3 : Bytes := lit "<string name=\"word3\">X</string>"

/-- Two master documents parsed in the order `b.xml`, `a.xml`, both with the key `K`. -/
def twoMasters : Option ParseResult :=
  (parse (lit "<string name=\"K\">one</string>") [] (lit "b.xml") true).bind fun r =>
    parse (lit "<string name=\"K\">two</string>") r.filesData (lit "a.xml") true

/-- The master parse of a buffer into an empty Document Set under the path
`a.xml`, followed by the writer: the value `parse` returns and, for every
document, the bytes written for its rows. -/
def writtenBack (buf : Bytes) : Option (Bool × List (Option Bytes)) :=
  (parse buf [] (lit "a.xml") true).map fun r =>
    (r.ok, r.filesData.map fun file => writeRows file.2)

/-- A master file that ends in a tag without `>`: the fallback capture fails
at `<b` after a block and five bytes of text. -/
def fatalXml : Bytes := lit "<a>\n  text\n<b"

/-- The malformed input of the scenario: a string entry closed by `</strong>`. -/
def strongXml : Bytes := lit "<string name=\"w\">Val</strong>"

/-- A string entry without a name attribute, at the end of the file. -/
def namelessXml : Bytes := lit "<string >x</string>"

/-- A string entry whose second attribute ends in `name=`. -/
def twoNamesXml : Bytes := lit "<string name=\"K\" tname=\"x\">V</string>"

/-- A string entry with a second attribute, a line feed in the value and
blanks after the closing tag, followed by a block. -/
def entryXml : Bytes := lit "<string name=\"word1\" product=\"t\">Your\nDrive</string>\n  <a>"

/-- A master file in which the name `k` occurs in two string entries. -/
def twiceXml : Bytes :=
  lit "<string name=\"k\">1</string>\n<string name=\"j\">2</string>\n<string name=\"k\">3</string>\n"

/-- A master file whose string entry is named like a synthetic key. -/
def metaNamedXml : Bytes := lit "<?a?><string name=\"_#0\">v</string>"

/-- A master file whose only statement is a string entry named like a
synthetic key. -/
def strayKeyXml : Bytes := lit "<string name=\"_#5\">v</string>"

/-- A Document Set with one document that holds one update. -/
def updatedDocs : FilesData :=
  [(lit "r/a.xml",
    { rows := [lit "_#0", lit "k"], meta := [(lit "_#0", lit "<?x?>")],
      data := [(lit "k", lit "<string name=\"k\">v</string>")],
      updates := [(lit "k", lit "old")], extra := [] })]

/-- The file-scope variables of llxml.cpp when `main` starts, with an empty
buffer and an empty Document Set. -/
def Run.init : Run := { master := true, buffer := [], filesData := [], parseErrCnt := 0 }

/-- Two files: `a.xml` holds `<a> <b>` (seven bytes), `c.xml` holds `<c>`
(three bytes, no blank after the tag). -/
def staleFiles : FileSystem := fun path =>
  if path = lit "a.xml" then some (some (lit "<a> <b>"))
  else if path = lit "c.xml" then some (some (lit "<c>"))
  else none

/-- The test of the case `'/'` of `parse`: whether the comparison of the
block on top of the stack, without its first byte, with the bytes after `</`
reports equality (`strncmp(...) == 0`); an empty stack is a difference. -/
def closesTop (buf : Bytes) (nextPtr : Nat) (blockKeys : List Bytes) : Bool :=
  match blockKeys.getLast? with
  | none => false
  | some back => strncmpEq back.tail (buf.drop (nextPtr + 2)) (back.length - 1)

/-- The state of the master parse of `<a></a>` after the pass that records `<a>`. -/
def afterOpen : ParseState :=
  (parseStep (lit "<a></a>") (lit "a.xml") true (parseInit [] (lit "a.xml") true)).1

/-- A step of a run on the Document Set: a call of `parse` on the contents
of a buffer, or the call of `clearData` made at the separator. -/
inductive Op where
  | parse (buf filePath : Bytes) (master : Bool)
  | clear
  deriving DecidableEq, Repr

/-- The Document Set after a step. -/
def applyOp (filesData : FilesData) : Op → FilesData
  | Op.parse buf filePath master =>
    match parse buf filesData filePath master with
    | some r => r.filesData
    | none => filesData
  | Op.clear => clearData filesData

/-- The Document Set reached from the empty one by a sequence of steps. -/
def runOps (ops : List Op) : FilesData := ops.foldl applyOp []

/-- Every key of the updates map of a document is a key of its data map. -/
def UpdatesInData (fileData : FileData) : Prop :=
  ∀ key ∈ fileData.updates.keys, key ∈ fileData.data.keys

/-- What a master parse leaves alone in its document: updates and extra stay,
no key of data goes away. -/
def MasterFrame (d d' : FileData) : Prop :=
  d'.updates = d.updates ∧ d'.extra = d.extra ∧ ∀ key ∈ d.data.keys, key ∈ d'.data.keys

/-- A master parse of a file with the entry `k`, the separator, and a slave
parse of a file that gives `k` another text. -/
def mergedOps : List Op :=
  [Op.parse (lit "<string name=\"k\">v</string>") (lit "a.xml") true, Op.clear,
    Op.parse (lit "<string name=\"k\">w</string>") (lit "b.xml") false]

/-- The document of `a.xml` after `mergedOps`. -/
def mergedFile : Bytes × FileData :=
  (lit "a.xml",
    { rows := [lit "k"], meta := [], data := [(lit "k", lit "<string name=\"k\">w</string>")],
      updates := [(lit "k", [])], extra := [] })

/-- The four lists of compiled patterns of llxml.cpp; a compiled `std::regex`
is given by its predicate `regex_match` on a name. -/
structure Filters where
  includeFile : List (Bytes → Bool)
  excludeFile : List (Bytes → Bool)
  includePath : List (Bytes → Bool)
  excludePath : List (Bytes → Bool)

/-- The function `FileMatches`. -/
def FileMatches (inName : Bytes) (patternList : List (Bytes → Bool)) (emptyResult : Bool) :
    Bool :=
  if patternList.isEmpty || inName.isEmpty then emptyResult
  else patternList.any fun pat => pat inName

/-- The function `InspectFile`: the variables after the call and the file
count returned.  The lines written for `-showInput` are not modelled. -/
def InspectFile (fs : FileSystem) (filters : Filters) (run : Run) (fullname : Bytes) :
    Run × Nat :=
  let name := getName fullname
  let dirs := getDirs fullname
  if !name.isEmpty
      && !FileMatches name filters.excludeFile false
      && FileMatches name filters.includeFile true
      && !FileMatches dirs filters.excludePath false
      && FileMatches dirs filters.includePath true then
    let r := ParseFile fs run fullname
    (r.1, if r.2 then 1 else 0)
  else (run, 0)

/-- What the operating system reports to `InspectFiles`: the files as
`ParseFile` sees them, whether `stat` succeeds on a path with `S_ISREG`, and
the entries the loop over `Directory_files` yields for a path, each with its
full name and whether it is a directory (none when `opendir` fails). -/
structure Disk where
  files : FileSystem
  isRegular : Bytes → Bool
  entries : Bytes → List (Bytes × Bool)

/-- The function `InspectFiles`, directories followed down to `depth` levels:
the variables after the call and the file count returned. -/
def InspectFiles (disk : Disk) (filters : Filters) : Nat → Run → Bytes → Run × Nat
  | depth, run, dirname =>
    let first : Run × Nat :=
      if disk.isRegular dirname then InspectFile disk.files filters run dirname
      else if dirname = separator then ((InspectFile disk.files filters run dirname).1, 0)
      else (run, 0)
    match depth with
    | 0 => first
    | depth1 + 1 =>
      (disk.entries dirname).foldl (fun acc entry =>
        if entry.2 then
          let r := InspectFiles disk filters depth1 acc.1 entry.1
          (r.1, acc.2 + r.2)
        else if entry.1.length > 0 then
          let r := InspectFile disk.files filters acc.1 entry.1
          (r.1, acc.2 + r.2)
        else acc) first

/-- The loop of `main` over `fileDirList`: the variables after the last call
of `InspectFiles`. -/
def inspectAll (disk : Disk) (filters : Filters) (depth : Nat) (fileDirList : List Bytes) :
    Run :=
  fileDirList.foldl (fun run filePath => (InspectFiles disk filters depth run filePath).1)
    Run.init

/-- The pattern `.*.xml`, compiled from the option `-fileInclude=*.xml`, as
the predicate of `regex_match`: any bytes but CR and LF, then `xml`. -/
def xmlNamePat (name : Bytes) : Bool :=
  decide (4 ≤ name.length) && (name.take (name.length - 3)).all isDot
    && name.drop (name.length - 3) == lit "xml"

/-- A master file `m.xml` and a slave file `s.xml`, both with the entry `k`;
no file is named like the separator and no path is a directory. -/
def twoFilesDisk : Disk where
  files := fun path =>
    if path = lit "m.xml" then some (some (lit "<string name=\"k\">v</string>"))
    else if path = lit "s.xml" then some (some (lit "<string name=\"k\">w</string>"))
    else none
  isRegular := fun path => path = lit "m.xml" || path = lit "s.xml"
  entries := fun _ => []

/-- What a run leaves behind, as far as the mode switch shows: the flag
`master` and, for every document, its path, rows and the keys of its updates. -/
def modeAndDocs (run : Run) : Bool × List (Bytes × List Bytes × List Bytes) :=
  (run.master, run.filesData.map fun file => (file.1, file.2.rows, file.2.updates.keys))

/-- Two statements of the entry `k` that differ only in the line feed the end
pattern takes in after `</string>`. -/
def entryAtEnd : Bytes := lit "<string name=\"k\">v</string>"

/-- The entry `k` followed by a line feed. -/
def entryThenLf : Bytes := lit "<string name=\"k\">v</string>\n"

/-- A Document Set with one master document that holds the entry `k`. -/
def oneEntryDocs : FilesData :=
  [(lit "a.xml",
    { rows := [lit "k"], meta := [], data := [(lit "k", entryAtEnd)], updates := [],
      extra := [] })]

/-- The document of `oneEntryDocs` after `clearData`. -/
def clearedDoc : FileData :=
  { rows := [lit "k"], meta := [], data := [(lit "k", [])], updates := [], extra := [] }

/-- The entry `k` with a NUL byte in its value. -/
def entryNulB : Bytes := lit "<string name=\"k\">a\x00b</string>"

/-- The entry `k` with another byte after the NUL. -/
def entryNulC : Bytes := lit "<string name=\"k\">a\x00c</string>"

/-- The entry `k` with another value. -/
def entryOther : Bytes := lit "<string name=\"k\">w</string>"

/-- The document of `oneEntryDocs`. -/
def oneEntryDoc : FileData :=
  { rows := [lit "k"], meta := [], data := [(lit "k", entryAtEnd)], updates := [], extra := [] }

/-- No key of the extra map of a document is a key of its data map. -/
def ExtraOutside (fileData : FileData) : Prop :=
  ∀ key ∈ fileData.extra.keys, key ∉ fileData.data.keys

/-- Whether no step of a run is a master-mode parse. -/
def noMaster (ops : List Op) : Bool :=
  ops.all fun op =>
    match op with
    | Op.parse _ _ true => false
    | _ => true

/-- Whether the master-mode parses of a run all come before its slave-mode
parses. -/
def masterFirst : List Op → Bool
  | [] => true
  | Op.parse _ _ false :: rest => noMaster rest
  | _ :: rest => masterFirst rest

/-- A master parse of the entry `k`, the separator, and a slave parse of a
file with another text for `k` and with the entry `word3`. -/
def mergeOps : List Op :=
  [Op.parse entryAtEnd (lit "a.xml") true, Op.clear,
    Op.parse (entryOther ++ slaveWord3) (lit "b.xml") false]

/-- The document of `a.xml` after `mergeOps`. -/
def mergeFile : Bytes × FileData :=
  (lit "a.xml",
    { rows := [lit "k"], meta := [], data := [(lit "k", entryOther)],
      updates := [(lit "k", [])], extra := [(lit "word3", slaveWord3)] })

/-- Spec: the switch of the variant of `parse` that skips the comparison with
the block stack: a tag with `/` as second byte goes to the generic fallback
like an unknown tag, every other tag is classified as in `classify`. -/
def classifyNoStack (buf filePath : Bytes) (nextPtr : Nat) (st : ParseState) :
    Bool × Bool × ParseState :=
  if (buf.drop (nextPtr + 1)).headD 0 = 47 then (false, true, st)
  else classify buf filePath nextPtr st

/-- Spec: one pass of the loop of the variant, `parseStep` with
`classifyNoStack` in place of `classify`. -/
def parseStepNoStack (buf filePath : Bytes) (master : Bool) (st : ParseState) :
    ParseState × Option Bool :=
  match getNext begPat buf st.pos with
  | (none, pos) => ({ st with pos := pos }, some (decide (st.filesData.size > 0)))
  | (some nextPtr, pos) =>
    let st1 := gapRow buf filePath master { st with pos := pos }
    let c := classifyNoStack buf filePath nextPtr st1
    match record buf filePath master c.1 c.2.1 c.2.2 with
    | some st2 => ({ st2 with lastPos := st2.pos }, none)
    | none =>
      ({ c.2.2 with
          err := c.2.2.err ++
            [LogMsg.unknown (lineAt buf c.2.2.pos) ((buf.drop nextPtr).take 10) filePath] },
        some false)

/-- Spec: the loop of the variant. -/
def parseLoopNoStack (buf filePath : Bytes) (master : Bool) :
    Nat → ParseState → Option (ParseState × Bool)
  | 0, _ => none
  | fuel + 1, st =>
    match parseStepNoStack buf filePath master st with
    | (st1, some b) => some (st1, b)
    | (st1, none) => parseLoopNoStack buf filePath master fuel st1

/-- Spec: the variant of `parse` that never compares a closing tag with the
block stack. -/
def parseNoStack (buf : Bytes) (filesData : FilesData) (filePath : Bytes) (master : Bool) :
    Option ParseResult :=
  (parseLoopNoStack buf filePath master (buf.length + 1)
      (parseInit filesData filePath master)).map fun r =>
    { ok := r.2
      filesData := if master then r.1.filesData.insert filePath r.1.fileData
                   else r.1.filesData
      err := r.1.err, cerr := r.1.cerr }

/-- Two states of `parse` agree on what the caller sees: the document, the
Document Set and the messages. -/
def SameOutcome (a b : ParseState) : Prop :=
  a.fileData = b.fileData ∧ a.filesData = b.filesData ∧ a.err = b.err ∧ a.cerr = b.cerr

/-- Whether the pass of the loop of `parse` that starts in `st` locates a tag
exactly one byte behind the end of the previous statement. -/
def oneByteGap (buf : Bytes) (st : ParseState) : Bool :=
  match getNext begPat buf st.pos with
  | (some _, pos) => pos == st.lastPos + 1
  | (none, _) => false

/-- Whether the pass of the loop of `parse` that starts in `st` locates a tag
starting with `<string `, captures it with the end pattern and then fails the
validation of the name attribute. -/
def lostString (buf : Bytes) (st : ParseState) : Bool :=
  match getNext begPat buf st.pos with
  | (some nextPtr, pos) =>
    (buf.drop (nextPtr + 1)).headD 0 == 115
      && strncmpEq (lit "<string ") (buf.drop nextPtr) 8
      && (match stringPatEnd (buf.drop pos) with
          | some m => (stringPat (clean ((buf.drop pos).take (m.position + m.length)))).isNone
          | none => false)
  | (none, _) => false

/-- The states in which the passes of the loop of a master parse start, the
pass that returns included. -/
def passes (buf filePath : Bytes) : Nat → ParseState → List ParseState
  | 0, _ => []
  | fuel + 1, st =>
    st :: match parseStep buf filePath true st with
          | (st1, none) => passes buf filePath fuel st1
          | (_, some _) => []

/-- A master file with a declaration, a block, a string entry and text after
the last tag. -/
def prefixXml : Bytes := lit "<?x?>\n<a>\n  <string name=\"k\">v</string>\n</a>\ntail"

/-- The state in which the master parse of `prefixXml` ends. -/
def prefixFinal : ParseState :=
  ((parseRun prefixXml [] (lit "a.xml") true).map Prod.fst).getD
    (parseInit [] (lit "a.xml") true)

/-- The comparison of the case `'/'` as the source runs it when the block
stack is empty.  `key` has just been assigned the empty string, so
`key.c_str() + 1` points behind its terminator and the length
`key.length() - 1` wraps around to `SIZE_MAX`: the read leaves the string.
Where the assignment keeps the storage of `key` (the buffer of a short
string), the bytes found there are those of the value `key` held before,
`oldKey`, from its second byte on. -/
def emptyStackCompare (oldKey buf : Bytes) (nextPtr : Nat) : Bool :=
  strncmpEq oldKey.tail (buf.drop (nextPtr + 2)) (2 ^ 64 - 1)

/-- The buffer of a file that holds a declaration and the tag `</#0`, which
nothing closes. -/
def strayCloseBuf : Bytes := loadBuffer [] (lit "<?a?></#0")

/-- The state of the master parse of `strayCloseBuf` after the pass that
records the declaration. -/
def afterDecl : ParseState :=
  (parseStep strayCloseBuf (lit "a.xml") true (parseInit [] (lit "a.xml") true)).1

/-! ## Lemmas on maps -/

theorem keyLt_irrefl (a : Bytes) : keyLt a a = false := by
  induction a with
  | nil => rfl
  | cons x xs ih => simp [keyLt, ih]

theorem keyLt_asymm : ∀ a b : Bytes, keyLt a b = true → keyLt b a = false
  | [], [], h => by simp [keyLt] at h
  | [], _ :: _, _ => by simp [keyLt]
  | _ :: _, [], h => by simp [keyLt] at h
  | x :: xs, y :: ys, h => by
    simp only [keyLt] at h ⊢
    by_cases hxy : x < y
    · have : ¬ y < x := by omega
      simp [this, hxy]
    · by_cases hyx : y < x
      · simp [hxy, hyx] at h
      · simp only [hxy, hyx, if_false] at h ⊢
        exact keyLt_asymm xs ys h

theorem StdMap.find_insert_self {V : Type} (m : StdMap V) (key : Bytes) (value : V) :
    (m.insert key value).find key = some value := by
  induction m with
  | nil => simp [StdMap.insert, StdMap.find]
  | cons e rest ih =>
    obtain ⟨k, v⟩ := e
    simp only [StdMap.insert]
    split
    · simp [StdMap.find]
    · split
      · simp [StdMap.find]
      · rename_i h _
        simp [StdMap.find, h, ih]

theorem StdMap.find_insert_ne {V : Type} (m : StdMap V) (key other : Bytes) (value : V)
    (h : other ≠ key) : (m.insert key value).find other = m.find other := by
  induction m with
  | nil => simp [StdMap.insert, StdMap.find, h]
  | cons e rest ih =>
    obtain ⟨k, v⟩ := e
    simp only [StdMap.insert]
    split
    · rename_i hk
      subst hk
      simp [StdMap.find, h]
    · split
      · simp [StdMap.find, h]
      · simp only [StdMap.find, ih]

/-! ## Lemmas on the merge engine -/

theorem updateLoop_flag (key statement : Bytes) (l : List (Bytes × FileData)) (u : Bool) :
    (updateLoop key statement l u).2.1
      = (u || l.any fun file => (file.2.data.find key).isSome) := by
  induction l generalizing u with
  | nil => simp [updateLoop]
  | cons f rest ih =>
    obtain ⟨path, fd⟩ := f
    simp only [updateLoop]
    cases hf : fd.data.find key with
    | none => simp [ih, hf]
    | some prev =>
      cases u <;> simp [ih, hf]

theorem updateLoop_absent (key statement : Bytes) (l : List (Bytes × FileData)) (u : Bool)
    (i : Nat) (path : Bytes) (fd : FileData)
    (hi : l[i]? = some (path, fd)) (hk : fd.data.find key = none) :
    (updateLoop key statement l u).1[i]?
      = some (path, { fd with extra := fd.extra.insert key statement }) := by
  induction l generalizing u i with
  | nil => simp at hi
  | cons f rest ih =>
    obtain ⟨p, d⟩ := f
    cases i with
    | zero =>
      simp only [List.getElem?_cons_zero, Option.some.injEq, Prod.mk.injEq] at hi
      obtain ⟨rfl, rfl⟩ := hi
      simp [updateLoop, hk]
    | succ j =>
      simp only [List.getElem?_cons_succ] at hi
      simp only [updateLoop]
      cases hf : d.data.find key with
      | none => simpa using ih u j hi
      | some prev =>
        cases u
        · simpa using ih true j hi
        · simpa using ih true j hi

theorem updateLoop_later (key statement : Bytes) (l : List (Bytes × FileData))
    (i : Nat) (path : Bytes) (fd : FileData)
    (hi : l[i]? = some (path, fd)) (hk : (fd.data.find key).isSome = true) :
    (updateLoop key statement l true).1[i]? = some (path, fd) := by
  induction l generalizing i with
  | nil => simp at hi
  | cons f rest ih =>
    obtain ⟨p, d⟩ := f
    cases i with
    | zero =>
      simp only [List.getElem?_cons_zero, Option.some.injEq, Prod.mk.injEq] at hi
      obtain ⟨rfl, rfl⟩ := hi
      obtain ⟨prev, hp⟩ := Option.isSome_iff_exists.mp hk
      simp [updateLoop, hp]
    | succ j =>
      simp only [List.getElem?_cons_succ] at hi
      simp only [updateLoop]
      cases hf : d.data.find key with
      | none => simpa using ih j hi
      | some prev => simpa using ih j hi

theorem updateLoop_first (key statement : Bytes) (pre post : List (Bytes × FileData))
    (path : Bytes) (fd : FileData) (old : Bytes)
    (hpre : ∀ file ∈ pre, file.2.data.find key = none)
    (hk : fd.data.find key = some old) :
    (updateLoop key statement (pre ++ (path, fd) :: post) false).1[pre.length]?
      = some (path, { fd with
          updates := if old = [] ∨ equalIgnoreWhite old statement = false
                     then fd.updates.insert key old else fd.updates
          data := fd.data.insert key statement }) := by
  induction pre with
  | nil =>
    simp only [List.nil_append, updateLoop, hk, List.length_nil]
    by_cases h1 : old = []
    · simp [h1]
    · cases h2 : equalIgnoreWhite old statement <;> simp [h1, h2]
  | cons f rest ih =>
    obtain ⟨p, d⟩ := f
    have hd : d.data.find key = none := hpre (p, d) (by simp)
    have hrest : ∀ file ∈ rest, file.2.data.find key = none :=
      fun file hf => hpre file (by simp [hf])
    simp only [List.cons_append, updateLoop, hd, List.length_cons, List.getElem?_cons_succ]
    exact ih hrest

theorem updateLoop_unmatched (key statement : Bytes) (l : List (Bytes × FileData)) (u : Bool)
    (h : ∀ file ∈ l, file.2.data.find key = none) :
    updateLoop key statement l u
      = (l.map fun file => (file.1, { file.2 with extra := file.2.extra.insert key statement }),
          u, []) := by
  induction l with
  | nil => rfl
  | cons f rest ih =>
    obtain ⟨p, d⟩ := f
    have hd : d.data.find key = none := h (p, d) (by simp)
    have hrest : ∀ file ∈ rest, file.2.data.find key = none :=
      fun file hf => h file (by simp [hf])
    simp [updateLoop, hd, ih hrest]

theorem updateLoop_paths (key statement : Bytes) (l : List (Bytes × FileData)) (u : Bool) :
    (updateLoop key statement l u).1.map Prod.fst = l.map Prod.fst := by
  induction l generalizing u with
  | nil => rfl
  | cons f rest ih =>
    obtain ⟨p, d⟩ := f
    simp only [updateLoop]
    cases hf : d.data.find key with
    | none => simp [ih]
    | some prev => cases u <;> simp [ih]

theorem updateLoop_split (key statement : Bytes) (pre post : List (Bytes × FileData))
    (path : Bytes) (fd : FileData) (old : Bytes)
    (hpre : ∀ file ∈ pre, file.2.data.find key = none)
    (hk : fd.data.find key = some old)
    (i : Nat) (p : Bytes) (d : FileData)
    (hi : (pre ++ (path, fd) :: post)[i]? = some (p, d))
    (hlt : pre.length < i) (hd : (d.data.find key).isSome = true) :
    (updateLoop key statement (pre ++ (path, fd) :: post) false).1[i]? = some (p, d) := by
  induction pre generalizing i with
  | nil =>
    cases i with
    | zero => simp at hlt
    | succ j =>
      simp only [List.nil_append, List.getElem?_cons_succ] at hi
      have h := updateLoop_later key statement post j p d hi hd
      simpa [updateLoop, hk] using h
  | cons f rest ih =>
    obtain ⟨q, e⟩ := f
    have he : e.data.find key = none := hpre (q, e) (by simp)
    have hrest : ∀ file ∈ rest, file.2.data.find key = none :=
      fun file hf => hpre file (by simp [hf])
    cases i with
    | zero => simp at hlt
    | succ j =>
      simp only [List.cons_append, List.getElem?_cons_succ] at hi
      simp only [List.cons_append, updateLoop, he, List.getElem?_cons_succ]
      exact ih hrest j hi (by simpa using hlt)

/-! ## Lemmas on the scanner -/

theorem greedy_some {α : Type} (f : Nat → Option α) (lo n : Nat) (r : α)
    (h : greedy f lo n = some r) : ∃ m, lo ≤ m ∧ m ≤ n ∧ f m = some r := by
  induction n with
  | zero =>
    simp only [greedy] at h
    split at h
    · rename_i h0
      exact ⟨0, by omega, Nat.le_refl _, h⟩
    · exact absurd h (by simp)
  | succ k ih =>
    simp only [greedy] at h
    split at h
    · exact absurd h (by simp)
    · rename_i hlo
      cases hf : f (k + 1) with
      | some v =>
        rw [hf] at h
        simp only [Option.some.injEq] at h
        subst h
        exact ⟨k + 1, by omega, Nat.le_refl _, hf⟩
      | none =>
        rw [hf] at h
        obtain ⟨m, h1, h2, h3⟩ := ih h
        exact ⟨m, h1, by omega, h3⟩

theorem regex_search_wellFormed (matchAt : Bytes → Option (Nat × Bytes))
    (h : ∀ s r, matchAt s = some r → 0 < r.1 ∧ r.1 ≤ s.length) :
    Regex.WellFormed (regex_search matchAt) := by
  intro s
  induction s with
  | nil =>
    intro m hm
    simp only [regex_search, Option.map_eq_some'] at hm
    obtain ⟨r, hr, rfl⟩ := hm
    simpa using h [] r hr
  | cons c rest ih =>
    intro m hm
    simp only [regex_search] at hm
    cases hc : matchAt (c :: rest) with
    | some r =>
      rw [hc] at hm
      simp only [Option.some.injEq] at hm
      subst hm
      simpa using h (c :: rest) r hc
    | none =>
      rw [hc] at hm
      simp only [Option.map_eq_some'] at hm
      obtain ⟨m0, hm0, rfl⟩ := hm
      have := ih m0 hm0
      simp only [List.length_cons]
      omega

theorem blankRun_le (s : Bytes) : blankRun s ≤ s.length := by
  unfold blankRun
  exact (List.takeWhile_sublist _).length_le

theorem litBlankAt_bound (l : Bytes) (hl : l ≠ []) (s : Bytes) (r : Nat × Bytes)
    (h : litBlankAt l s = some r) : 0 < r.1 ∧ r.1 ≤ s.length := by
  unfold litBlankAt at h
  split at h
  · rename_i hp
    simp only [Option.some.injEq] at h
    subst h
    have hpre : l <+: s := List.isPrefixOf_iff_prefix.mp hp
    have h1 : l.length ≤ s.length := hpre.length_le
    have h2 := blankRun_le (s.drop l.length)
    have h3 : 0 < l.length := List.length_pos.mpr hl
    simp only [List.length_drop] at h2
    constructor
    · show 0 < l.length + blankRun (List.drop l.length s)
      omega
    · show l.length + blankRun (List.drop l.length s) ≤ s.length
      omega
  · exact absurd h (by simp)

theorem eoxAt_bound (s : Bytes) (r : Nat × Bytes) (h : eoxAt s = some r) :
    0 < r.1 ∧ r.1 ≤ s.length := by
  unfold eoxAt at h
  split at h
  · rename_i rest
    obtain ⟨n, _, _, hn⟩ := greedy_some _ _ _ _ h
    split at hn
    · rename_i after hdrop
      simp only [Option.some.injEq] at hn
      subst hn
      have h2 := blankRun_le after
      have h3 : (rest.drop n).length = after.length + 1 := by rw [hdrop]; rfl
      simp only [List.length_drop] at h3
      simp only [List.length_cons]
      constructor <;> omega
    · exact absurd hn (by simp)
  · exact absurd h (by simp)

theorem xmlPatEnd_wellFormed : Regex.WellFormed xmlPatEnd :=
  regex_search_wellFormed _ (litBlankAt_bound _ (by decide))

theorem commentPatEnd_wellFormed : Regex.WellFormed commentPatEnd :=
  regex_search_wellFormed _ (litBlankAt_bound _ (by decide))

theorem stringPatEnd_wellFormed : Regex.WellFormed stringPatEnd :=
  regex_search_wellFormed _ (litBlankAt_bound _ (by decide))

theorem eoxPat_wellFormed : Regex.WellFormed eoxPat :=
  regex_search_wellFormed _ eoxAt_bound

theorem getStatement_true (pat : Regex) (hpat : Regex.WellFormed pat) (buf : Bytes)
    (pos : Nat) (out : Bytes) (h : (getStatement pat buf pos out).1 = true) :
    pos < (getStatement pat buf pos out).2.2
      ∧ (getStatement pat buf pos out).2.2 ≤ buf.length
      ∧ (getStatement pat buf pos out).2.1
          = (buf.drop pos).take ((getStatement pat buf pos out).2.2 - pos) := by
  unfold getStatement at h ⊢
  cases hm : pat (buf.drop pos) with
  | none => simp [hm] at h
  | some m =>
    have hw := hpat _ m hm
    simp only [List.length_drop] at hw
    simp only []
    refine ⟨by omega, by omega, ?_⟩
    congr 1
    omega

theorem getStatement_false (pat : Regex) (buf : Bytes) (pos : Nat) (out : Bytes)
    (h : (getStatement pat buf pos out).1 = false) :
    (getStatement pat buf pos out).2.2 = pos ∧ (getStatement pat buf pos out).2.1 = out := by
  unfold getStatement at h ⊢
  cases hm : pat (buf.drop pos) with
  | none => simp
  | some m => simp [hm] at h

theorem getNext_pos (pat : Regex) (buf : Bytes) (pos : Nat) :
    pos ≤ (getNext pat buf pos).2
      ∧ ∀ nextPtr, (getNext pat buf pos).1 = some nextPtr → nextPtr = (getNext pat buf pos).2 := by
  unfold getNext
  cases hm : pat (buf.drop pos) with
  | none => simp
  | some m =>
    simp only []
    refine ⟨by omega, ?_⟩
    intro nextPtr h
    split at h
    · simpa using h.symm
    · exact absurd h (by simp)

/-! ## Lemmas on the writer and the rows of the parser -/

theorem StdMap.mem_keys_insert_self {V : Type} (m : StdMap V) (key : Bytes) (value : V) :
    key ∈ (m.insert key value).keys := by
  induction m with
  | nil => simp [StdMap.insert, StdMap.keys]
  | cons e rest ih =>
    obtain ⟨k, v⟩ := e
    simp only [StdMap.insert]
    split
    · simp [StdMap.keys]
    · split
      · simp [StdMap.keys]
      · simp only [StdMap.keys, List.map_cons, List.mem_cons] at ih ⊢
        exact Or.inr ih

theorem StdMap.mem_keys_insert_of_mem {V : Type} (m : StdMap V) (key other : Bytes)
    (value : V) (h : other ∈ m.keys) : other ∈ (m.insert key value).keys := by
  induction m with
  | nil => simp [StdMap.keys] at h
  | cons e rest ih =>
    obtain ⟨k, v⟩ := e
    simp only [StdMap.keys, List.map_cons, List.mem_cons] at h
    simp only [StdMap.insert]
    split
    · rename_i hk
      simp only [StdMap.keys, List.map_cons, List.mem_cons]
      rcases h with h | h
      · exact Or.inl (h.trans hk.symm)
      · exact Or.inr h
    · split
      · simp only [StdMap.keys, List.map_cons, List.mem_cons]
        exact Or.inr h
      · simp only [StdMap.keys, List.map_cons, List.mem_cons]
        rcases h with h | h
        · exact Or.inl h
        · exact Or.inr (ih h)

theorem writeLoop_congr (fd fd' : FileData) (l : List Bytes)
    (h : ∀ key ∈ l, rowText fd' key = rowText fd key) : writeLoop fd' l = writeLoop fd l := by
  induction l with
  | nil => rfl
  | cons k rest ih =>
    have hk : rowText fd' k = rowText fd k := h k (by simp)
    have hrest : ∀ key ∈ rest, rowText fd' key = rowText fd key :=
      fun key hm => h key (by simp [hm])
    simp only [writeLoop, hk, ih hrest]

theorem writeLoop_append (fd : FileData) (l : List Bytes) (key out str : Bytes)
    (hl : writeLoop fd l = some out) (hk : rowText fd key = some str) :
    writeLoop fd (l ++ [key]) = some (out ++ str) := by
  induction l generalizing out with
  | nil =>
    simp only [writeLoop, Option.some.injEq] at hl
    subst hl
    simp [writeLoop, hk]
  | cons k rest ih =>
    simp only [writeLoop] at hl
    cases hr : rowText fd k with
    | none => simp [hr] at hl
    | some t =>
      rw [hr] at hl
      simp only [Option.map_eq_some'] at hl
      obtain ⟨o, ho, rfl⟩ := hl
      simp [writeLoop, hr, ih o ho]

theorem writeRows_pushMeta (fd : FileData) (key str out : Bytes)
    (hw : writeRows fd = some out) (hfresh : key ∉ fd.rows)
    (hkey : key.take 2 = META_PREFIX) :
    writeRows { fd with rows := fd.rows ++ [key], meta := fd.meta.insert key str }
      = some (out ++ str) := by
  unfold writeRows at hw ⊢
  apply writeLoop_append
  · rw [← hw]
    apply writeLoop_congr
    intro k hk
    have hne : k ≠ key := fun h => hfresh (h ▸ hk)
    unfold rowText
    split
    · exact StdMap.find_insert_ne _ _ _ _ hne
    · rfl
  · simp only [rowText, hkey, if_true]
    exact StdMap.find_insert_self _ _ _

theorem writeRows_pushData (fd : FileData) (key str out : Bytes)
    (hw : writeRows fd = some out) (hfresh : key ∉ fd.rows)
    (hkey : key.take 2 ≠ META_PREFIX) :
    writeRows { fd with rows := fd.rows ++ [key], data := fd.data.insert key str }
      = some (out ++ str) := by
  unfold writeRows at hw ⊢
  apply writeLoop_append
  · rw [← hw]
    apply writeLoop_congr
    intro k hk
    have hne : k ≠ key := fun h => hfresh (h ▸ hk)
    unfold rowText
    split
    · rfl
    · exact StdMap.find_insert_ne _ _ _ _ hne
  · simp only [rowText, hkey, if_false]
    exact StdMap.find_insert_self _ _ _

theorem take_append_span (buf : Bytes) (a b : Nat) (h : a ≤ b) :
    buf.take a ++ (buf.drop a).take (b - a) = buf.take b := by
  have : b = a + (b - a) := by omega
  conv_rhs => rw [this, List.take_add]

theorem nextKey_take_two (num : Nat) : (nextKey num).take 2 = META_PREFIX := by
  unfold nextKey
  rw [List.take_take]
  show List.take 2 (META_PREFIX ++ formatD num) = META_PREFIX
  exact List.take_left' rfl

theorem pushMeta_written (buf filePath : Bytes) (st : ParseState) (upTo : Nat)
    (hw : Written buf st upTo) (hkey : st.key.take 2 = META_PREFIX)
    (hstmt : st.statement = (buf.drop upTo).take (st.pos - upTo)) (hle : upTo ≤ st.pos) :
    Written buf (pushMeta filePath st) st.pos := by
  intro hl
  obtain ⟨h0, hnd, hkeys⟩ := hl
  simp only [pushMeta] at h0 hnd hkeys ⊢
  have hnd' := List.nodup_append.mp hnd
  have hfresh : st.key ∉ st.fileData.rows := fun hm => hnd'.2.2 hm (by simp)
  have hprev := hw ⟨h0, hnd'.1, hkeys⟩
  rw [writeRows_pushMeta _ _ _ _ hprev hfresh hkey, hstmt, take_append_span buf _ _ hle]

theorem pushData_written (buf filePath : Bytes) (st : ParseState) (upTo : Nat)
    (hw : Written buf st upTo)
    (hstmt : st.statement = (buf.drop upTo).take (st.pos - upTo)) (hle : upTo ≤ st.pos) :
    Written buf (pushData filePath st) st.pos := by
  intro hl
  obtain ⟨h0, hnd, hkeys⟩ := hl
  simp only [pushData] at h0 hnd hkeys ⊢
  have hnd' := List.nodup_append.mp hnd
  have hfresh : st.key ∉ st.fileData.rows := fun hm => hnd'.2.2 hm (by simp)
  have hkey : st.key.take 2 ≠ META_PREFIX :=
    hkeys _ (StdMap.mem_keys_insert_self _ _ _)
  have hprev := hw ⟨h0, hnd'.1,
    fun k hk => hkeys k (StdMap.mem_keys_insert_of_mem _ _ _ _ hk)⟩
  rw [writeRows_pushData _ _ _ _ hprev hfresh hkey, hstmt, take_append_span buf _ _ hle]

theorem gapRow_written (buf filePath : Bytes) (st : ParseState)
    (hle : st.lastPos ≤ st.pos) (hw : Written buf st st.lastPos) :
    Written buf (gapRow buf filePath true st) st.pos
      ∧ (gapRow buf filePath true st).pos = st.pos
      ∧ (gapRow buf filePath true st).lastPos = st.lastPos := by
  unfold gapRow
  split
  · refine ⟨?_, rfl, rfl⟩
    simp only [if_true]
    exact pushMeta_written buf filePath
      { st with key := nextKey st.row, row := incr st.row,
                statement := (buf.drop st.lastPos).take (st.pos - st.lastPos) }
      st.lastPos hw (nextKey_take_two _) rfl hle
  · refine ⟨?_, rfl, rfl⟩
    intro hl
    obtain ⟨h0, hnd, hkeys⟩ := hl
    simp only [] at h0 hnd hkeys ⊢
    have hpos : st.pos = st.lastPos := by omega
    rw [hpos]
    exact hw ⟨by omega, hnd, hkeys⟩

theorem getStatement_pos_le (pat : Regex) (buf : Bytes) (pos : Nat) (out : Bytes) :
    pos ≤ (getStatement pat buf pos out).2.2 := by
  unfold getStatement
  cases pat (buf.drop pos) with
  | none => exact Nat.le_refl _
  | some m => exact Nat.le_add_right _ _

theorem metaStatement_classified (pat : Regex) (hpat : Regex.WellFormed pat) (buf : Bytes)
    (st : ParseState) :
    Classified buf st (metaStatement pat buf st).1 true (metaStatement pat buf st).2 := by
  have ht := getStatement_true pat hpat buf st.pos st.statement
  have hf := getStatement_false pat buf st.pos st.statement
  have hle := getStatement_pos_le pat buf st.pos st.statement
  unfold metaStatement
  generalize getStatement pat buf st.pos st.statement = r at ht hf hle
  obtain ⟨ok, stmt, pos'⟩ := r
  simp only at ht hf hle
  refine ⟨rfl, rfl, hle, Nat.le_refl _, ?_, ?_⟩
  · intro hok
    obtain ⟨h1, h2, h3⟩ := ht hok
    exact ⟨h1, h2, h3, rfl, fun _ => nextKey_take_two _⟩
  · intro hok _
    exact (hf hok).1

theorem closeStatement_classified (buf : Bytes) (nextPtr : Nat) (st : ParseState) :
    Classified buf st (closeStatement buf nextPtr st).1 true
      (closeStatement buf nextPtr st).2 := by
  have ht := getStatement_true eoxPat eoxPat_wellFormed buf st.pos st.statement
  have hf := getStatement_false eoxPat buf st.pos st.statement
  have hle := getStatement_pos_le eoxPat buf st.pos st.statement
  unfold closeStatement
  cases st.blockKeys.getLast? with
  | none =>
    exact ⟨rfl, rfl, Nat.le_refl _, Nat.le_refl _, fun h => absurd h (by simp),
      fun _ _ => rfl⟩
  | some back =>
    simp only []
    split
    · generalize getStatement eoxPat buf st.pos st.statement = r at ht hf hle
      obtain ⟨ok, stmt, pos'⟩ := r
      simp only at ht hf hle
      refine ⟨rfl, rfl, hle, Nat.le_refl _, ?_, ?_⟩
      · intro hok
        obtain ⟨h1, h2, h3⟩ := ht hok
        exact ⟨h1, h2, h3, rfl, fun _ => nextKey_take_two _⟩
      · intro hok _
        exact (hf hok).1
    · exact ⟨rfl, rfl, Nat.le_refl _, Nat.le_refl _, fun h => absurd h (by simp),
        fun _ _ => rfl⟩

theorem stringStatement_classified (buf filePath : Bytes) (nextPtr : Nat) (st : ParseState) :
    Classified buf st (stringStatement buf filePath nextPtr st).1
      (stringStatement buf filePath nextPtr st).2.1
      (stringStatement buf filePath nextPtr st).2.2 := by
  have ht := getStatement_true stringPatEnd stringPatEnd_wellFormed buf st.pos st.statement
  have hf := getStatement_false stringPatEnd buf st.pos st.statement
  have hle := getStatement_pos_le stringPatEnd buf st.pos st.statement
  unfold stringStatement
  split
  · generalize getStatement stringPatEnd buf st.pos st.statement = r at ht hf hle
    obtain ⟨ok, stmt, pos'⟩ := r
    simp only at ht hf hle
    simp only []
    cases stringPat (clean stmt) with
    | some m =>
      simp only []
      cases ok with
      | true =>
        obtain ⟨h1, h2, h3⟩ := ht rfl
        exact ⟨rfl, rfl, hle, Nat.le_refl _,
          fun _ => ⟨h1, h2, h3, rfl, fun h => absurd h (by simp)⟩,
          fun h => absurd h (by simp)⟩
      | false =>
        exact ⟨rfl, rfl, hle, Nat.le_refl _, fun h => absurd h (by simp),
          fun _ _ => (hf rfl).1⟩
    | none =>
      simp only []
      refine ⟨rfl, rfl, hle, Nat.le_add_right _ _, fun h => absurd h (by simp), ?_⟩
      intro _ hsk
      have hsk' : st.skipped + (pos' - st.pos) = st.skipped := hsk
      show pos' = st.pos
      omega
  · exact ⟨rfl, rfl, Nat.le_refl _, Nat.le_refl _, fun h => absurd h (by simp),
      fun _ _ => rfl⟩

theorem classify_classified (buf filePath : Bytes) (nextPtr : Nat) (st : ParseState) :
    Classified buf st (classify buf filePath nextPtr st).1
      (classify buf filePath nextPtr st).2.1 (classify buf filePath nextPtr st).2.2 := by
  unfold classify
  simp only []
  split
  · exact metaStatement_classified xmlPatEnd xmlPatEnd_wellFormed buf st
  · split
    · exact metaStatement_classified commentPatEnd commentPatEnd_wellFormed buf st
    · split
      · exact closeStatement_classified buf nextPtr st
      · split
        · exact stringStatement_classified buf filePath nextPtr st
        · exact ⟨rfl, rfl, Nat.le_refl _, Nat.le_refl _, fun h => absurd h (by simp),
            fun _ _ => rfl⟩

theorem record_pos (buf filePath : Bytes) (master okay isMeta : Bool) (st st' : ParseState)
    (h : record buf filePath master okay isMeta st = some st') :
    (okay = true → st'.pos = st.pos)
      ∧ (okay = false → st.pos < st'.pos ∧ st'.pos ≤ buf.length) := by
  have ht := getStatement_true eoxPat eoxPat_wellFormed buf st.pos st.statement
  unfold record at h
  cases okay with
  | true =>
    refine ⟨fun _ => ?_, fun hf => absurd hf (by simp)⟩
    simp only [if_true] at h
    cases master <;> cases isMeta <;> simp at h <;> subst h <;> rfl
  | false =>
    refine ⟨fun hf => absurd hf (by simp), fun _ => ?_⟩
    simp only [Bool.false_eq_true, if_false] at h
    generalize getStatement eoxPat buf st.pos st.statement = r at ht h
    obtain ⟨ok, stmt, pos'⟩ := r
    simp only at ht h
    cases ok with
    | false => simp at h
    | true =>
      obtain ⟨h1, h2, _⟩ := ht rfl
      cases master <;> simp at h <;> subst h <;> exact ⟨h1, h2⟩

theorem record_written (buf filePath : Bytes) (okay isMeta : Bool) (st st' : ParseState)
    (upTo : Nat)
    (h : record buf filePath true okay isMeta st = some st')
    (hok : okay = true → Written buf st upTo ∧ upTo ≤ st.pos
      ∧ st.statement = (buf.drop upTo).take (st.pos - upTo)
      ∧ (isMeta = true → st.key.take 2 = META_PREFIX))
    (hno : okay = false → Written buf st st.pos) :
    Written buf st' st'.pos := by
  have ht := getStatement_true eoxPat eoxPat_wellFormed buf st.pos st.statement
  unfold record at h
  cases okay with
  | true =>
    obtain ⟨hw, hle, hstmt, hkey⟩ := hok rfl
    simp only [if_true] at h
    cases isMeta with
    | true =>
      simp only [if_true, Option.some.injEq] at h
      subst h
      exact pushMeta_written buf filePath st upTo hw (hkey rfl) hstmt hle
    | false =>
      simp only [Bool.false_eq_true, if_false, Option.some.injEq] at h
      subst h
      exact pushData_written buf filePath st upTo hw hstmt hle
  | false =>
    have hw := hno rfl
    simp only [Bool.false_eq_true, if_false] at h
    generalize getStatement eoxPat buf st.pos st.statement = r at ht h
    obtain ⟨ok, stmt, pos'⟩ := r
    simp only at ht h
    cases ok with
    | false => simp at h
    | true =>
      obtain ⟨h1, _, h3⟩ := ht rfl
      simp only [if_true, Option.some.injEq] at h
      subst h
      exact pushMeta_written buf filePath
        { st with statement := stmt, pos := pos', blockKeys := st.blockKeys ++ [stmt],
                  key := nextKey st.row, row := incr st.row }
        st.pos hw (nextKey_take_two _) h3 (Nat.le_of_lt h1)

theorem parseStep_progress (buf filePath : Bytes) (master : Bool) (st st' : ParseState)
    (h : parseStep buf filePath master st = (st', none)) :
    st.pos < st'.pos ∧ st'.pos ≤ buf.length ∧ st'.lastPos = st'.pos := by
  have hn := getNext_pos begPat buf st.pos
  unfold parseStep at h
  generalize getNext begPat buf st.pos = g at hn h
  obtain ⟨ptr, pos1⟩ := g
  cases ptr with
  | none => simp at h
  | some nextPtr =>
    simp only at h hn
    have hg : (gapRow buf filePath master { st with pos := pos1 }).pos = pos1 := by
      unfold gapRow
      split
      · cases master <;> rfl
      · rfl
    have hc := classify_classified buf filePath nextPtr
      (gapRow buf filePath master { st with pos := pos1 })
    generalize gapRow buf filePath master { st with pos := pos1 } = st1 at hg hc h
    generalize classify buf filePath nextPtr st1 = c at hc h
    obtain ⟨okay, isMeta, st2⟩ := c
    simp only at hc h
    cases hr : record buf filePath master okay isMeta st2 with
    | none => simp [hr] at h
    | some st3 =>
      rw [hr] at h
      simp only [Prod.mk.injEq, and_true] at h
      subst h
      have hp := record_pos buf filePath master okay isMeta st2 st3 hr
      obtain ⟨_, _, hle, _, hokay, _⟩ := hc
      refine ⟨?_, ?_, rfl⟩
      · show st.pos < st3.pos
        cases okay with
        | true =>
          have := hp.1 rfl
          have := (hokay rfl).1
          omega
        | false =>
          have := (hp.2 rfl).1
          omega
      · show st3.pos ≤ buf.length
        cases okay with
        | true =>
          have := hp.1 rfl
          have := (hokay rfl).2.1
          omega
        | false => exact (hp.2 rfl).2

theorem parseStep_written (buf filePath : Bytes) (st st' : ParseState)
    (hpos : st.pos = st.lastPos) (hw : Written buf st st.lastPos)
    (h : parseStep buf filePath true st = (st', none)) :
    Written buf st' st'.lastPos ∧ st'.pos = st'.lastPos := by
  have hn := getNext_pos begPat buf st.pos
  unfold parseStep at h
  generalize getNext begPat buf st.pos = g at hn h
  obtain ⟨ptr, pos1⟩ := g
  cases ptr with
  | none => simp at h
  | some nextPtr =>
    simp only at h hn
    have hg := gapRow_written buf filePath { st with pos := pos1 }
      (by show st.lastPos ≤ pos1; omega) hw
    have hc := classify_classified buf filePath nextPtr
      (gapRow buf filePath true { st with pos := pos1 })
    generalize gapRow buf filePath true { st with pos := pos1 } = st1 at hg hc h
    generalize classify buf filePath nextPtr st1 = c at hc h
    obtain ⟨okay, isMeta, st2⟩ := c
    simp only at hc h hg
    obtain ⟨hw1, hp1, _⟩ := hg
    obtain ⟨hfd, _, hle, hsk, hokay, hnot⟩ := hc
    cases hr : record buf filePath true okay isMeta st2 with
    | none => simp [hr] at h
    | some st3 =>
      rw [hr] at h
      simp only [Prod.mk.injEq, and_true] at h
      subst h
      refine ⟨?_, rfl⟩
      show Written buf { st3 with lastPos := st3.pos } st3.pos
      have hw3 : Written buf st3 st3.pos := by
        apply record_written buf filePath okay isMeta st2 st3 st1.pos hr
        · intro hok
          obtain ⟨h1, _, h3, h4, h5⟩ := hokay hok
          refine ⟨?_, Nat.le_of_lt h1, h3, h5⟩
          intro hl
          rw [hfd, h4] at hl
          rw [hfd, hp1]
          exact hw1 hl
        · intro hok hl
          have h0 : st2.skipped = 0 := hl.1
          have hs : st2.skipped = st1.skipped := by omega
          rw [hfd, hs] at hl
          rw [hfd, hnot hok hs, hp1]
          exact hw1 hl
      exact hw3

theorem parseStep_done (buf filePath : Bytes) (master : Bool) (st st' : ParseState)
    (h : parseStep buf filePath master st = (st', some true)) :
    st'.fileData = st.fileData ∧ st'.lastPos = st.lastPos ∧ st'.skipped = st.skipped
      ∧ st'.filesData = st.filesData := by
  unfold parseStep at h
  generalize getNext begPat buf st.pos = g at h
  obtain ⟨ptr, pos1⟩ := g
  cases ptr with
  | none =>
    simp only [Prod.mk.injEq] at h
    obtain ⟨h1, _⟩ := h
    subst h1
    exact ⟨rfl, rfl, rfl, rfl⟩
  | some nextPtr =>
    simp only at h
    split at h <;> simp at h

theorem parseLoop_total (buf filePath : Bytes) (master : Bool) (fuel : Nat) (st : ParseState)
    (hfuel : buf.length + 1 ≤ st.pos + fuel) (hpos : 1 ≤ fuel) :
    (parseLoop buf filePath master fuel st).isSome = true := by
  induction fuel generalizing st with
  | zero => omega
  | succ f ih =>
    unfold parseLoop
    cases hs : parseStep buf filePath master st with
    | mk st1 ret =>
      cases ret with
      | some b => rfl
      | none =>
        obtain ⟨h1, h2, _⟩ := parseStep_progress buf filePath master st st1 hs
        exact ih st1 (by omega) (by omega)

theorem parseLoop_written (buf filePath : Bytes) (fuel : Nat) (st stF : ParseState)
    (hpos : st.pos = st.lastPos) (hw : Written buf st st.lastPos)
    (h : parseLoop buf filePath true fuel st = some (stF, true)) :
    Written buf stF stF.lastPos := by
  induction fuel generalizing st with
  | zero => simp [parseLoop] at h
  | succ f ih =>
    unfold parseLoop at h
    cases hs : parseStep buf filePath true st with
    | mk st1 ret =>
      rw [hs] at h
      cases ret with
      | some b =>
        simp only [Option.some.injEq, Prod.mk.injEq] at h
        obtain ⟨h1, h2⟩ := h
        subst h1 h2
        obtain ⟨hfd, hlp, hsk, _⟩ := parseStep_done buf filePath true st st1 hs
        intro hl
        rw [hfd, hsk] at hl
        rw [hfd, hlp]
        exact hw hl
      | none =>
        obtain ⟨hw1, hp1⟩ := parseStep_written buf filePath st st1 hpos hw hs
        exact ih st1 hp1 hw1 h

theorem equalIgnoreWhiteLoop_self (fuel : Nat) (p : Bytes) (hnul : ∀ c ∈ p, c ≠ 0)
    (hfuel : p.length ≤ fuel) : equalIgnoreWhiteLoop fuel p p = true := by
  induction fuel generalizing p with
  | zero =>
    have hp : p = [] := List.length_eq_zero.mp (Nat.le_zero.mp hfuel)
    subst hp
    rfl
  | succ f ih =>
    unfold equalIgnoreWhiteLoop
    split
    · rename_i h0
      rw [h0]
      rfl
    · simp only [ne_eq, not_true_eq_false, if_false]
      split
      · rename_i h0
        rw [h0]
        rfl
      · rename_i hq
        have hsub : (p.dropWhile isspace).tail.Sublist p :=
          (List.tail_sublist _).trans (List.dropWhile_sublist _)
        apply ih
        · intro c hc
          exact hnul c (hsub.subset hc)
        · have hlen : (p.dropWhile isspace).length ≤ p.length :=
            (List.dropWhile_sublist _).length_le
          have hne : p.dropWhile isspace ≠ [] := by
            intro he
            rw [he] at hq
            exact hq rfl
          have := List.length_pos.mpr hne
          simp only [List.length_tail]
          omega

theorem equalIgnoreWhite_self (str : Bytes) : equalIgnoreWhite str str = true := by
  unfold equalIgnoreWhite
  apply equalIgnoreWhiteLoop_self _ _ _ (Nat.le_refl _)
  intro c hc
  have := List.mem_takeWhile_imp hc
  simpa [c_str] using this

/-! ## Merge engine: claims -/

/-- C7: `update(key, newText)` returns true if and only if, before the call,
at least one document of the Document Set has `key` in its data map. -/
theorem update_true_iff_some_document_has_key (filesData : FilesData) (key statement : Bytes) :
    (update filesData key statement).2.1 = true
      ↔ ∃ file ∈ filesData, (file.2.data.find key).isSome = true := by
  simp [update, updateLoop_flag]

/-- C8: in the first document, in iteration order, whose data contains `key`,
`update(key, newText)` sets `data[key] = newText` unconditionally and sets
`updates[key]` to the old value exactly when the old value is empty or differs
from `newText` under `equalIgnoreWhite`; otherwise the updates map of that
document is unchanged.  Rows, meta and extra of the document stay as they were. -/
theorem update_first_match_effect (pre post : List (Bytes × FileData)) (path : Bytes)
    (fd : FileData) (key statement old : Bytes)
    (hpre : ∀ file ∈ pre, file.2.data.find key = none)
    (hk : fd.data.find key = some old) :
    ∃ fd', (update (pre ++ (path, fd) :: post) key statement).1[pre.length]? = some (path, fd')
      ∧ fd'.data = fd.data.insert key statement
      ∧ fd'.data.find key = some statement
      ∧ ((old = [] ∨ equalIgnoreWhite old statement = false) →
          fd'.updates = fd.updates.insert key old ∧ fd'.updates.find key = some old)
      ∧ (¬ (old = [] ∨ equalIgnoreWhite old statement = false) → fd'.updates = fd.updates)
      ∧ fd'.rows = fd.rows ∧ fd'.meta = fd.meta ∧ fd'.extra = fd.extra := by
  refine ⟨_, updateLoop_first key statement pre post path fd old hpre hk, rfl, ?_, ?_, ?_,
    rfl, rfl, rfl⟩
  · exact StdMap.find_insert_self _ _ _
  · intro h
    have e : (if old = [] ∨ equalIgnoreWhite old statement = false
        then fd.updates.insert key old else fd.updates) = fd.updates.insert key old := if_pos h
    refine ⟨e, ?_⟩
    show StdMap.find (if old = [] ∨ equalIgnoreWhite old statement = false
        then fd.updates.insert key old else fd.updates) key = some old
    rw [e]
    exact StdMap.find_insert_self _ _ _
  · intro h
    exact if_neg h

/-- Witness of C8: one document before the match, the match has an empty value. -/
theorem update_first_match_effect_witness :
    ∃ fd', (update ([(lit "a", FileData.empty)]
              ++ (lit "b", { FileData.empty with data := [(lit "k", [])] }) :: [])
              (lit "k") (lit "v")).1[[(lit "a", FileData.empty)].length]? = some (lit "b", fd')
      ∧ fd'.data = StdMap.insert [(lit "k", [])] (lit "k") (lit "v")
      ∧ fd'.data.find (lit "k") = some (lit "v")
      ∧ (([] : Bytes) = [] ∨ equalIgnoreWhite [] (lit "v") = false →
          fd'.updates = StdMap.insert [] (lit "k") [] ∧ fd'.updates.find (lit "k") = some [])
      ∧ (¬ (([] : Bytes) = [] ∨ equalIgnoreWhite [] (lit "v") = false) → fd'.updates = [])
      ∧ fd'.rows = [] ∧ fd'.meta = [] ∧ fd'.extra = [] :=
  update_first_match_effect [(lit "a", FileData.empty)] [] (lit "b")
    { FileData.empty with data := [(lit "k", [])] } (lit "k") (lit "v") []
    (by decide) (by decide)

/-- C9: after `update(key, newText)` every document whose data lacks `key`
has `extra[key] = newText`, whether or not another document matched; the
other maps and the rows of such a document are unchanged. -/
theorem update_extra_broadcast (filesData : FilesData) (key statement : Bytes)
    (i : Nat) (path : Bytes) (fd : FileData)
    (hi : filesData[i]? = some (path, fd)) (hk : fd.data.find key = none) :
    ∃ fd', (update filesData key statement).1[i]? = some (path, fd')
      ∧ fd'.extra.find key = some statement
      ∧ fd'.extra = fd.extra.insert key statement
      ∧ fd'.rows = fd.rows ∧ fd'.meta = fd.meta ∧ fd'.data = fd.data
      ∧ fd'.updates = fd.updates :=
  ⟨_, updateLoop_absent key statement filesData false i path fd hi hk,
    StdMap.find_insert_self _ _ _, rfl, rfl, rfl, rfl, rfl⟩

/-- Witness of C9: the second document lacks the key while the first matches. -/
theorem update_extra_broadcast_witness :
    ∃ fd', (update [(lit "a", { FileData.empty with data := [(lit "k", lit "x")] }),
                    (lit "b", FileData.empty)] (lit "k") (lit "v")).1[1]?
        = some (lit "b", fd')
      ∧ fd'.extra.find (lit "k") = some (lit "v")
      ∧ fd'.extra = StdMap.insert [] (lit "k") (lit "v")
      ∧ fd'.rows = [] ∧ fd'.meta = [] ∧ fd'.data = [] ∧ fd'.updates = [] :=
  update_extra_broadcast
    [(lit "a", { FileData.empty with data := [(lit "k", lit "x")] }), (lit "b", FileData.empty)]
    (lit "k") (lit "v") 1 (lit "b") FileData.empty (by decide) (by decide)

/-- C4 as stated fails: the existing value and `newText` are both empty (so
they are equal, with or without whitespace, and `equalIgnoreWhite` agrees),
yet `update` enters the key into the updates map. -/
theorem update_equal_value_counterexample :
    StdMap.find [(lit "k", ([] : Bytes))] (lit "k") = some []
      ∧ equalIgnoreWhite [] [] = true
      ∧ (update [(lit "a.xml", { FileData.empty with data := [(lit "k", [])] })]
            (lit "k") []).1.map (fun file => file.2.updates) = [[(lit "k", [])]]
      ∧ [(lit "a.xml", { FileData.empty with data := [(lit "k", [])] })].map
            (fun file => file.2.updates) = [[]] := by
  decide

/-- C4, amended: when the first document holding `key` has a non-empty value
and `newText` is that value or is reported equal to it by `equalIgnoreWhite`,
`update(key, newText)` leaves the updates map of every document unchanged. -/
theorem update_equal_value_adds_no_update (pre post : List (Bytes × FileData)) (path : Bytes)
    (fd : FileData) (key statement old : Bytes)
    (hpre : ∀ file ∈ pre, file.2.data.find key = none)
    (hk : fd.data.find key = some old)
    (hne : old ≠ [])
    (hsame : statement = old ∨ equalIgnoreWhite old statement = true) :
    (update (pre ++ (path, fd) :: post) key statement).1.map (fun file => file.2.updates)
      = (pre ++ (path, fd) :: post).map (fun file => file.2.updates) := by
  have heq : equalIgnoreWhite old statement = true := by
    rcases hsame with h | h
    · rw [h]
      exact equalIgnoreWhite_self old
    · exact h
  apply List.ext_getElem?
  intro i
  simp only [List.getElem?_map]
  cases hi : (pre ++ (path, fd) :: post)[i]? with
  | none =>
    have hlen : (update (pre ++ (path, fd) :: post) key statement).1.length
        = (pre ++ (path, fd) :: post).length := by
      simpa using congrArg List.length
        (updateLoop_paths key statement (pre ++ (path, fd) :: post) false)
    have hnone : (update (pre ++ (path, fd) :: post) key statement).1[i]? = none := by
      rw [List.getElem?_eq_none_iff] at hi ⊢
      omega
    rw [hnone]
  | some file =>
    obtain ⟨p, d⟩ := file
    cases hd : d.data.find key with
    | none =>
      have hres := updateLoop_absent key statement _ false i p d hi hd
      simp only [update]
      rw [hres]
      rfl
    | some v =>
      rcases Nat.lt_trichotomy i pre.length with hlt | heq' | hgt
      · have hmem : (p, d) ∈ pre := by
          rw [List.getElem?_append_left hlt] at hi
          exact List.getElem?_mem hi
        simp [hpre (p, d) hmem] at hd
      · subst heq'
        have h0 : (pre ++ (path, fd) :: post)[pre.length]? = some (path, fd) := by
          rw [List.getElem?_append_right (Nat.le_refl _)]
          simp
        rw [h0] at hi
        simp only [Option.some.injEq, Prod.mk.injEq] at hi
        have hres := updateLoop_first key statement pre post path fd old hpre hk
        simp only [update]
        rw [hres]
        simp [hne, heq, ← hi.2]
      · have hres := updateLoop_split key statement pre post path fd old hpre hk i p d hi
          hgt (by simp [hd])
        simp only [update]
        rw [hres]

/-- Witness of C4 amended: the value differs from the new text by a blank. -/
theorem update_equal_value_adds_no_update_witness :
    (update (([] : List (Bytes × FileData))
          ++ (lit "a.xml", { FileData.empty with data := [(lit "k", lit "a b")] }) :: [])
        (lit "k") (lit "ab")).1.map (fun file : Bytes × FileData => file.2.updates)
      = (([] : List (Bytes × FileData))
          ++ (lit "a.xml", { FileData.empty with data := [(lit "k", lit "a b")] }) :: []).map
          (fun file : Bytes × FileData => file.2.updates) :=
  update_equal_value_adds_no_update [] [] (lit "a.xml")
    { FileData.empty with data := [(lit "k", lit "a b")] } (lit "k") (lit "ab") (lit "a b")
    (by decide) (by decide) (by decide) (Or.inr (by decide))

/-- C6 as stated fails: `b.xml` is parsed first and `a.xml` second, both with
the key `K`; `update` leaves `data[K]` of the first-parsed `b.xml` as it was and
changes `data[K]` of the later-parsed `a.xml`, which comes first in the map. -/
theorem update_first_parsed_counterexample :
    twoMasters.map (fun r => r.filesData.map fun file => (file.1, file.2.data.find (lit "K")))
        = some [(lit "a.xml", some (lit "<string name=\"K\">two</string>")),
                (lit "b.xml", some (lit "<string name=\"K\">one</string>"))]
      ∧ twoMasters.map (fun r => (update r.filesData (lit "K") (lit "new")).1.map
            fun file => (file.1, file.2.data.find (lit "K")))
        = some [(lit "a.xml", some (lit "new")),
                (lit "b.xml", some (lit "<string name=\"K\">one</string>"))] := by
  decide

/-- C6, amended: given two master documents that both contain key `K`,
entered into the Document Set in either order, `update(K, newText)` changes
`data[K]` only in the document whose path is the smaller one in the byte-wise
order of the map, and leaves the other document unchanged. -/
theorem update_changes_smallest_path (pA pB : Bytes) (dA dB : FileData)
    (key statement vA vB : Bytes)
    (hlt : keyLt pA pB = true)
    (hA : dA.data.find key = some vA) (hB : dB.data.find key = some vB)
    (filesData : FilesData)
    (hset : filesData = (StdMap.insert [] pA dA).insert pB dB
      ∨ filesData = (StdMap.insert [] pB dB).insert pA dA) :
    (((update filesData key statement).1.find pA).bind fun d => d.data.find key) = some statement
      ∧ (update filesData key statement).1.find pB = some dB := by
  have hne : pA ≠ pB := by
    intro h
    rw [h, keyLt_irrefl] at hlt
    exact Bool.noConfusion hlt
  have hgt : keyLt pB pA = false := keyLt_asymm pA pB hlt
  have hfd : filesData = [(pA, dA), (pB, dB)] := by
    rcases hset with h | h
    · simp [h, StdMap.insert, Ne.symm hne, hgt]
    · simp [h, StdMap.insert, hne, hlt]
  subst hfd
  simp [update, updateLoop, hA, hB, StdMap.find, Ne.symm hne, StdMap.find_insert_self]

/-- Witness of C6 amended: `b.xml` entered before `a.xml`. -/
theorem update_changes_smallest_path_witness :
    (((update ((StdMap.insert [] (lit "b.xml")
          { FileData.empty with data := [(lit "K", lit "one")] }).insert (lit "a.xml")
          { FileData.empty with data := [(lit "K", lit "two")] }) (lit "K") (lit "new")).1.find
        (lit "a.xml")).bind fun d => d.data.find (lit "K")) = some (lit "new")
      ∧ (update ((StdMap.insert [] (lit "b.xml")
          { FileData.empty with data := [(lit "K", lit "one")] }).insert (lit "a.xml")
          { FileData.empty with data := [(lit "K", lit "two")] }) (lit "K") (lit "new")).1.find
        (lit "b.xml") = some { FileData.empty with data := [(lit "K", lit "one")] } :=
  update_changes_smallest_path (lit "a.xml") (lit "b.xml")
    { FileData.empty with data := [(lit "K", lit "two")] }
    { FileData.empty with data := [(lit "K", lit "one")] }
    (lit "K") (lit "new") (lit "two") (lit "one") (by decide) (by decide) (by decide) _
    (Or.inr rfl)

/-! ## Scenarios and the separator -/

set_option synthInstance.maxSize 4096 in
set_option maxRecDepth 100000 in
/-- C2: starting from an empty Document Set, after the master parse of a file
with the entries `word1` (Your Drive) and `word2` (Radar) and the slave parse
of a file with `word1` (Votre Disque), the master document has the slave's
entry as `data["word1"]`, the master's previous entry as `updates["word1"]`,
`data["word2"]` unchanged and `extra` empty, and `getUpdates()` returns 1. -/
theorem scenario_word1_update :
    scenarioSlave.map (fun r => r.filesData.map fun file => file.2.data.find (lit "word1"))
        = some [some slaveWord1Entry]
      ∧ scenarioSlave.map (fun r => r.filesData.map fun file => file.2.updates)
        = some [[(lit "word1", masterWord1Entry)]]
      ∧ scenarioMaster.map (fun r => r.filesData.map fun file => file.2.data.find (lit "word1"))
        = some [some masterWord1Entry]
      ∧ scenarioSlave.map (fun r => r.filesData.map fun file => file.2.data.find (lit "word2"))
        = scenarioMaster.map (fun r => r.filesData.map fun file => file.2.data.find (lit "word2"))
      ∧ scenarioMaster.map (fun r => r.filesData.map fun file => file.2.data.find (lit "word2"))
        = some [some (lit "<string name=\"word2\">Radar</string>\n")]
      ∧ scenarioSlave.map (fun r => r.filesData.map fun file => file.2.extra) = some [[]]
      ∧ scenarioSlave.map (fun r => getUpdates r.filesData) = some 1
      ∧ scenarioSlave.map (fun r => r.ok) = some true := by
  decide

set_option maxRecDepth 100000 in
/-- C3 as stated fails: after the master parse of the scenario file,
`ParseFile` called with the separator turns `data["word1"]` of the document
into the empty string. -/
theorem separator_counterexample :
    scenarioMaster.map (fun r => r.filesData.map fun file => file.2.data.find (lit "word1"))
        = some [some masterWord1Entry]
      ∧ scenarioMaster.map (fun r =>
          (ParseFile (fun _ => none) ⟨true, [], r.filesData, 0⟩ separator).1.filesData.map
            fun file => file.2.data.find (lit "word1"))
        = some [some []] := by
  decide

/-- C3, amended: `ParseFile` called with a path equal to the separator
switches the run to slave mode and returns false; it keeps the documents,
their paths, rows, meta, updates and extra and the keys of their data maps,
and sets every data value to the empty string.  The buffer and the error
count are unchanged. -/
theorem separator_effect (fs : FileSystem) (run : Run) :
    (ParseFile fs run separator).1.master = false
      ∧ (ParseFile fs run separator).2 = false
      ∧ (ParseFile fs run separator).1.filesData.map
          (fun file => (file.1, file.2.rows, file.2.meta, file.2.updates, file.2.extra,
            file.2.data.keys))
        = run.filesData.map
          (fun file => (file.1, file.2.rows, file.2.meta, file.2.updates, file.2.extra,
            file.2.data.keys))
      ∧ (∀ file ∈ (ParseFile fs run separator).1.filesData,
          ∀ entry ∈ file.2.data, entry.2 = [])
      ∧ (ParseFile fs run separator).1.buffer = run.buffer
      ∧ (ParseFile fs run separator).1.parseErrCnt = run.parseErrCnt := by
  have h : ParseFile fs run separator
      = ({ run with master := false, filesData := clearData run.filesData }, false) := by
    simp [ParseFile]
  rw [h]
  refine ⟨rfl, rfl, ?_, ?_, rfl, rfl⟩
  · simp [clearData, StdMap.keys, Function.comp_def]
  · intro file hfile entry hentry
    simp only [clearData, List.mem_map] at hfile
    obtain ⟨f0, _, rfl⟩ := hfile
    simp only [List.mem_map] at hentry
    obtain ⟨e0, _, rfl⟩ := hentry
    rfl

theorem foldl_size_one (l : List (Bytes × FileData)) (acc : Nat)
    (h : ∀ file ∈ l, file.2.extra.size = 1) :
    l.foldl (fun extras file => extras + file.2.extra.size) acc = acc + l.length := by
  induction l generalizing acc with
  | nil => rfl
  | cons f rest ih =>
    have hf : f.2.extra.size = 1 := h f (by simp)
    have hrest : ∀ file ∈ rest, file.2.extra.size = 1 := fun file hm => h file (by simp [hm])
    simp only [List.foldl_cons, List.length_cons, hf, ih _ hrest]
    omega

set_option maxRecDepth 100000 in
theorem parse_slaveWord3 (filesData : FilesData) (filePath : Bytes) :
    parse slaveWord3 filesData filePath false
      = some { ok := decide ((update filesData (lit "word3") slaveWord3).1.size > 0)
               filesData := (update filesData (lit "word3") slaveWord3).1
               err := if !(update filesData (lit "word3") slaveWord3).2.1
                      then [LogMsg.extra slaveWord3 filePath] else []
               cerr := (update filesData (lit "word3") slaveWord3).2.2 } := by
  rfl

/-- C10: with N master documents, none of which has the key `word3` and all
with an empty `extra`, the slave parse of a file holding only
`<string name="word3">X</string>` gives every document the entry
`extra["word3"]` with that statement, `getExtras()` returns N, and `update`
returns false (the parser writes the warning for an unmatched entry). -/
theorem scenario_word3_extra (filesData : FilesData) (filePath : Bytes)
    (hkey : ∀ file ∈ filesData, file.2.data.find (lit "word3") = none)
    (hextra : ∀ file ∈ filesData, file.2.extra = [])
    (hN : filesData.length < 4294967296) :
    ∃ r, parse slaveWord3 filesData filePath false = some r
      ∧ r.filesData = filesData.map
          (fun file => (file.1, { file.2 with extra := [(lit "word3", slaveWord3)] }))
      ∧ (∀ file ∈ r.filesData, file.2.extra.find (lit "word3") = some slaveWord3)
      ∧ getExtras r.filesData = filesData.length
      ∧ (update filesData (lit "word3") slaveWord3).2.1 = false
      ∧ r.err = [LogMsg.extra slaveWord3 filePath] := by
  have hu := updateLoop_unmatched (lit "word3") slaveWord3 filesData false hkey
  have hfd : (update filesData (lit "word3") slaveWord3).1 = filesData.map
      (fun file => (file.1, { file.2 with extra := [(lit "word3", slaveWord3)] })) := by
    simp only [update, hu]
    apply List.map_congr_left
    intro file hfile
    rw [hextra file hfile]
    rfl
  refine ⟨_, parse_slaveWord3 filesData filePath, hfd, ?_, ?_, ?_, ?_⟩
  · intro file hfile
    simp only [hfd, List.mem_map] at hfile
    obtain ⟨f0, _, rfl⟩ := hfile
    simp [StdMap.find]
  · simp only [hfd, getExtras]
    rw [foldl_size_one]
    · simp only [List.length_map, Nat.zero_add]
      exact Nat.mod_eq_of_lt hN
    · intro file hfile
      simp only [List.mem_map] at hfile
      obtain ⟨f0, _, rfl⟩ := hfile
      rfl
  · simp [update, hu]
  · simp [update, hu]

set_option maxRecDepth 100000 in
/-- Witness of C10: two master documents. -/
theorem scenario_word3_extra_witness :
    ∃ r, parse slaveWord3
          [(lit "a.xml", { FileData.empty with data := [(lit "word1", lit "x")] }),
           (lit "b.xml", FileData.empty)] (lit "s.xml") false = some r
      ∧ r.filesData = [(lit "a.xml", { FileData.empty with data := [(lit "word1", lit "x")] }),
           (lit "b.xml", FileData.empty)].map
          (fun file => (file.1, { file.2 with extra := [(lit "word3", slaveWord3)] }))
      ∧ (∀ file ∈ r.filesData, file.2.extra.find (lit "word3") = some slaveWord3)
      ∧ getExtras r.filesData
          = [(lit "a.xml", { FileData.empty with data := [(lit "word1", lit "x")] }),
             (lit "b.xml", FileData.empty)].length
      ∧ (update [(lit "a.xml", { FileData.empty with data := [(lit "word1", lit "x")] }),
           (lit "b.xml", FileData.empty)] (lit "word3") slaveWord3).2.1 = false
      ∧ r.err = [LogMsg.extra slaveWord3 (lit "s.xml")] :=
  scenario_word3_extra
    [(lit "a.xml", { FileData.empty with data := [(lit "word1", lit "x")] }),
     (lit "b.xml", FileData.empty)] (lit "s.xml") (by decide) (by decide) (by decide)

set_option synthInstance.maxSize 4096 in
set_option maxRecDepth 100000 in
/-- C5, evaluated where it fails: the master parse of
`<?a?><string name="_#0">v</string>` enters the key `_#0` both in meta (the
declaration) and in data (the string entry), and the writer emits the
declaration twice instead of the input. -/
theorem meta_data_key_collision :
    (parse metaNamedXml [] (lit "a.xml") true).map
        (fun r => r.filesData.map fun file => (file.2.rows, file.2.meta, file.2.data))
        = some [([lit "_#0", lit "_#0"], [(lit "_#0", lit "<?a?>")],
                 [(lit "_#0", lit "<string name=\"_#0\">v</string>")])]
      ∧ (parse metaNamedXml [] (lit "a.xml") true).map
          (fun r => r.filesData.map fun file => writeRows file.2)
        = some [some (lit "<?a?><?a?>")] := by
  decide

/-! ## Round trip -/

set_option synthInstance.maxSize 4096 in
set_option maxRecDepth 100000 in
/-- C1 as stated fails: the master parse of `<?x?>tail` into an empty Document
Set returns true with the single row `<?x?>`; the bytes after the last
statement are in no row, so the rows give back `<?x?>` and not the input.
The same happens to the byte of a one-byte gap (`<a>`, tab, `<b>`), to a
`<string ` span whose validation fails, to the first text of a repeated name
and to a string named like a synthetic key. -/
theorem master_round_trip_counterexample :
    writtenBack (lit "<?x?>tail") = some (true, [some (lit "<?x?>")])
      ∧ lit "<?x?>" ≠ lit "<?x?>tail"
      ∧ writtenBack (lit "<a>\t<b>") = some (true, [some (lit "<a><b>")])
      ∧ writtenBack (lit "<string >x</string><a>") = some (true, [some (lit "<a>")])
      ∧ writtenBack (lit "<string name=\"k\">1</string><string name=\"k\">2</string>")
        = some (true, [some (lit "<string name=\"k\">2</string><string name=\"k\">2</string>")])
      ∧ writtenBack metaNamedXml = some (true, [some (lit "<?a?><?a?>")]) := by
  decide

/-- C1, amended: the master parse of every byte sequence into an empty
Document Set returns; and when the run is lossless (it returned true, the
last statement ends at the end of the buffer, the cursor skipped no byte, the
recorded keys are pairwise distinct and no string name starts with `_#`),
concatenating the texts of the rows in order, as `writeFilesTo` does, yields
exactly the original byte sequence. -/
theorem master_round_trip (buf filePath : Bytes) :
    (parse buf [] filePath true).isSome = true
      ∧ (losslessRun buf filePath = true →
          ((parse buf [] filePath true).bind fun r =>
            (r.filesData.find filePath).bind writeRows) = some buf) := by
  have htotal : (parseRun buf [] filePath true).isSome = true :=
    parseLoop_total buf filePath true (buf.length + 1) _ (by simp [parseInit]) (by omega)
  refine ⟨by simp [parse, htotal], ?_⟩
  intro hrun
  unfold losslessRun at hrun
  cases hp : parseRun buf [] filePath true with
  | none => simp [hp] at hrun
  | some res =>
    obtain ⟨st, ok⟩ := res
    rw [hp] at hrun
    simp only [Bool.and_eq_true, beq_iff_eq, decide_eq_true_eq, List.all_eq_true,
      bne_iff_ne, ne_eq] at hrun
    obtain ⟨⟨⟨⟨hok, hend⟩, hskip⟩, hnodup⟩, hkeys⟩ := hrun
    subst hok
    have hinit : Written buf (parseInit [] filePath true) (parseInit [] filePath true).lastPos := by
      intro _
      rfl
    have hw := parseLoop_written buf filePath (buf.length + 1) _ st rfl hinit hp
    have hrows : writeRows st.fileData = some (buf.take st.lastPos) :=
      hw ⟨hskip, hnodup, hkeys⟩
    simp only [parse, hp, Option.map_some', if_true]
    show (StdMap.find (StdMap.insert st.filesData filePath st.fileData) filePath).bind writeRows
      = some buf
    rw [StdMap.find_insert_self]
    show writeRows st.fileData = some buf
    rw [hrows, hend, List.take_length]

set_option maxRecDepth 100000 in
/-- Witness of C1 amended: the scenario file is parsed without loss and is
written back byte for byte. -/
theorem master_round_trip_witness :
    losslessRun masterXml (lit "values/strings.xml") = true
      ∧ ((parse masterXml [] (lit "values/strings.xml") true).bind fun r =>
          (r.filesData.find (lit "values/strings.xml")).bind writeRows) = some masterXml :=
  ⟨by decide, (master_round_trip masterXml (lit "values/strings.xml")).2 (by decide)⟩

/-! ## Merge engine: later matches -/

/-- C11: for every `update(key, newText)`, a document that contains `key` but
comes after the first matching document in iteration order is unchanged by
the call: rows, meta, data, updates and extra stay as they were. -/
theorem update_later_match_untouched (pre post : List (Bytes × FileData)) (path : Bytes)
    (fd : FileData) (key statement old : Bytes)
    (hpre : ∀ file ∈ pre, file.2.data.find key = none)
    (hk : fd.data.find key = some old)
    (i : Nat) (p : Bytes) (d : FileData)
    (hi : (pre ++ (path, fd) :: post)[i]? = some (p, d))
    (hlater : pre.length < i) (hd : (d.data.find key).isSome = true) :
    (update (pre ++ (path, fd) :: post) key statement).1[i]? = some (p, d) :=
  updateLoop_split key statement pre post path fd old hpre hk i p d hi hlater hd

/-- Witness of C11: two documents with the key, the second keeps its value. -/
theorem update_later_match_untouched_witness :
    (update (([] : List (Bytes × FileData))
        ++ (lit "a.xml", { FileData.empty with data := [(lit "k", lit "one")] })
        :: [(lit "b.xml", { FileData.empty with data := [(lit "k", lit "two")] })])
      (lit "k") (lit "new")).1[1]?
      = some (lit "b.xml", { FileData.empty with data := [(lit "k", lit "two")] }) :=
  update_later_match_untouched [] [(lit "b.xml", { FileData.empty with data := [(lit "k", lit "two")] })]
    (lit "a.xml") { FileData.empty with data := [(lit "k", lit "one")] }
    (lit "k") (lit "new") (lit "one") (by decide) (by decide) 1 (lit "b.xml")
    { FileData.empty with data := [(lit "k", lit "two")] } (by decide) (by decide) (by decide)

/-! ## Frame of the parser -/

theorem StdMap.insert_insert {V : Type} (m : StdMap V) (key : Bytes) (v w : V) :
    (m.insert key v).insert key w = m.insert key w := by
  induction m with
  | nil => simp [StdMap.insert]
  | cons e rest ih =>
    obtain ⟨k, u⟩ := e
    simp only [StdMap.insert]
    by_cases h1 : key = k
    · simp [h1, StdMap.insert]
    · by_cases h2 : keyLt key k = true
      · simp [h1, h2, StdMap.insert]
      · simp [h1, h2, StdMap.insert, ih]

theorem StdMap.insert_ne_nil {V : Type} (m : StdMap V) (key : Bytes) (v : V) :
    0 < (m.insert key v).size := by
  cases m with
  | nil => simp [StdMap.insert, StdMap.size]
  | cons e rest =>
    obtain ⟨k, u⟩ := e
    simp only [StdMap.insert, StdMap.size]
    split
    · simp
    · split <;> simp

theorem gapRow_filesData (buf filePath : Bytes) (master : Bool) (st : ParseState) :
    (gapRow buf filePath master st).filesData = st.filesData := by
  unfold gapRow
  split
  · cases master <;> rfl
  · rfl

theorem gapRow_slave_fileData (buf filePath : Bytes) (st : ParseState) :
    (gapRow buf filePath false st).fileData = st.fileData := by
  unfold gapRow
  split <;> rfl

theorem classify_filesData (buf filePath : Bytes) (nextPtr : Nat) (st : ParseState) :
    (classify buf filePath nextPtr st).2.2.filesData = st.filesData := by
  unfold classify
  simp only []
  split
  · rfl
  · split
    · rfl
    · split
      · unfold closeStatement
        cases st.blockKeys.getLast? with
        | none => rfl
        | some back =>
          simp only []
          split <;> rfl
      · split
        · unfold stringStatement
          split
          · simp only []
            cases stringPat (clean (getStatement stringPatEnd buf st.pos st.statement).2.1) with
            | none => rfl
            | some m =>
              simp only []
              split <;> rfl
          · rfl
        · rfl

theorem record_master_filesData (buf filePath : Bytes) (okay isMeta : Bool)
    (st st' : ParseState) (h : record buf filePath true okay isMeta st = some st') :
    st'.filesData = st.filesData := by
  unfold record at h
  cases okay with
  | true =>
    cases isMeta <;> simp at h <;> subst h <;> rfl
  | false =>
    simp only [Bool.false_eq_true, if_false, if_true] at h
    split at h
    · simp only [Option.some.injEq] at h
      subst h
      rfl
    · exact absurd h (by simp)

theorem parseStep_master_filesData (buf filePath : Bytes) (st st' : ParseState)
    (ret : Option Bool) (h : parseStep buf filePath true st = (st', ret)) :
    st'.filesData = st.filesData := by
  unfold parseStep at h
  generalize getNext begPat buf st.pos = g at h
  obtain ⟨ptr, pos1⟩ := g
  cases ptr with
  | none =>
    simp only [Prod.mk.injEq] at h
    obtain ⟨h1, _⟩ := h
    subst h1
    rfl
  | some nextPtr =>
    simp only at h
    have hg := gapRow_filesData buf filePath true { st with pos := pos1 }
    have hc := classify_filesData buf filePath nextPtr
      (gapRow buf filePath true { st with pos := pos1 })
    generalize gapRow buf filePath true { st with pos := pos1 } = st1 at hg hc h
    generalize classify buf filePath nextPtr st1 = c at hc h
    obtain ⟨okay, isMeta, st2⟩ := c
    simp only at hc h
    cases hr : record buf filePath true okay isMeta st2 with
    | none =>
      rw [hr] at h
      simp only [Prod.mk.injEq] at h
      obtain ⟨h1, _⟩ := h
      subst h1
      show st2.filesData = st.filesData
      rw [hc, hg]
    | some st3 =>
      rw [hr] at h
      simp only [Prod.mk.injEq] at h
      obtain ⟨h1, _⟩ := h
      subst h1
      show st3.filesData = st.filesData
      rw [record_master_filesData buf filePath okay isMeta st2 st3 hr, hc, hg]

theorem parseLoop_master_filesData (buf filePath : Bytes) (fuel : Nat) (st stF : ParseState)
    (b : Bool) (h : parseLoop buf filePath true fuel st = some (stF, b)) :
    stF.filesData = st.filesData := by
  induction fuel generalizing st with
  | zero => simp [parseLoop] at h
  | succ f ih =>
    unfold parseLoop at h
    cases hs : parseStep buf filePath true st with
    | mk st1 ret =>
      rw [hs] at h
      have h1 := parseStep_master_filesData buf filePath st st1 ret hs
      cases ret with
      | some c =>
        simp only [Option.some.injEq, Prod.mk.injEq] at h
        obtain ⟨h2, _⟩ := h
        subst h2
        exact h1
      | none =>
        rw [ih st1 h, h1]

theorem parseStep_fatal (buf filePath : Bytes) (master : Bool) (st st' : ParseState)
    (b : Bool) (nextPtr pos : Nat)
    (h : parseStep buf filePath master st = (st', some b))
    (hg : getNext begPat buf st.pos = (some nextPtr, pos)) :
    b = false
      ∧ st'.fileData = (gapRow buf filePath master { st with pos := pos }).fileData
      ∧ st'.filesData = st.filesData := by
  unfold parseStep at h
  rw [hg] at h
  simp only at h
  have hgf := gapRow_filesData buf filePath master { st with pos := pos }
  have hc := classify_classified buf filePath nextPtr
    (gapRow buf filePath master { st with pos := pos })
  have hcf := classify_filesData buf filePath nextPtr
    (gapRow buf filePath master { st with pos := pos })
  generalize gapRow buf filePath master { st with pos := pos } = st1 at hgf hc hcf h ⊢
  generalize classify buf filePath nextPtr st1 = c at hc hcf h
  obtain ⟨okay, isMeta, st2⟩ := c
  simp only at hc hcf h
  cases hr : record buf filePath master okay isMeta st2 with
  | some st3 =>
    rw [hr] at h
    simp at h
  | none =>
    rw [hr] at h
    simp only [Prod.mk.injEq, Option.some.injEq] at h
    obtain ⟨h1, h2⟩ := h
    subst h1
    refine ⟨h2.symm, hc.1, ?_⟩
    show st2.filesData = st.filesData
    rw [hcf, hgf]

theorem parseStep_scanned (buf filePath : Bytes) (master : Bool) (st st' : ParseState)
    (b : Bool) (pos : Nat)
    (h : parseStep buf filePath master st = (st', some b))
    (hg : getNext begPat buf st.pos = (none, pos)) :
    b = decide (st.filesData.size > 0) ∧ st'.fileData = st.fileData
      ∧ st'.filesData = st.filesData := by
  unfold parseStep at h
  rw [hg] at h
  simp only [Prod.mk.injEq, Option.some.injEq] at h
  obtain ⟨h1, h2⟩ := h
  subst h1
  exact ⟨h2.symm, rfl, rfl⟩

theorem fatalDoc_some (buf filePath : Bytes) (master : Bool) (fuel : Nat) (st : ParseState)
    (d : FileData) (h : fatalDoc buf filePath master fuel st = some d) :
    ∃ stF, parseLoop buf filePath master fuel st = some (stF, false) ∧ stF.fileData = d := by
  induction fuel generalizing st with
  | zero => simp [fatalDoc] at h
  | succ f ih =>
    unfold fatalDoc at h
    unfold parseLoop
    cases hs : parseStep buf filePath master st with
    | mk st1 ret =>
      rw [hs] at h
      cases ret with
      | none => exact ih st1 h
      | some b =>
        simp only at h
        cases hg : getNext begPat buf st.pos with
        | mk ptr pos =>
          rw [hg] at h
          cases ptr with
          | none => simp at h
          | some nextPtr =>
            simp only [Option.some.injEq] at h
            obtain ⟨hb, hfd, _⟩ := parseStep_fatal buf filePath master st st1 b nextPtr pos hs hg
            subst hb
            exact ⟨st1, rfl, hfd.trans h⟩

theorem fatalDoc_none (buf filePath : Bytes) (master : Bool) (fuel : Nat)
    (st stF : ParseState) (b : Bool)
    (hl : parseLoop buf filePath master fuel st = some (stF, b))
    (h : fatalDoc buf filePath master fuel st = none) :
    b = decide (stF.filesData.size > 0) := by
  induction fuel generalizing st with
  | zero => simp [parseLoop] at hl
  | succ f ih =>
    unfold fatalDoc at h
    unfold parseLoop at hl
    cases hs : parseStep buf filePath master st with
    | mk st1 ret =>
      rw [hs] at h hl
      cases ret with
      | none => exact ih st1 hl h
      | some c =>
        simp only [Option.some.injEq, Prod.mk.injEq] at hl
        obtain ⟨h1, h2⟩ := hl
        subst h1 h2
        simp only at h
        cases hg : getNext begPat buf st.pos with
        | mk ptr pos =>
          rw [hg] at h
          cases ptr with
          | some nextPtr => simp at h
          | none =>
            obtain ⟨hb, _, hfs⟩ := parseStep_scanned buf filePath master st st1 c pos hs hg
            rw [hfs]
            exact hb

/-! ## Fatal failure and the value returned -/

/-- C14: when a master-mode parse of path `P` meets a tag for which the
generic fallback capture fails, `parse` returns false, the document of `P`
stays in the Document Set with exactly the rows recorded up to that tag (the
rows of the earlier passes and the text skipped before the tag), and every
other document is unchanged. -/
theorem fatal_failure_is_file_local (buf : Bytes) (filesData : FilesData) (P : Bytes)
    (d : FileData) (h : fatalRun buf filesData P true = some d) :
    ∃ r, parse buf filesData P true = some r ∧ r.ok = false
      ∧ r.filesData = filesData.insert P d
      ∧ r.filesData.find P = some d
      ∧ ∀ Q, Q ≠ P → r.filesData.find Q = filesData.find Q := by
  obtain ⟨stF, hl, hd⟩ := fatalDoc_some buf P true _ _ d h
  have hfs := parseLoop_master_filesData buf P _ _ stF false hl
  have hres : parse buf filesData P true
      = some { ok := false, filesData := filesData.insert P d, err := stF.err,
               cerr := stF.cerr } := by
    unfold parse parseRun
    rw [hl]
    simp only [Option.map_some', if_true, Option.some.injEq, ParseResult.mk.injEq, true_and,
      and_true]
    rw [hfs, hd]
    simp only [parseInit, if_true]
    exact StdMap.insert_insert _ _ _ _
  exact ⟨_, hres, rfl, rfl, StdMap.find_insert_self _ _ _,
    fun Q hQ => StdMap.find_insert_ne _ _ _ _ hQ⟩

set_option maxRecDepth 100000 in
/-- Witness of C14: `<a>`, text and the unfinished tag `<b`, parsed next to
an existing document. -/
theorem fatal_failure_is_file_local_witness :
    ∃ r, parse fatalXml [(lit "other.xml", FileData.empty)] (lit "a.xml") true = some r
      ∧ r.ok = false
      ∧ r.filesData = StdMap.insert [(lit "other.xml", FileData.empty)] (lit "a.xml")
          { FileData.empty with
            rows := [lit "_#0", lit "_#1"]
            meta := [(lit "_#0", lit "<a>\n  "), (lit "_#1", lit "text\n")] }
      ∧ r.filesData.find (lit "a.xml") = some
          { FileData.empty with
            rows := [lit "_#0", lit "_#1"]
            meta := [(lit "_#0", lit "<a>\n  "), (lit "_#1", lit "text\n")] }
      ∧ ∀ Q, Q ≠ lit "a.xml" →
          r.filesData.find Q = StdMap.find [(lit "other.xml", FileData.empty)] Q :=
  fatal_failure_is_file_local fatalXml [(lit "other.xml", FileData.empty)] (lit "a.xml")
    { FileData.empty with
      rows := [lit "_#0", lit "_#1"]
      meta := [(lit "_#0", lit "<a>\n  "), (lit "_#1", lit "text\n")] }
    (by decide)

/-! ## Slave-mode frame -/

theorem StdMap.mem_keys_of_find {V : Type} (m : StdMap V) (key : Bytes) (v : V)
    (h : m.find key = some v) : key ∈ m.keys := by
  induction m with
  | nil => simp [StdMap.find] at h
  | cons e rest ih =>
    obtain ⟨k, u⟩ := e
    simp only [StdMap.find] at h
    simp only [StdMap.keys, List.map_cons, List.mem_cons]
    split at h
    · rename_i hk
      exact Or.inl hk
    · exact Or.inr (ih h)

theorem StdMap.keys_insert_of_find {V : Type} (m : StdMap V) (key : Bytes) (v w : V)
    (hwf : m.WellFormed) (h : m.find key = some v) : (m.insert key w).keys = m.keys := by
  induction m with
  | nil => simp [StdMap.find] at h
  | cons e rest ih =>
    obtain ⟨k, u⟩ := e
    simp only [StdMap.WellFormed, StdMap.keys, List.map_cons, List.pairwise_cons] at hwf
    simp only [StdMap.find] at h
    simp only [StdMap.insert]
    by_cases h1 : key = k
    · simp [h1, StdMap.keys]
    · simp only [h1, if_false] at h ⊢
      have hmem : key ∈ StdMap.keys rest := StdMap.mem_keys_of_find rest key v h
      have hlt : keyLt k key = true := hwf.1 key hmem
      have hnot : keyLt key k = false := keyLt_asymm k key hlt
      simp only [hnot, Bool.false_eq_true, if_false, StdMap.keys, List.map_cons, List.cons.injEq,
        true_and]
      exact ih hwf.2 h

theorem updateLoop_frame (key statement : Bytes) (l : List (Bytes × FileData)) (u : Bool)
    (hwf : ∀ file ∈ l, file.2.data.WellFormed) :
    (updateLoop key statement l u).1.map frameOf = l.map frameOf := by
  induction l generalizing u with
  | nil => rfl
  | cons f rest ih =>
    obtain ⟨p, d⟩ := f
    have hd : d.data.WellFormed := hwf (p, d) (by simp)
    have hrest : ∀ file ∈ rest, file.2.data.WellFormed := fun file hm => hwf file (by simp [hm])
    simp only [updateLoop]
    cases hf : d.data.find key with
    | none => simp [frameOf, ih _ hrest]
    | some prev =>
      cases u
      · simp [frameOf, ih _ hrest, StdMap.keys_insert_of_find d.data key prev statement hd hf]
      · simp [frameOf, ih _ hrest]

theorem wellFormed_of_frame (fs0 fs : FilesData) (h : fs.map frameOf = fs0.map frameOf)
    (hwf : ∀ file ∈ fs0, file.2.data.WellFormed) : ∀ file ∈ fs, file.2.data.WellFormed := by
  intro file hfile
  have hm : frameOf file ∈ fs0.map frameOf := by
    rw [← h]
    exact List.mem_map_of_mem _ hfile
  obtain ⟨f0, hf0, he⟩ := List.mem_map.mp hm
  have hk : f0.2.data.keys = file.2.data.keys := by
    have := congrArg (fun t => t.2.2.2) he
    simpa [frameOf] using this
  have := hwf f0 hf0
  unfold StdMap.WellFormed at this ⊢
  rw [← hk]
  exact this

theorem record_slave (buf filePath : Bytes) (okay isMeta : Bool) (st st' : ParseState)
    (h : record buf filePath false okay isMeta st = some st') :
    st'.fileData = st.fileData
      ∧ (st'.filesData = st.filesData
        ∨ st'.filesData = (update st.filesData st.key st.statement).1) := by
  unfold record at h
  cases okay with
  | true =>
    cases isMeta with
    | true =>
      simp at h
      subst h
      exact ⟨rfl, Or.inl rfl⟩
    | false =>
      simp at h
      subst h
      exact ⟨rfl, Or.inr rfl⟩
  | false =>
    simp only [Bool.false_eq_true, if_false] at h
    split at h
    · simp only [Option.some.injEq] at h
      subst h
      exact ⟨rfl, Or.inl rfl⟩
    · exact absurd h (by simp)

theorem parseStep_slave (buf filePath : Bytes) (st st' : ParseState) (ret : Option Bool)
    (h : parseStep buf filePath false st = (st', ret)) :
    st'.fileData = st.fileData
      ∧ (st'.filesData = st.filesData
        ∨ ∃ key statement, st'.filesData = (update st.filesData key statement).1) := by
  unfold parseStep at h
  generalize getNext begPat buf st.pos = g at h
  obtain ⟨ptr, pos1⟩ := g
  cases ptr with
  | none =>
    simp only [Prod.mk.injEq] at h
    obtain ⟨h1, _⟩ := h
    subst h1
    exact ⟨rfl, Or.inl rfl⟩
  | some nextPtr =>
    simp only at h
    have hg := gapRow_filesData buf filePath false { st with pos := pos1 }
    have hgd := gapRow_slave_fileData buf filePath { st with pos := pos1 }
    have hc := classify_filesData buf filePath nextPtr
      (gapRow buf filePath false { st with pos := pos1 })
    have hcd := (classify_classified buf filePath nextPtr
      (gapRow buf filePath false { st with pos := pos1 })).1
    generalize gapRow buf filePath false { st with pos := pos1 } = st1 at hg hgd hc hcd h
    generalize classify buf filePath nextPtr st1 = c at hc hcd h
    obtain ⟨okay, isMeta, st2⟩ := c
    simp only at hc hcd h
    have h2 : st2.filesData = st.filesData := by rw [hc, hg]
    have h2d : st2.fileData = st.fileData := by rw [hcd, hgd]
    cases hr : record buf filePath false okay isMeta st2 with
    | none =>
      rw [hr] at h
      simp only [Prod.mk.injEq] at h
      obtain ⟨h1, _⟩ := h
      subst h1
      exact ⟨h2d, Or.inl h2⟩
    | some st3 =>
      rw [hr] at h
      simp only [Prod.mk.injEq] at h
      obtain ⟨h1, _⟩ := h
      subst h1
      obtain ⟨h3d, h3⟩ := record_slave buf filePath okay isMeta st2 st3 hr
      refine ⟨h3d.trans h2d, ?_⟩
      rcases h3 with h3 | h3
      · exact Or.inl (h3.trans h2)
      · exact Or.inr ⟨st2.key, st2.statement, by rw [← h2]; exact h3⟩

theorem parseLoop_slave_frame (buf filePath : Bytes) (fuel : Nat) (st stF : ParseState)
    (b : Bool) (hwf : ∀ file ∈ st.filesData, file.2.data.WellFormed)
    (h : parseLoop buf filePath false fuel st = some (stF, b)) :
    stF.filesData.map frameOf = st.filesData.map frameOf := by
  induction fuel generalizing st with
  | zero => simp [parseLoop] at h
  | succ f ih =>
    unfold parseLoop at h
    cases hs : parseStep buf filePath false st with
    | mk st1 ret =>
      rw [hs] at h
      have h1 : st1.filesData.map frameOf = st.filesData.map frameOf := by
        rcases (parseStep_slave buf filePath st st1 ret hs).2 with h1 | ⟨key, stmt, h1⟩
        · rw [h1]
        · rw [h1]
          exact updateLoop_frame key stmt st.filesData false hwf
      cases ret with
      | some c =>
        simp only [Option.some.injEq, Prod.mk.injEq] at h
        obtain ⟨h2, _⟩ := h
        subst h2
        exact h1
      | none =>
        rw [ih st1 (wellFormed_of_frame st.filesData st1.filesData h1 hwf) h, h1]

/-- C12: for every buffer, `parse` with `master = false` returns and adds no
document to and removes none from the Document Set; it leaves the path, the
rows and the meta map of every document unchanged, and the key set of every
data map (the data maps being maps, with their keys in ascending order). -/
theorem slave_parse_frame (buf : Bytes) (filesData : FilesData) (filePath : Bytes)
    (hwf : ∀ file ∈ filesData, file.2.data.WellFormed) :
    ∃ r, parse buf filesData filePath false = some r
      ∧ r.filesData.map frameOf = filesData.map frameOf
      ∧ r.filesData.length = filesData.length := by
  have htotal : (parseRun buf filesData filePath false).isSome = true :=
    parseLoop_total buf filePath false (buf.length + 1) _ (by simp [parseInit]) (by omega)
  obtain ⟨res, hres⟩ := Option.isSome_iff_exists.mp htotal
  obtain ⟨stF, b⟩ := res
  have hframe := parseLoop_slave_frame buf filePath _ _ stF b
    (by simpa [parseInit] using hwf) hres
  have hfs : stF.filesData.map frameOf = filesData.map frameOf := by
    simpa [parseInit] using hframe
  refine ⟨{ ok := b, filesData := stF.filesData, err := stF.err, cerr := stF.cerr },
    by simp [parse, hres], hfs, ?_⟩
  simpa using congrArg List.length hfs

set_option maxRecDepth 100000 in
/-- Witness of C12: the slave file of the scenario against a document with
the keys `word1` and `word2`. -/
theorem slave_parse_frame_witness :
    ∃ r, parse slaveWord1
          [(lit "m.xml", { FileData.empty with
              rows := [lit "word1", lit "word2"]
              data := [(lit "word1", lit "a"), (lit "word2", lit "b")] })]
          (lit "s.xml") false = some r
      ∧ r.filesData.map frameOf
        = [(lit "m.xml", { FileData.empty with
              rows := [lit "word1", lit "word2"]
              data := [(lit "word1", lit "a"), (lit "word2", lit "b")] })].map frameOf
      ∧ r.filesData.length
        = [(lit "m.xml", { FileData.empty with
              rows := [lit "word1", lit "word2"]
              data := [(lit "word1", lit "a"), (lit "word2", lit "b")] })].length :=
  slave_parse_frame slaveWord1 _ (lit "s.xml") (by
    intro file hfile
    simp only [List.mem_singleton] at hfile
    subst hfile
    unfold StdMap.WellFormed
    decide)

/-- C13: `parse` returns on every buffer; when no fatal structural failure
occurs it returns true if and only if the Document Set is non-empty when the
scan ends.  Hence a master-mode parse without fatal failure returns true, and
a slave-mode parse against an empty Document Set returns false. -/
theorem parse_result (buf : Bytes) (filesData : FilesData) (filePath : Bytes)
    (master : Bool) :
    ∃ r, parse buf filesData filePath master = some r
      ∧ (fatalRun buf filesData filePath master = none →
          r.ok = decide (r.filesData.size > 0))
      ∧ (master = true → fatalRun buf filesData filePath master = none → r.ok = true)
      ∧ (master = false → filesData = [] → r.ok = false) := by
  have htotal : (parseRun buf filesData filePath master).isSome = true :=
    parseLoop_total buf filePath master (buf.length + 1) _ (by simp [parseInit]) (by omega)
  obtain ⟨res, hres⟩ := Option.isSome_iff_exists.mp htotal
  obtain ⟨stF, b⟩ := res
  have hscan : fatalRun buf filesData filePath master = none →
      b = decide (stF.filesData.size > 0) :=
    fun h => fatalDoc_none buf filePath master _ _ stF b hres h
  cases master with
  | true =>
    have hfs := parseLoop_master_filesData buf filePath _ _ stF b hres
    have hpos : 0 < stF.filesData.size := by
      rw [hfs]
      simp only [parseInit, if_true]
      exact StdMap.insert_ne_nil _ _ _
    have hb : fatalRun buf filesData filePath true = none → b = true := by
      intro h
      rw [hscan h]
      exact decide_eq_true hpos
    refine ⟨{ ok := b, filesData := stF.filesData.insert filePath stF.fileData,
              err := stF.err, cerr := stF.cerr }, by simp [parse, hres], ?_, ?_, ?_⟩
    · intro h
      show b = decide (0 < (stF.filesData.insert filePath stF.fileData).size)
      rw [hb h]
      exact (decide_eq_true (StdMap.insert_ne_nil _ _ _)).symm
    · intro _ h
      exact hb h
    · intro h
      exact absurd h (by simp)
  | false =>
    refine ⟨{ ok := b, filesData := stF.filesData, err := stF.err, cerr := stF.cerr },
      by simp [parse, hres], hscan, fun h => absurd h (by simp), ?_⟩
    intro _ hempty
    subst hempty
    have hframe := parseLoop_slave_frame buf filePath _ _ stF b
      (by simp [parseInit]) hres
    have hnil : stF.filesData = [] := by
      simpa [parseInit] using hframe
    show b = false
    cases hf : fatalRun buf [] filePath false with
    | none =>
      rw [hscan hf, hnil]
      rfl
    | some d =>
      obtain ⟨st', hl, _⟩ := fatalDoc_some buf filePath false _ _ d hf
      have : parseRun buf [] filePath false = some (st', false) := hl
      rw [hres] at this
      simp only [Option.some.injEq, Prod.mk.injEq] at this
      exact this.2

set_option maxRecDepth 100000 in
/-- Witness of C13: the empty buffer in master mode, and the scenario file in
slave mode against an empty Document Set. -/
theorem parse_result_witness :
    (∃ r, parse [] [] (lit "a.xml") true = some r ∧ r.ok = true)
      ∧ (∃ r, parse slaveWord1 [] (lit "s.xml") false = some r ∧ r.ok = false) :=
  ⟨(parse_result [] [] (lit "a.xml") true).elim fun r h =>
      ⟨r, h.1, h.2.2.1 rfl (by decide)⟩,
    (parse_result slaveWord1 [] (lit "s.xml") false).elim fun r h =>
      ⟨r, h.1, h.2.2.2 rfl rfl⟩⟩

/-! ## Validation failure of a string entry -/

set_option synthInstance.maxSize 4096 in
set_option maxRecDepth 100000 in
/-- C16: the master-mode parse of `<string name="w">Val</strong>` records no
data entry, records `<string name="w">` as a meta row and pushes it on the
block stack, writes one error message, which carries the line number 0, to
the error sink, and returns true. -/
theorem scenario_mismatched_close :
    (parse strongXml [] (lit "a.xml") true).map (fun r => (r.ok, r.err))
        = some (true, [LogMsg.unknown 0 [] (lit "a.xml")])
      ∧ (parse strongXml [] (lit "a.xml") true).map
          (fun r => r.filesData.map fun file => (file.2.data, file.2.rows, file.2.meta))
        = some [([], [lit "_#0", lit "_#1", lit "_#2"],
            [(lit "_#0", lit "<string name=\"w\">"), (lit "_#1", lit "Val"),
             (lit "_#2", lit "</strong>")])]
      ∧ (parseRun strongXml [] (lit "a.xml") true).map (fun r => r.1.blockKeys)
        = some [lit "<string name=\"w\">", lit "</strong>"] := by
  decide

set_option synthInstance.maxSize 4096 in
set_option maxRecDepth 100000 in
/-- C15 as stated fails: in `<string >x</string>` the tag starts with
`<string ` and fails the validation after the end pattern has moved the cursor
past `</string>`; the fallback then finds nothing to capture, no row is
recorded and `parse` returns false. -/
theorem validation_failure_counterexample :
    (parse namelessXml [] (lit "a.xml") true).map
        (fun r => (r.ok, r.filesData.map fun file => file.2.rows))
        = some (false, [[]])
      ∧ (parse namelessXml [] (lit "a.xml") true).map (fun r => r.err)
        = some [LogMsg.unknown 0 namelessXml (lit "a.xml"),
                LogMsg.unknown 0 (lit "<string >x") (lit "a.xml")] := by
  decide

theorem strncmpEq_string_tag (rest : Bytes) :
    strncmpEq (lit "<string ") (lit "<string " ++ rest) 8 = true := by
  rfl

/-- C15, amended: when a tag starting with `<string ` fails the validation
with the cursor still at the tag (no `</string>` follows, so the end pattern
captured nothing), the parser writes the error message and passes the tag to
the generic fallback.  If that capture succeeds, the span from the tag is
recorded as a meta row, pushed on the block stack, and the loop goes on;
`parse` returns false in this pass only if the fallback capture itself fails. -/
theorem validation_failure_fallback (buf filePath : Bytes) (st : ParseState)
    (pos : Nat) (rest : Bytes)
    (hnext : getNext begPat buf st.pos = (some pos, pos))
    (htag : buf.drop pos = lit "<string " ++ rest)
    (hend : stringPatEnd (buf.drop pos) = none) :
    (∀ m, eoxPat (buf.drop pos) = some m →
      (parseStep buf filePath true st).2 = none
      ∧ (parseStep buf filePath true st).1.fileData.rows
          = (gapRow buf filePath true { st with pos := pos }).fileData.rows
            ++ [nextKey (gapRow buf filePath true { st with pos := pos }).row]
      ∧ (parseStep buf filePath true st).1.fileData.meta
          = (gapRow buf filePath true { st with pos := pos }).fileData.meta.insert
              (nextKey (gapRow buf filePath true { st with pos := pos }).row)
              ((buf.drop pos).take (m.position + m.length))
      ∧ (parseStep buf filePath true st).1.fileData.data = st.fileData.data
      ∧ (parseStep buf filePath true st).1.blockKeys
          = st.blockKeys ++ [(buf.drop pos).take (m.position + m.length)]
      ∧ LogMsg.unknown (lineAt buf pos)
            (clean (gapRow buf filePath true { st with pos := pos }).statement) filePath
          ∈ (parseStep buf filePath true st).1.err
      ∧ (parseStep buf filePath true st).1.pos = pos + (m.position + m.length))
    ∧ (eoxPat (buf.drop pos) = none → (parseStep buf filePath true st).2 = some false) := by
  have hc : (buf.drop (pos + 1)).headD 0 = 115 := by
    have : buf.drop (pos + 1) = (buf.drop pos).drop 1 := by
      rw [List.drop_drop, Nat.add_comm]
    rw [this, htag]
    rfl
  have hgp : (gapRow buf filePath true { st with pos := pos }).pos = pos := by
    unfold gapRow
    split <;> rfl
  have hgb : (gapRow buf filePath true { st with pos := pos }).blockKeys = st.blockKeys := by
    unfold gapRow
    split <;> rfl
  have hgd : (gapRow buf filePath true { st with pos := pos }).fileData.data
      = st.fileData.data := by
    unfold gapRow
    split <;> rfl
  generalize hst1 : gapRow buf filePath true { st with pos := pos } = st1 at hgp hgb hgd
  have hgs : getStatement stringPatEnd buf st1.pos st1.statement
      = (false, st1.statement, st1.pos) := by
    unfold getStatement
    rw [hgp, hend]
  have hcl : classify buf filePath pos st1 = stringStatement buf filePath pos st1 := by
    unfold classify
    simp only [hc]
    rfl
  have hss : (stringStatement buf filePath pos st1).1 = false
      ∧ (stringStatement buf filePath pos st1).2.2.pos = pos
      ∧ (stringStatement buf filePath pos st1).2.2.statement = st1.statement
      ∧ (stringStatement buf filePath pos st1).2.2.blockKeys = st.blockKeys
      ∧ (stringStatement buf filePath pos st1).2.2.fileData = st1.fileData
      ∧ (stringStatement buf filePath pos st1).2.2.row = st1.row
      ∧ (stringStatement buf filePath pos st1).2.2.err
          = st1.err ++ [LogMsg.unknown (lineAt buf pos) (clean st1.statement) filePath] := by
    unfold stringStatement
    rw [htag, strncmpEq_string_tag, hgs]
    simp only [if_true]
    cases stringPat (clean st1.statement) with
    | none => exact ⟨rfl, hgp, rfl, hgb, rfl, rfl, by rw [hgp]⟩
    | some m => exact ⟨rfl, hgp, rfl, hgb, rfl, rfl, by simp [hgp]⟩
  unfold parseStep
  rw [hnext]
  simp only [hst1, hcl]
  generalize stringStatement buf filePath pos st1 = c at hss
  obtain ⟨okay, isMeta, st2⟩ := c
  simp only at hss
  obtain ⟨hok, hp2, hs2, hb2, hf2, hr2, he2⟩ := hss
  subst hok
  constructor
  · intro m hm
    have hget : getStatement eoxPat buf st2.pos st2.statement
        = (true, (buf.drop pos).take (m.position + m.length), pos + (m.position + m.length)) := by
      unfold getStatement
      rw [hp2, hm]
    have hrec : record buf filePath true false isMeta st2
        = some (pushMeta filePath
            { st2 with statement := (buf.drop pos).take (m.position + m.length)
                       pos := pos + (m.position + m.length)
                       blockKeys := st2.blockKeys ++ [(buf.drop pos).take (m.position + m.length)]
                       key := nextKey st2.row, row := incr st2.row }) := by
      simp only [record, Bool.false_eq_true, if_false, hget, if_true]
    rw [hrec]
    refine ⟨rfl, ?_, ?_, ?_, ?_, ?_, rfl⟩
    · simp [pushMeta, hf2, hr2]
    · simp [pushMeta, hf2, hr2]
    · simp [pushMeta, hf2, hgd]
    · simp [pushMeta, hb2]
    · simp [pushMeta, he2]
  · intro hm
    have hget : getStatement eoxPat buf st2.pos st2.statement = (false, st2.statement, st2.pos) := by
      unfold getStatement
      rw [hp2, hm]
    have hrec : record buf filePath true false isMeta st2 = none := by
      simp only [record, Bool.false_eq_true, if_false, hget]
    rw [hrec]

set_option maxRecDepth 100000 in
/-- Witness of C15 amended: the first pass over `<string name="w">Val</strong>`. -/
theorem validation_failure_fallback_witness :
    (parseStep strongXml (lit "a.xml") true (parseInit [] (lit "a.xml") true)).2 = none
      ∧ (parseStep strongXml (lit "a.xml") true (parseInit [] (lit "a.xml") true)).1.blockKeys
        = (parseInit [] (lit "a.xml") true).blockKeys ++ [(strongXml.drop 0).take (0 + 17)] :=
  ⟨((validation_failure_fallback strongXml (lit "a.xml") (parseInit [] (lit "a.xml") true) 0
      (lit "name=\"w\">Val</strong>") (by decide) (by decide) (by decide)).1
      ⟨0, 17, []⟩ (by decide)).1,
   ((validation_failure_fallback strongXml (lit "a.xml") (parseInit [] (lit "a.xml") true) 0
      (lit "name=\"w\">Val</strong>") (by decide) (by decide) (by decide)).1
      ⟨0, 17, []⟩ (by decide)).2.2.2.2.1⟩

/-! ## Keying of a string entry -/

theorem greedy_top {α : Type} (f : Nat → Option α) (lo n : Nat) (r : α)
    (hlo : lo ≤ n) (h : f n = some r) : greedy f lo n = some r := by
  cases n with
  | zero =>
    have : lo = 0 := by omega
    simp [greedy, this, h]
  | succ k =>
    have : ¬ k + 1 < lo := by omega
    simp [greedy, this, h]

theorem greedy_first {α : Type} (f : Nat → Option α) (lo m n : Nat) (r : α)
    (hlo : lo ≤ m) (hmn : m ≤ n) (hnone : ∀ j, m < j → j ≤ n → f j = none)
    (h : f m = some r) : greedy f lo n = some r := by
  induction n with
  | zero =>
    have hm : m = 0 := by omega
    subst hm
    exact greedy_top f lo 0 r hlo h
  | succ k ih =>
    by_cases hk : m = k + 1
    · subst hk
      exact greedy_top f lo (k + 1) r hlo h
    · have hnot : ¬ k + 1 < lo := by omega
      have hf : f (k + 1) = none := hnone (k + 1) (by omega) (Nat.le_refl _)
      simp only [greedy, hnot, if_false, hf]
      exact ih (by omega) (fun j h1 h2 => hnone j h1 (by omega))

theorem greedy_isSome {α : Type} (f : Nat → Option α) (lo m n : Nat)
    (hlo : lo ≤ m) (hmn : m ≤ n) (h : (f m).isSome = true) :
    (greedy f lo n).isSome = true := by
  induction n with
  | zero =>
    have hm : m = 0 := by omega
    subst hm
    obtain ⟨r, hr⟩ := Option.isSome_iff_exists.mp h
    rw [greedy_top f lo 0 r hlo hr]
    rfl
  | succ k ih =>
    have hnot : ¬ k + 1 < lo := by omega
    simp only [greedy, hnot, if_false]
    cases hf : f (k + 1) with
    | some r => rfl
    | none =>
      simp only []
      apply ih
      by_contra hc
      have hm : m = k + 1 := by omega
      rw [hm, hf] at h
      simp at h

theorem takeWhile_append_stop (p : Nat → Bool) (K X : Bytes) (q : Nat)
    (hK : ∀ c ∈ K, p c = true) (hq : p q = false) :
    (K ++ q :: X).takeWhile p = K := by
  induction K with
  | nil => simp [List.takeWhile, hq]
  | cons c rest ih =>
    have hc : p c = true := hK c (by simp)
    simp only [List.cons_append, List.takeWhile_cons, hc, if_true, List.cons.injEq, true_and]
    exact ih (fun d hd => hK d (by simp [hd]))

theorem stringPatTail_isSome (q : Nat) (A V W : Bytes) (hq : isDot q = true)
    (hA : ∀ c ∈ A, c ≠ 62) :
    (stringPatTail (q :: A ++ 62 :: V ++ lit "</string>" ++ W)).isSome = true := by
  have htake : ((A ++ 62 :: (V ++ lit "</string>" ++ W)).takeWhile fun c => c != 62) = A :=
    takeWhile_append_stop _ A _ 62 (fun c hc => by simpa using hA c hc) (by simp)
  have hshape : q :: A ++ 62 :: V ++ lit "</string>" ++ W
      = q :: (A ++ 62 :: (V ++ lit "</string>" ++ W)) := by simp
  rw [hshape]
  simp only [stringPatTail, hq, Bool.not_true, Bool.false_eq_true, if_false, htake,
    List.drop_left]
  apply greedy_isSome _ 0 V.length _ (Nat.zero_le _) (by simp)
  have hd : (V ++ lit "</string>" ++ W).drop V.length = lit "</string>" ++ W := by
    rw [List.append_assoc, List.drop_left]
  simp only [hd]
  have hp : (lit "</string>").isPrefixOf (lit "</string>" ++ W) = true := by
    rw [List.isPrefixOf_iff_prefix]
    exact List.prefix_append _ _
  simp [hp]

theorem stringPatName_entry (q : Nat) (K A V W : Bytes) (hq : q = 34 ∨ q = 39)
    (hK : K ≠ []) (hKq : ∀ c ∈ K, c ≠ 34 ∧ c ≠ 39) (hA : ∀ c ∈ A, c ≠ 62) :
    ∃ n, stringPatName (K ++ q :: A ++ 62 :: V ++ lit "</string>" ++ W) = some (n, K) := by
  have hdot : isDot q = true := by
    rcases hq with h | h <;> subst h <;> rfl
  have hshape : K ++ q :: A ++ 62 :: V ++ lit "</string>" ++ W
      = K ++ q :: (A ++ 62 :: V ++ lit "</string>" ++ W) := by simp
  have hrun : ((K ++ q :: (A ++ 62 :: V ++ lit "</string>" ++ W)).takeWhile
      fun c => c != 39 && c != 34) = K := by
    apply takeWhile_append_stop
    · intro c hc
      have := hKq c hc
      simp [this.1, this.2]
    · rcases hq with h | h <;> subst h <;> rfl
  obtain ⟨t, ht⟩ := Option.isSome_iff_exists.mp (stringPatTail_isSome q A V W hdot hA)
  have hlen : 1 ≤ K.length := List.length_pos.mpr hK
  refine ⟨K.length + t, ?_⟩
  rw [hshape]
  unfold stringPatName
  simp only [hrun]
  apply greedy_top _ 1 K.length _ hlen
  have hd : (K ++ q :: (A ++ 62 :: V ++ lit "</string>" ++ W)).drop K.length
      = q :: A ++ 62 :: V ++ lit "</string>" ++ W := by
    rw [List.drop_left]
    simp
  simp only [hd, ht, List.take_left]

theorem stringPat_entry (q : Nat) (K A V W : Bytes) (hq : q = 34 ∨ q = 39)
    (hK : K ≠ []) (hKq : ∀ c ∈ K, c ≠ 34 ∧ c ≠ 39) (hA : ∀ c ∈ A, c ≠ 62)
    (hname : ¬ lit "name=" <:+: q :: K ++ q :: A ++ 62 :: V ++ lit "</string>" ++ W) :
    ∃ m, stringPat (lit "<string name=" ++ q :: K ++ q :: A ++ 62 :: V ++ lit "</string>" ++ W)
        = some m ∧ m.group1 = K := by
  have hdot : isDot q = true := by
    rcases hq with h | h <;> subst h <;> rfl
  obtain ⟨n, hn⟩ := stringPatName_entry q K A V W hq hK hKq hA
  generalize hX : K ++ q :: A ++ 62 :: V ++ lit "</string>" ++ W = X at hn
  have hXq : q :: K ++ q :: A ++ 62 :: V ++ lit "</string>" ++ W = q :: X := by
    rw [← hX]
    simp
  rw [hXq] at hname
  have hshape : lit "<string name=" ++ q :: K ++ q :: A ++ 62 :: V ++ lit "</string>" ++ W
      = 60 :: 115 :: 116 :: 114 :: 105 :: 110 :: 103 :: 32 :: 110 :: 97 :: 109 :: 101 :: 61
          :: q :: X := by
    rw [← hX]
    have : lit "<string name=" = [60, 115, 116, 114, 105, 110, 103, 32, 110, 97, 109, 101, 61] := by
      decide
    rw [this]
    simp
  have hname5 : lit "name=" = [110, 97, 109, 101, 61] := by decide
  have hstr7 : lit "<string" = [60, 115, 116, 114, 105, 110, 103] := by decide
  have hat : ∃ len, stringPatAt (60 :: 115 :: 116 :: 114 :: 105 :: 110 :: 103 :: 32 :: 110 :: 97
      :: 109 :: 101 :: 61 :: q :: X) = some (len, K) := by
    refine ⟨7 + 1 + 5 + 1 + n, ?_⟩
    unfold stringPatAt
    rw [hstr7]
    simp only [List.isPrefixOf, beq_self_eq_true, Bool.and_self, Bool.true_and, if_true,
      List.drop_succ_cons, List.drop_zero]
    apply greedy_first _ 0 1 _ _ (Nat.zero_le _)
    · show 1 ≤ ((32 :: 110 :: 97 :: 109 :: 101 :: 61 :: q :: X).takeWhile isDot).length
      simp [List.takeWhile, isDot]
    · intro j hj _
      have hno : (lit "name=").isPrefixOf
          ((32 :: 110 :: 97 :: 109 :: 101 :: 61 :: q :: X).drop j) = false := by
        by_cases h6 : j < 6
        · rw [hname5]
          have hcases : j = 2 ∨ j = 3 ∨ j = 4 ∨ j = 5 := by omega
          rcases hcases with h | h | h | h <;> subst h <;> simp [List.isPrefixOf]
        · obtain ⟨i, rfl⟩ : ∃ i, j = 6 + i := ⟨j - 6, by omega⟩
          have hd : (32 :: 110 :: 97 :: 109 :: 101 :: 61 :: q :: X).drop (6 + i)
              = (q :: X).drop i := by
            rw [← List.drop_drop]
            rfl
          rw [hd]
          cases hp : (lit "name=").isPrefixOf ((q :: X).drop i) with
          | false => rfl
          | true =>
            exfalso
            apply hname
            have h1 : lit "name=" <+: (q :: X).drop i := List.isPrefixOf_iff_prefix.mp hp
            exact h1.isInfix.trans (List.drop_suffix i _).isInfix
      simp only [hno, Bool.false_eq_true, if_false]
    · rw [hname5]
      simp only [List.drop_succ_cons, List.drop_zero, List.isPrefixOf, beq_self_eq_true,
        Bool.and_self, Bool.true_and, if_true, hdot, hn, Option.map_some']
  obtain ⟨len, hlen⟩ := hat
  refine ⟨⟨0, len, K⟩, ?_, rfl⟩
  rw [hshape]
  simp only [stringPat, regex_search, hlen]

theorem regex_search_head (matchAt : Bytes → Option (Nat × Bytes)) (c : Nat) (s : Bytes)
    (r : Nat × Bytes) (h : matchAt (c :: s) = some r) :
    regex_search matchAt (c :: s) = some ⟨0, r.1, r.2⟩ := by
  simp only [regex_search, h]

theorem regex_search_tail (matchAt : Bytes → Option (Nat × Bytes)) (c : Nat) (s : Bytes)
    (h : matchAt (c :: s) = none) :
    regex_search matchAt (c :: s)
      = (regex_search matchAt s).map fun m => ⟨m.position + 1, m.length, m.group1⟩ := by
  simp only [regex_search, h]

theorem regex_search_skip (matchAt : Bytes → Option (Nat × Bytes)) (P X : Bytes)
    (h : ∀ i, i < P.length → matchAt ((P ++ X).drop i) = none) :
    regex_search matchAt (P ++ X)
      = (regex_search matchAt X).map fun m => ⟨m.position + P.length, m.length, m.group1⟩ := by
  induction P with
  | nil =>
    simp only [List.nil_append, List.length_nil, Nat.add_zero]
    cases regex_search matchAt X <;> rfl
  | cons c rest ih =>
    have h0 : matchAt (c :: (rest ++ X)) = none := h 0 (by simp)
    have hrest : ∀ i, i < rest.length → matchAt ((rest ++ X).drop i) = none := by
      intro i hi
      have := h (i + 1) (by simp [hi])
      simpa using this
    show regex_search matchAt (c :: (rest ++ X)) = _
    rw [regex_search_tail matchAt c (rest ++ X) h0, ih hrest]
    cases regex_search matchAt X with
    | none => rfl
    | some m => simp [Nat.add_assoc]

theorem infix_of_prefix_drop (l P X : Bytes) (i : Nat) (hi : i < P.length)
    (h : l <+: (P ++ X).drop i) : l <:+: P ++ X.take (l.length - 1) := by
  obtain ⟨t, ht⟩ := h
  have hZ : P ++ X = (P ++ X).take i ++ (l ++ t) := by
    rw [ht]
    exact (List.take_append_drop i _).symm
  have hlen : ((P ++ X).take i).length = i := by
    rw [List.length_take, List.length_append]
    omega
  have hl : 0 < l.length ∨ l = [] := by
    cases l with
    | nil => exact Or.inr rfl
    | cons a b => exact Or.inl (by simp)
  rcases hl with hl | hl
  · have h1 : (P ++ X).take (P.length + (l.length - 1)) = P ++ X.take (l.length - 1) :=
      List.take_append _
    have hn : P.length + (l.length - 1)
        = ((P ++ X).take i).length + (l.length + (P.length - 1 - i)) := by
      rw [hlen]
      omega
    have h2 : (P ++ X).take (P.length + (l.length - 1))
        = (P ++ X).take i ++ (l ++ t.take (P.length - 1 - i)) := by
      conv_lhs => rw [hZ, hn, List.take_append, List.take_append]
    refine ⟨(P ++ X).take i, t.take (P.length - 1 - i), ?_⟩
    rw [← h1, h2]
    simp
  · subst hl
    exact List.nil_infix

theorem stringPatEnd_entry (P T : Bytes)
    (hfirst : ¬ lit "</string>" <:+: P ++ lit "</string") :
    stringPatEnd (P ++ lit "</string>" ++ T) = some ⟨P.length, 9 + blankRun T, []⟩ := by
  have hskip := regex_search_skip (litBlankAt (lit "</string>")) P (lit "</string>" ++ T) (by
    intro i hi
    unfold litBlankAt
    split
    · rename_i hp
      exfalso
      apply hfirst
      have h1 := infix_of_prefix_drop (lit "</string>") P (lit "</string>" ++ T) i hi
        (List.isPrefixOf_iff_prefix.mp hp)
      have h2 : (lit "</string>" ++ T).take ((lit "</string>").length - 1) = lit "</string" := by
        rw [List.take_append_of_le_length (by decide)]
        decide
      rw [h2] at h1
      exact h1
    · rfl)
  have hat : regex_search (litBlankAt (lit "</string>")) (lit "</string>" ++ T)
      = some ⟨0, 9 + blankRun T, []⟩ := by
    have hp : (lit "</string>").isPrefixOf (lit "</string>" ++ T) = true := by
      rw [List.isPrefixOf_iff_prefix]
      exact List.prefix_append _ _
    have hm : litBlankAt (lit "</string>") (lit "</string>" ++ T)
        = some (9 + blankRun T, []) := by
      unfold litBlankAt
      rw [hp]
      simp only [if_true, List.drop_left]
      rfl
    have hc : lit "</string>" ++ T = 60 :: (lit "/string>" ++ T) := rfl
    rw [hc] at hm ⊢
    exact regex_search_head _ _ _ _ hm
  unfold stringPatEnd
  rw [List.append_assoc, hskip, hat]
  simp

theorem clean_of_no_newline (K : Bytes) (h : ∀ c ∈ K, c ≠ 10) : clean K = K := by
  unfold clean
  rw [List.filter_eq_self]
  intro c hc
  simpa using h c hc

theorem take_takeWhile_length (p : Nat → Bool) (T : Bytes) :
    T.take (T.takeWhile p).length = T.takeWhile p := by
  have h := List.takeWhile_prefix p (l := T)
  exact (List.prefix_iff_eq_take.mp h).symm

set_option synthInstance.maxSize 4096 in
set_option maxRecDepth 100000 in
/-- C17 as stated fails: in `<string name="K" tname="x">V</string>` the greedy
`.*` of the validation pattern runs to the last `name=`, so the key of the
row is `x`, not `K`. -/
theorem string_entry_keying_counterexample :
    (parse twoNamesXml [] (lit "a.xml") true).map
        (fun r => r.filesData.map fun file => (file.2.rows, file.2.data))
      = some [([lit "x"], [(lit "x", twoNamesXml)])] := by
  decide

/-- C17, amended: for a statement `<string name="K" A>V</string>` in master
mode, where `K` is not empty and has no quote and no line feed, `A` has no
`>`, no `</string>` starts before the closing one and `name=` does not occur
again in the newline-stripped statement, the key of the row is exactly `K`
and `data[K]` is the verbatim span from the tag through `</string>` and the
blanks after it. -/
theorem string_entry_keying (buf filePath : Bytes) (st : ParseState) (pos q : Nat)
    (K A V T : Bytes)
    (hnext : getNext begPat buf st.pos = (some pos, pos))
    (hbuf : buf.drop pos
      = lit "<string name=" ++ q :: K ++ q :: A ++ 62 :: V ++ lit "</string>" ++ T)
    (hq : q = 34 ∨ q = 39)
    (hK : K ≠ []) (hKq : ∀ c ∈ K, c ≠ 34 ∧ c ≠ 39 ∧ c ≠ 10)
    (hA : ∀ c ∈ A, c ≠ 62)
    (hfirst : ¬ lit "</string>" <:+:
      lit "<string name=" ++ q :: K ++ q :: A ++ 62 :: V ++ lit "</string")
    (hname : ¬ lit "name=" <:+:
      clean (q :: K ++ q :: A ++ 62 :: V ++ lit "</string>" ++ T.takeWhile isBlank)) :
    (parseStep buf filePath true st).2 = none
      ∧ (parseStep buf filePath true st).1.fileData.rows
          = (gapRow buf filePath true { st with pos := pos }).fileData.rows ++ [K]
      ∧ (parseStep buf filePath true st).1.fileData.data
          = st.fileData.data.insert K
              (lit "<string name=" ++ q :: K ++ q :: A ++ 62 :: V ++ lit "</string>"
                ++ T.takeWhile isBlank)
      ∧ (parseStep buf filePath true st).1.fileData.data.find K
          = some (lit "<string name=" ++ q :: K ++ q :: A ++ 62 :: V ++ lit "</string>"
                ++ T.takeWhile isBlank)
      ∧ (parseStep buf filePath true st).1.fileData.meta
          = (gapRow buf filePath true { st with pos := pos }).fileData.meta := by
  have hq10 : q ≠ 10 := by rcases hq with h | h <;> subst h <;> decide
  have hhead : lit "<string name=" = lit "<string " ++ lit "name=" := by decide
  generalize hP : lit "<string name=" ++ q :: K ++ q :: A ++ 62 :: V = P at hbuf hfirst
  have htag : buf.drop pos = lit "<string " ++
      (lit "name=" ++ q :: K ++ q :: A ++ 62 :: V ++ lit "</string>" ++ T) := by
    rw [hbuf, ← hP, hhead]
    simp
  have hc : (buf.drop (pos + 1)).headD 0 = 115 := by
    have : buf.drop (pos + 1) = (buf.drop pos).drop 1 := by
      rw [List.drop_drop, Nat.add_comm]
    rw [this, htag]
    rfl
  have hgp : (gapRow buf filePath true { st with pos := pos }).pos = pos := by
    unfold gapRow
    split <;> rfl
  have hgd : (gapRow buf filePath true { st with pos := pos }).fileData.data
      = st.fileData.data := by
    unfold gapRow
    split <;> rfl
  generalize hst1 : gapRow buf filePath true { st with pos := pos } = st1 at hgp hgd
  have hspan : (buf.drop pos).take (P.length + (9 + blankRun T))
      = P ++ lit "</string>" ++ T.takeWhile isBlank := by
    rw [hbuf, List.append_assoc, List.take_append]
    have h9 : (9 : Nat) = (lit "</string>").length := by decide
    rw [h9, List.take_append, blankRun, take_takeWhile_length]
    simp
  have hgs : getStatement stringPatEnd buf st1.pos st1.statement
      = (true, P ++ lit "</string>" ++ T.takeWhile isBlank,
          pos + (P.length + (9 + blankRun T))) := by
    unfold getStatement
    rw [hgp, hbuf, stringPatEnd_entry P T hfirst, ← hbuf]
    simp only [hspan]
  have hcleanS : clean (P ++ lit "</string>" ++ T.takeWhile isBlank)
      = lit "<string name=" ++ q :: K ++ q :: clean A ++ 62 :: clean V ++ lit "</string>"
          ++ clean (T.takeWhile isBlank) := by
    rw [← hP]
    have hk : clean K = K := clean_of_no_newline K (fun c hc => (hKq c hc).2.2)
    have h1 : clean (lit "<string name=") = lit "<string name=" := by decide
    have h2 : clean (lit "</string>") = lit "</string>" := by decide
    have happ : ∀ X Y : Bytes, clean (X ++ Y) = clean X ++ clean Y :=
      fun X Y => List.filter_append _ _
    have hcons : ∀ (c : Nat) (X : Bytes), c ≠ 10 → clean (c :: X) = c :: clean X := by
      intro c X hne
      simp [clean, List.filter_cons, hne]
    simp only [happ, hcons q _ hq10, hcons 62 _ (by decide), h1, h2, hk]
  have hnameC : clean (q :: K ++ q :: A ++ 62 :: V ++ lit "</string>" ++ T.takeWhile isBlank)
      = q :: K ++ q :: clean A ++ 62 :: clean V ++ lit "</string>"
          ++ clean (T.takeWhile isBlank) := by
    have hk : clean K = K := clean_of_no_newline K (fun c hc => (hKq c hc).2.2)
    have h2 : clean (lit "</string>") = lit "</string>" := by decide
    have happ : ∀ X Y : Bytes, clean (X ++ Y) = clean X ++ clean Y :=
      fun X Y => List.filter_append _ _
    have hcons : ∀ (c : Nat) (X : Bytes), c ≠ 10 → clean (c :: X) = c :: clean X := by
      intro c X hne
      simp [clean, List.filter_cons, hne]
    have e : q :: K ++ q :: A ++ 62 :: V ++ lit "</string>" ++ T.takeWhile isBlank
        = q :: (K ++ (q :: (A ++ (62 :: (V ++ (lit "</string>" ++ T.takeWhile isBlank)))))) := by
      simp
    rw [e]
    simp only [happ, hcons q _ hq10, hcons 62 _ (by decide), h2, hk]
    simp
  rw [hnameC] at hname
  have hAc : ∀ c ∈ clean A, c ≠ 62 := fun c hc => hA c (List.mem_of_mem_filter hc)
  obtain ⟨m, hm, hmk⟩ := stringPat_entry q K (clean A) (clean V) (clean (T.takeWhile isBlank))
    hq hK (fun c hc => ⟨(hKq c hc).1, (hKq c hc).2.1⟩) hAc hname
  rw [← hcleanS] at hm
  have hcl : classify buf filePath pos st1
      = (true, false, { st1 with statement := P ++ lit "</string>" ++ T.takeWhile isBlank
                                 pos := pos + (P.length + (9 + blankRun T))
                                 key := K }) := by
    have h1 : classify buf filePath pos st1 = stringStatement buf filePath pos st1 := by
      unfold classify
      simp only [hc]
      rfl
    rw [h1]
    unfold stringStatement
    rw [htag, strncmpEq_string_tag, hgs]
    simp only [if_true, hm, hmk]
  have hstep : parseStep buf filePath true st
      = ({ pushData filePath
            { st1 with statement := P ++ lit "</string>" ++ T.takeWhile isBlank
                       pos := pos + (P.length + (9 + blankRun T))
                       key := K } with
           lastPos := pos + (P.length + (9 + blankRun T)) }, none) := by
    unfold parseStep
    rw [hnext]
    simp only [hst1, hcl, record, if_true, Bool.false_eq_true, if_false]
    rfl
  rw [hstep]
  refine ⟨rfl, rfl, ?_, ?_, rfl⟩
  · simp [pushData, hgd]
  · simp only [pushData]
    exact StdMap.find_insert_self _ _ _

set_option maxRecDepth 100000 in
/-- Witness of C17 amended: an entry with a second attribute, a line feed in
the value and blanks after the closing tag. -/
theorem string_entry_keying_witness :
    (parseStep entryXml (lit "a.xml") true (parseInit [] (lit "a.xml") true)).2 = none
      ∧ (parseStep entryXml (lit "a.xml") true (parseInit [] (lit "a.xml") true)).1.fileData.rows
          = (gapRow entryXml (lit "a.xml") true
              { parseInit [] (lit "a.xml") true with pos := 0 }).fileData.rows ++ [lit "word1"]
      ∧ (parseStep entryXml (lit "a.xml") true (parseInit [] (lit "a.xml") true)).1.fileData.data
          = (parseInit [] (lit "a.xml") true).fileData.data.insert (lit "word1")
              (lit "<string name=" ++ 34 :: lit "word1" ++ 34 :: lit " product=\"t\""
                ++ 62 :: lit "Your\nDrive" ++ lit "</string>"
                ++ (lit "\n  <a>").takeWhile isBlank)
      ∧ (parseStep entryXml (lit "a.xml") true
            (parseInit [] (lit "a.xml") true)).1.fileData.data.find (lit "word1")
          = some (lit "<string name=" ++ 34 :: lit "word1" ++ 34 :: lit " product=\"t\""
                ++ 62 :: lit "Your\nDrive" ++ lit "</string>"
                ++ (lit "\n  <a>").takeWhile isBlank)
      ∧ (parseStep entryXml (lit "a.xml") true (parseInit [] (lit "a.xml") true)).1.fileData.meta
          = (gapRow entryXml (lit "a.xml") true
              { parseInit [] (lit "a.xml") true with pos := 0 }).fileData.meta :=
  string_entry_keying entryXml (lit "a.xml") (parseInit [] (lit "a.xml") true) 0 34
    (lit "word1") (lit " product=\"t\"") (lit "Your\nDrive") (lit "\n  <a>")
    (by decide) (by decide) (Or.inl rfl) (by decide) (by decide) (by decide)
    (by decide) (by decide)

/-! ## Repeated names -/

theorem isMetaKey_nextKey (num : Nat) : isMetaKey (nextKey num) = true := by
  unfold isMetaKey
  rw [nextKey_take_two]
  exact beq_self_eq_true _

theorem filter_append_metaKey (rows : List Bytes) (key : Bytes) (h : isMetaKey key = true) :
    (rows ++ [key]).filter (fun k => !isMetaKey k) = rows.filter (fun k => !isMetaKey k) := by
  simp [List.filter_append, h]

theorem gapRow_master_rows (buf filePath : Bytes) (st : ParseState) :
    (gapRow buf filePath true st).fileData.data = st.fileData.data
      ∧ (gapRow buf filePath true st).fileData.rows.filter (fun k => !isMetaKey k)
          = st.fileData.rows.filter (fun k => !isMetaKey k) := by
  unfold gapRow
  split
  · refine ⟨rfl, ?_⟩
    simp only [if_true, pushMeta]
    exact filter_append_metaKey _ _ (isMetaKey_nextKey _)
  · exact ⟨rfl, rfl⟩

theorem parseStep_string (buf filePath : Bytes) (st st1 : ParseState)
    (h : parseStep buf filePath true st = (st1, none)) :
    (stringPass buf filePath st = true →
        st1.fileData.rows
          = (gapRow buf filePath true
              { st with pos := (getNext begPat buf st.pos).2 }).fileData.rows ++ [st1.key]
        ∧ st1.fileData.data = st.fileData.data.insert st1.key st1.statement)
      ∧ (stringPass buf filePath st = false →
          st1.fileData.data = st.fileData.data
          ∧ st1.fileData.rows.filter (fun k => !isMetaKey k)
              = st.fileData.rows.filter (fun k => !isMetaKey k)) := by
  unfold parseStep at h
  unfold stringPass
  generalize getNext begPat buf st.pos = g at h ⊢
  obtain ⟨ptr, pos1⟩ := g
  cases ptr with
  | none => simp at h
  | some nextPtr =>
    simp only at h ⊢
    have hg := gapRow_master_rows buf filePath { st with pos := pos1 }
    have hc := classify_classified buf filePath nextPtr
      (gapRow buf filePath true { st with pos := pos1 })
    generalize gapRow buf filePath true { st with pos := pos1 } = st0 at hg hc h ⊢
    generalize classify buf filePath nextPtr st0 = c at hc h ⊢
    obtain ⟨okay, isMeta, st2⟩ := c
    simp only at hc h hg ⊢
    obtain ⟨hfd, _, _, _, hokay, _⟩ := hc
    obtain ⟨hgd, hgr⟩ := hg
    cases hr : record buf filePath true okay isMeta st2 with
    | none => simp [hr] at h
    | some st3 =>
      rw [hr] at h
      simp only [Prod.mk.injEq, and_true] at h
      subst h
      unfold record at hr
      cases okay with
      | true =>
        cases isMeta with
        | true =>
          simp only [if_true, Option.some.injEq] at hr
          subst hr
          refine ⟨fun hf => absurd hf (by simp), fun _ => ?_⟩
          have hk : isMetaKey st2.key = true := by
            unfold isMetaKey
            rw [(hokay rfl).2.2.2.2 rfl]
            exact beq_self_eq_true _
          refine ⟨?_, ?_⟩
          · show st2.fileData.data = st.fileData.data
            rw [hfd, hgd]
          · show (st2.fileData.rows ++ [st2.key]).filter _ = _
            rw [filter_append_metaKey _ _ hk, hfd, hgr]
        | false =>
          simp only [if_true, Bool.false_eq_true, if_false, Option.some.injEq] at hr
          subst hr
          refine ⟨fun _ => ?_, fun hf => absurd hf (by simp)⟩
          refine ⟨?_, ?_⟩
          · show st2.fileData.rows ++ [st2.key] = st0.fileData.rows ++ [st2.key]
            rw [hfd]
          · show st2.fileData.data.insert st2.key st2.statement
              = st.fileData.data.insert st2.key st2.statement
            rw [hfd, hgd]
      | false =>
        simp only [Bool.false_eq_true, if_false, if_true] at hr
        split at hr
        · simp only [Option.some.injEq] at hr
          subst hr
          refine ⟨fun hf => absurd hf (by simp), fun _ => ?_⟩
          refine ⟨?_, ?_⟩
          · show st2.fileData.data = st.fileData.data
            rw [hfd, hgd]
          · show (st2.fileData.rows ++ [nextKey st2.row]).filter _ = _
            rw [filter_append_metaKey _ _ (isMetaKey_nextKey _), hfd, hgr]
        · exact absurd hr (by simp)

theorem parseStep_return_rows (buf filePath : Bytes) (st st1 : ParseState) (b : Bool)
    (h : parseStep buf filePath true st = (st1, some b)) :
    st1.fileData.data = st.fileData.data
      ∧ st1.fileData.rows.filter (fun k => !isMetaKey k)
          = st.fileData.rows.filter (fun k => !isMetaKey k) := by
  cases hg : getNext begPat buf st.pos with
  | mk ptr pos =>
    cases ptr with
    | none =>
      obtain ⟨_, hfd, _⟩ := parseStep_scanned buf filePath true st st1 b pos h hg
      rw [hfd]
      exact ⟨rfl, rfl⟩
    | some nextPtr =>
      obtain ⟨_, hfd, _⟩ := parseStep_fatal buf filePath true st st1 b nextPtr pos h hg
      rw [hfd]
      exact gapRow_master_rows buf filePath { st with pos := pos }

theorem parseLoop_entries (buf filePath : Bytes) (fuel : Nat) (st stF : ParseState) (b : Bool)
    (h : parseLoop buf filePath true fuel st = some (stF, b)) :
    stF.fileData.data
        = (stringEntries buf filePath fuel st).foldl (fun m e => m.insert e.1 e.2)
            st.fileData.data
      ∧ stF.fileData.rows.filter (fun k => !isMetaKey k)
          = st.fileData.rows.filter (fun k => !isMetaKey k)
            ++ ((stringEntries buf filePath fuel st).map Prod.fst).filter
                (fun k => !isMetaKey k) := by
  induction fuel generalizing st with
  | zero => simp [parseLoop] at h
  | succ f ih =>
    unfold parseLoop at h
    unfold stringEntries
    cases hs : parseStep buf filePath true st with
    | mk st1 ret =>
      rw [hs] at h
      cases ret with
      | some c =>
        simp only [Option.some.injEq, Prod.mk.injEq] at h
        obtain ⟨h1, _⟩ := h
        subst h1
        obtain ⟨hd, hr⟩ := parseStep_return_rows buf filePath st st1 c hs
        simp [hd, hr]
      | none =>
        obtain ⟨ihd, ihr⟩ := ih st1 h
        obtain ⟨hyes, hno⟩ := parseStep_string buf filePath st st1 hs
        rw [ihd, ihr]
        cases hp : stringPass buf filePath st with
        | true =>
          obtain ⟨hrows, hdata⟩ := hyes hp
          have hg : (gapRow buf filePath true
              { st with pos := (getNext begPat buf st.pos).2 }).fileData.rows.filter
                (fun k => !isMetaKey k)
              = st.fileData.rows.filter (fun k => !isMetaKey k) :=
            (gapRow_master_rows buf filePath
              { st with pos := (getNext begPat buf st.pos).2 }).2
          simp only [if_true, List.foldl_append, List.foldl_cons, List.foldl_nil,
            List.map_append, List.map_cons, List.map_nil, List.filter_append]
          rw [hdata, hrows, List.filter_append, hg, List.append_assoc]
          exact ⟨rfl, rfl⟩
        | false =>
          obtain ⟨hdata, hrows⟩ := hno hp
          simp only [Bool.false_eq_true, if_false, List.nil_append]
          rw [hdata, hrows]
          exact ⟨rfl, rfl⟩

theorem find_foldl_insert (es : List (Bytes × Bytes)) (m : XmlData) (K : Bytes) :
    (es.foldl (fun m e => m.insert e.1 e.2) m).find K
      = match (es.filter fun e => e.1 = K).getLast? with
        | some e => some e.2
        | none => m.find K := by
  induction es generalizing m with
  | nil => rfl
  | cons e rest ih =>
    simp only [List.foldl_cons, ih]
    by_cases hk : e.1 = K
    · simp only [List.filter_cons, hk, decide_True, if_true]
      cases hl : (rest.filter fun e => e.1 = K).getLast? with
      | some x =>
        cases hfl : (rest.filter fun e => decide (e.1 = K)) with
        | nil =>
          rw [hfl] at hl
          simp at hl
        | cons y ys =>
          rw [hfl] at hl
          rw [List.getLast?_cons_cons, hl]
      | none =>
        have hnil : (rest.filter fun e => decide (e.1 = K)) = [] := by
          simpa using hl
        rw [hnil]
        simp only [List.getLast?_singleton]
        rw [← hk]
        exact StdMap.find_insert_self _ _ _
    · simp only [List.filter_cons, hk, decide_False, Bool.false_eq_true, if_false]
      cases hl : (rest.filter fun e => e.1 = K).getLast? with
      | some x => rfl
      | none => exact StdMap.find_insert_ne _ _ _ _ (Ne.symm hk)

/-- C18: every pass that records a StringEntry appends its key to rows once
and stores its text under that key; so after the master parse of a file into
an empty Document Set `data[key]` holds the text of the last StringEntry with
that name, and the rows that are not synthetic keys are the names of the
StringEntry statements in order, one per occurrence. -/
theorem duplicate_names (buf filePath : Bytes) :
    (∀ st st1, parseStep buf filePath true st = (st1, none) →
        stringPass buf filePath st = true →
        st1.fileData.rows
          = (gapRow buf filePath true
              { st with pos := (getNext begPat buf st.pos).2 }).fileData.rows ++ [st1.key]
        ∧ st1.fileData.data.find st1.key = some st1.statement)
      ∧ ∃ r d, parse buf [] filePath true = some r ∧ r.filesData.find filePath = some d
        ∧ (∀ K e, ((stringEntriesOf buf filePath).filter fun x => x.1 = K).getLast? = some e →
            d.data.find K = some e.2)
        ∧ d.rows.filter (fun k => !isMetaKey k)
            = ((stringEntriesOf buf filePath).map Prod.fst).filter (fun k => !isMetaKey k)
        ∧ ∀ K, isMetaKey K = false →
            d.rows.count K = ((stringEntriesOf buf filePath).map Prod.fst).count K := by
  constructor
  · intro st st1 hs hp
    obtain ⟨hrows, hdata⟩ := (parseStep_string buf filePath st st1 hs).1 hp
    exact ⟨hrows, by rw [hdata]; exact StdMap.find_insert_self _ _ _⟩
  · have htotal : (parseRun buf [] filePath true).isSome = true :=
      parseLoop_total buf filePath true (buf.length + 1) _ (by simp [parseInit]) (by omega)
    obtain ⟨res, hres⟩ := Option.isSome_iff_exists.mp htotal
    obtain ⟨stF, b⟩ := res
    obtain ⟨hdata, hrows⟩ := parseLoop_entries buf filePath _ _ stF b hres
    have hd0 : (parseInit [] filePath true).fileData = FileData.empty := rfl
    rw [hd0] at hdata hrows
    have hrows' : stF.fileData.rows.filter (fun k => !isMetaKey k)
        = ((stringEntriesOf buf filePath).map Prod.fst).filter (fun k => !isMetaKey k) := by
      rw [hrows]
      rfl
    refine ⟨{ ok := b, filesData := stF.filesData.insert filePath stF.fileData,
              err := stF.err, cerr := stF.cerr }, stF.fileData, by simp [parse, hres],
      StdMap.find_insert_self _ _ _, ?_, hrows', ?_⟩
    · intro K e he
      rw [hdata, find_foldl_insert]
      have he' : ((stringEntries buf filePath (buf.length + 1)
          (parseInit [] filePath true)).filter fun x => decide (x.1 = K)).getLast? = some e := he
      rw [he']
    · intro K hK
      have hp : (fun k => !isMetaKey k) K = true := by simp [hK]
      have h1 := @List.count_filter Bytes _ _ (fun k => !isMetaKey k) K stF.fileData.rows hp
      have h2 := @List.count_filter Bytes _ _ (fun k => !isMetaKey k) K
        ((stringEntriesOf buf filePath).map Prod.fst) hp
      rw [← h1, hrows', h2]

set_option maxRecDepth 100000 in
/-- Witness of C18: the name `k` occurs in the first and in the third entry. -/
theorem duplicate_names_witness :
    ∃ r d, parse twiceXml [] (lit "a.xml") true = some r
      ∧ r.filesData.find (lit "a.xml") = some d
      ∧ d.data.find (lit "k") = some (lit "<string name=\"k\">3</string>\n")
      ∧ d.rows.count (lit "k") = 2 :=
  (duplicate_names twiceXml (lit "a.xml")).2.elim fun r h => h.elim fun d h =>
    ⟨r, d, h.1, h.2.1,
      h.2.2.1 (lit "k") (lit "k", lit "<string name=\"k\">3</string>\n") (by decide),
      (h.2.2.2.2 (lit "k") (by decide)).trans (by decide)⟩

/-! ## Writer -/

theorem writeLoop_texts (fileData : FileData) (keys : List Bytes) (out : Bytes)
    (h : writeLoop fileData keys = some out) :
    ∃ texts, List.Forall₂ (fun key text => rowText fileData key = some text) keys texts
      ∧ out = texts.flatten := by
  induction keys generalizing out with
  | nil =>
    simp only [writeLoop, Option.some.injEq] at h
    exact ⟨[], List.Forall₂.nil, by simp [← h]⟩
  | cons key rest ih =>
    simp only [writeLoop] at h
    cases hk : rowText fileData key with
    | none => simp [hk] at h
    | some str =>
      simp only [hk] at h
      cases hr : writeLoop fileData rest with
      | none => simp [hr] at h
      | some out1 =>
        simp only [hr, Option.map_some', Option.some.injEq] at h
        obtain ⟨texts, hf, hj⟩ := ih out1 hr
        exact ⟨str :: texts, List.Forall₂.cons hk hf, by simp [← h, hj]⟩

theorem writeFile_emitted (outFmt : Bytes) (verbose : Bool) (canOpen : Bytes → Bool)
    (file : Bytes × FileData) (e : Emitted)
    (h : writeFile outFmt verbose canOpen file = some e) (he : e.isEmitted = true) :
    ∃ out, writeRows file.2 = some out
      ∧ ((∃ outPath n, e = Emitted.saved outPath n out)
          ∨ e = Emitted.stdout ((if verbose then fileHeader file.1 else []) ++ out)) := by
  unfold writeFile at h
  cases hp : getParts outFmt file.1 with
  | none => simp [hp] at h
  | some outPath =>
    simp only [hp] at h
    split at h
    · simp only [Option.some.injEq] at h
      subst h
      simp [Emitted.isEmitted] at he
    · split at h
      · simp only [Option.some.injEq] at h
        subst h
        simp [Emitted.isEmitted] at he
      · split at h
        · simp only [Option.some.injEq] at h
          subst h
          simp [Emitted.isEmitted] at he
        · cases hw : writeRows file.2 with
          | none =>
            simp only [hw, Option.some.injEq] at h
            subst h
            simp [Emitted.isEmitted] at he
          | some out =>
            simp only [hw] at h
            split at h
            · simp only [Option.some.injEq] at h
              exact ⟨out, rfl, Or.inr h.symm⟩
            · simp only [Option.some.injEq] at h
              exact ⟨out, rfl, Or.inl ⟨_, _, h.symm⟩⟩

theorem writeFiles_mem (outFmt : Bytes) (verbose : Bool) (canOpen : Bytes → Bool)
    (filesData : FilesData) (es : List (Bytes × Emitted))
    (h : writeFiles outFmt verbose canOpen filesData = some es)
    (filePath : Bytes) (e : Emitted) (hmem : (filePath, e) ∈ es) :
    ∃ file ∈ filesData, file.1 = filePath ∧ writeFile outFmt verbose canOpen file = some e := by
  induction filesData generalizing es with
  | nil =>
    simp only [writeFiles, Option.some.injEq] at h
    subst h
    simp at hmem
  | cons file rest ih =>
    simp only [writeFiles] at h
    cases hf : writeFile outFmt verbose canOpen file with
    | none => simp [hf] at h
    | some e1 =>
      have hcons : ∀ es1, writeFiles outFmt verbose canOpen rest = some es1 →
          es = (file.1, e1) :: es1 →
          ∃ file1 ∈ file :: rest, file1.1 = filePath
            ∧ writeFile outFmt verbose canOpen file1 = some e := by
        intro es1 hr hes
        subst hes
        rcases List.mem_cons.mp hmem with hm | hm
        · simp only [Prod.mk.injEq] at hm
          exact ⟨file, List.mem_cons_self _ _, hm.1.symm, by rw [hf, hm.2]⟩
        · obtain ⟨file1, hin, h1, h2⟩ := ih es1 hr hm
          exact ⟨file1, List.mem_cons_of_mem _ hin, h1, h2⟩
      cases e1 with
      | thrown =>
        simp only [hf, Option.some.injEq] at h
        subst h
        simp only [List.mem_singleton, Prod.mk.injEq] at hmem
        exact ⟨file, List.mem_cons_self _ _, hmem.1.symm, by rw [hf, hmem.2]⟩
      | noUpdates outPath =>
        simp only [hf] at h
        cases hr : writeFiles outFmt verbose canOpen rest with
        | none => simp [hr] at h
        | some es1 =>
          simp only [hr, Option.map_some', Option.some.injEq] at h
          exact hcons es1 hr h.symm
      | failedCreation outPath =>
        simp only [hf] at h
        cases hr : writeFiles outFmt verbose canOpen rest with
        | none => simp [hr] at h
        | some es1 =>
          simp only [hr, Option.map_some', Option.some.injEq] at h
          exact hcons es1 hr h.symm
      | saved outPath n out =>
        simp only [hf] at h
        cases hr : writeFiles outFmt verbose canOpen rest with
        | none => simp [hr] at h
        | some es1 =>
          simp only [hr, Option.map_some', Option.some.injEq] at h
          exact hcons es1 hr h.symm
      | stdout out =>
        simp only [hf] at h
        cases hr : writeFiles outFmt verbose canOpen rest with
        | none => simp [hr] at h
        | some es1 =>
          simp only [hr, Option.map_some', Option.some.injEq] at h
          exact hcons es1 hr h.symm

set_option synthInstance.maxSize 4096 in
set_option maxRecDepth 100000 in
/-- C19 as stated fails: in verbose mode with the template `-` the document
parsed from `<?x?>` is sent to cout behind the line `==== File: a.xml`, so
the bytes written are not the concatenation `<?x?>` of its rows alone. -/
theorem writer_output_counterexample :
    (parse (lit "<?x?>") [] (lit "a.xml") true).map
        (fun r => (r.filesData.map fun file => writeRows file.2,
          writeFilesTo r.filesData (lit "-") true fun _ => true))
      = some ([some (lit "<?x?>")],
          some [(lit "a.xml", Emitted.stdout (lit "\n==== File: a.xml\n<?x?>"))]) := by
  decide

/-- C19, amended: for every document `writeFilesTo` emits, the bytes sent to
the file are the concatenation, over the keys of rows in order, of meta[key]
when the key starts with `_#` and of data[key] otherwise; the bytes sent to
cout are that concatenation, preceded in verbose mode by the line
`==== File: <path>`. -/
theorem writer_output (filesData : FilesData) (outFmt : Bytes) (verbose : Bool)
    (canOpen : Bytes → Bool) (es : List (Bytes × Emitted)) (filePath : Bytes) (e : Emitted)
    (h : writeFilesTo filesData outFmt verbose canOpen = some es)
    (hmem : (filePath, e) ∈ es) (he : e.isEmitted = true) :
    ∃ fileData texts, (filePath, fileData) ∈ filesData
      ∧ List.Forall₂ (fun key text =>
          (if key.take 2 = META_PREFIX then fileData.meta.find key
            else fileData.data.find key) = some text) fileData.rows texts
      ∧ ((∃ outPath n, e = Emitted.saved outPath n texts.flatten)
          ∨ e = Emitted.stdout
                ((if verbose then lit "\n==== File: " ++ filePath ++ [10] else [])
                  ++ texts.flatten)) := by
  unfold writeFilesTo at h
  split at h
  · simp only [Option.some.injEq] at h
    subst h
    simp at hmem
  · obtain ⟨file, hin, hpath, hfile⟩ := writeFiles_mem outFmt verbose canOpen filesData es h
      filePath e hmem
    obtain ⟨out, hrows, hcase⟩ := writeFile_emitted outFmt verbose canOpen file e hfile he
    obtain ⟨texts, hf, hout⟩ := writeLoop_texts file.2 file.2.rows out hrows
    subst hout
    subst hpath
    exact ⟨file.2, texts, hin, hf, hcase⟩

set_option synthInstance.maxSize 4096 in
set_option maxRecDepth 100000 in
/-- Witness of C19: a document with one update, written with the template
`%p/out-%n` to a file that opens. -/
theorem writer_output_witness :
    ∃ (fileData : FileData) (texts : List Bytes), (lit "r/a.xml", fileData) ∈ updatedDocs
      ∧ List.Forall₂ (fun key text =>
          (if key.take 2 = META_PREFIX then fileData.meta.find key
            else fileData.data.find key) = some text) fileData.rows texts
      ∧ ((∃ outPath n, Emitted.saved (lit "r/out-a.xml") 1
              (lit "<?x?><string name=\"k\">v</string>") = Emitted.saved outPath n texts.flatten)
          ∨ Emitted.saved (lit "r/out-a.xml") 1 (lit "<?x?><string name=\"k\">v</string>")
              = Emitted.stdout
                ((if false = true then lit "\n==== File: " ++ lit "r/a.xml" ++ [10] else [])
                  ++ texts.flatten)) :=
  writer_output updatedDocs (lit "%p/out-%n") false (fun _ => true)
    [(lit "r/a.xml",
      Emitted.saved (lit "r/out-a.xml") 1 (lit "<?x?><string name=\"k\">v</string>"))]
    (lit "r/a.xml")
    (Emitted.saved (lit "r/out-a.xml") 1 (lit "<?x?><string name=\"k\">v</string>"))
    (by decide) (by decide) (by decide)

/-- The selection of one pass of `writeFilesTo`: the document is emitted
exactly when it has an update or the computed path is `-`, the sink opens and
no lookup throws; a document without updates and with another path is
skipped. -/
theorem writeFile_selected (outFmt : Bytes) (verbose : Bool) (canOpen : Bytes → Bool)
    (file : Bytes × FileData) (outPath : Bytes)
    (hp : getParts outFmt file.1 = some outPath) :
    ∃ e, writeFile outFmt verbose canOpen file = some e
      ∧ (e.isEmitted = true ↔
          (file.2.updates ≠ [] ∨ outPath = lit "-")
            ∧ (outPath = lit "-" ∨ canOpen outPath = true)
            ∧ (verbose = true → updatesFound file.2 = true)
            ∧ (writeRows file.2).isSome = true)
      ∧ (file.2.updates = [] → outPath ≠ lit "-" → e = Emitted.noUpdates outPath) := by
  unfold writeFile
  simp only [hp]
  by_cases hu : file.2.updates = []
  · by_cases ho : outPath = lit "-"
    · cases verbose <;> cases hf : updatesFound file.2 <;> cases hw : writeRows file.2 <;>
        simp [hu, ho, Emitted.isEmitted]
    · simp [hu, ho, Emitted.isEmitted]
  · have hne : file.2.updates.isEmpty = false := by
      cases hl : file.2.updates with
      | nil => exact absurd hl hu
      | cons a l => rfl
    by_cases ho : outPath = lit "-"
    · cases verbose <;> cases hf : updatesFound file.2 <;> cases hw : writeRows file.2 <;>
        simp [hu, hne, ho, Emitted.isEmitted]
    · cases hc : canOpen outPath <;> cases verbose <;> cases hf : updatesFound file.2 <;>
        cases hw : writeRows file.2 <;>
        simp [hu, hne, ho, hc, Emitted.isEmitted]

set_option synthInstance.maxSize 4096 in
set_option maxRecDepth 100000 in
/-- C20, evaluated where it fails: the master parse of
`<string name="_#5">v</string>` returns true with the single row `_#5`, kept
in data and not in meta. With the template `-` the computed path is `-`, so
the document is selected, but the lookup `xmlMeta.at("_#5")` of its row throws
and the document is not emitted. -/
theorem writer_selection_failure :
    (parse strayKeyXml [] (lit "a.xml") true).map
        (fun r => (r.ok,
          r.filesData.map (fun file => (file.2.rows, file.2.meta, file.2.data.keys)),
          r.filesData.map (fun file => getParts (lit "-") file.1),
          writeFilesTo r.filesData (lit "-") false fun _ => true))
      = some (true, [([lit "_#5"], [], [lit "_#5"])], [some (lit "-")],
          some [(lit "a.xml", Emitted.thrown)]) := by
  decide

/-! ## Scanner: `getNext` and `getStatement` -/

theorem regex_search_leftmost (matchAt : Bytes → Option (Nat × Bytes)) (s : Bytes) (m : Match)
    (h : regex_search matchAt s = some m) :
    matchAt (s.drop m.position) = some (m.length, m.group1)
      ∧ ∀ j, j < m.position → matchAt (s.drop j) = none := by
  induction s generalizing m with
  | nil =>
    simp only [regex_search, Option.map_eq_some'] at h
    obtain ⟨r, hr, rfl⟩ := h
    exact ⟨by simpa using hr, by intro j hj; exact absurd hj (Nat.not_lt_zero _)⟩
  | cons c rest ih =>
    cases hc : matchAt (c :: rest) with
    | some r =>
      rw [regex_search_head matchAt c rest r hc] at h
      simp only [Option.some.injEq] at h
      subst h
      exact ⟨by simpa using hc, by intro j hj; exact absurd hj (Nat.not_lt_zero _)⟩
    | none =>
      rw [regex_search_tail matchAt c rest hc] at h
      simp only [Option.map_eq_some'] at h
      obtain ⟨m1, hm1, rfl⟩ := h
      obtain ⟨hat, hbefore⟩ := ih m1 hm1
      refine ⟨by simpa using hat, ?_⟩
      intro j hj
      cases j with
      | zero => simpa using hc
      | succ j => simpa using hbefore j (by simpa using hj)

/-- C28: when the start pattern matches at distance `d` from the cursor
(the first `<` followed by a byte other than CR and LF), `getNext` returns the
pointer to that `<` and advances the cursor by exactly `d`, not by the two
bytes of the match, so the byte at the new cursor is `<`; when nothing
matches it returns the null pointer and leaves the cursor unchanged. -/
theorem getNext_cursor (buf : Bytes) (pos : Nat) :
    (∀ m, begPat (buf.drop pos) = some m →
        getNext begPat buf pos = (some (pos + m.position), pos + m.position)
          ∧ m.length = 2
          ∧ buf[pos + m.position]? = some 60
          ∧ (∃ c, buf[pos + m.position + 1]? = some c ∧ isDot c = true)
          ∧ ∀ j, j < m.position →
              ¬ (buf[pos + j]? = some 60 ∧ ∃ c, buf[pos + j + 1]? = some c ∧ isDot c = true))
      ∧ (begPat (buf.drop pos) = none → getNext begPat buf pos = (none, pos)) := by
  have hat : ∀ (s : Bytes) (r : Nat × Bytes),
      (match s with
        | 60 :: c :: _ => if isDot c then some (2, ([] : Bytes)) else none
        | _ => none) = some r →
      r.1 = 2 ∧ s[0]? = some 60 ∧ ∃ c, s[1]? = some c ∧ isDot c = true := by
    intro s r hr
    match s, hr with
    | 60 :: c :: _, hr =>
      by_cases hd : isDot c = true
      · simp only [hd, if_true, Option.some.injEq] at hr
        subst hr
        exact ⟨rfl, rfl, c, by simp, hd⟩
      · simp [hd] at hr
  have hnone : ∀ (s : Bytes),
      (match s with
        | 60 :: c :: _ => if isDot c then some (2, ([] : Bytes)) else none
        | _ => none) = none →
      ¬ (s[0]? = some 60 ∧ ∃ c, s[1]? = some c ∧ isDot c = true) := by
    intro s hs
    rintro ⟨h0, c, h1, hd⟩
    match s, h0, h1 with
    | a :: b :: _, h0, h1 =>
      simp only [List.getElem?_cons_zero, Option.some.injEq] at h0
      simp only [List.getElem?_cons_succ, List.getElem?_cons_zero, Option.some.injEq] at h1
      subst h0
      subst h1
      simp [hd] at hs
  constructor
  · intro m hm
    obtain ⟨hmatch, hbefore⟩ := regex_search_leftmost _ _ m hm
    obtain ⟨hlen, h0, c, h1, hd⟩ := hat _ _ hmatch
    simp only [List.drop_drop, List.getElem?_drop] at h0 h1
    have hlen2 : m.length = 2 := hlen
    refine ⟨?_, hlen2, by simpa using h0, ⟨c, by simpa [Nat.add_assoc] using h1, hd⟩, ?_⟩
    · unfold getNext
      rw [hm]
      simp [hlen2]
    · intro j hj
      have := hnone _ (hbefore j hj)
      simpa [List.drop_drop, List.getElem?_drop, Nat.add_assoc] using this
  · intro hm
    unfold getNext
    rw [hm]

/-- Witness of C28: the start pattern matches two bytes behind the cursor. -/
theorem getNext_cursor_witness :
    getNext begPat (lit "ab <c>") 1 = (some (1 + 2), 1 + 2) ∧ (lit "ab <c>")[1 + 2]? = some 60 :=
  have h := (getNext_cursor (lit "ab <c>") 1).1 ⟨2, 2, []⟩ (by decide)
  ⟨h.1, h.2.2.1⟩

/-- C29: on success `getStatement` returns exactly the bytes from the cursor
through the end of the leftmost match of the end pattern and moves the cursor
to the end of that match; on failure it returns false and leaves the cursor
and the output statement unchanged. -/
theorem getStatement_result (matchAt : Bytes → Option (Nat × Bytes)) (buf : Bytes) (pos : Nat)
    (out : Bytes) :
    (∀ m, regex_search matchAt (buf.drop pos) = some m →
        getStatement (regex_search matchAt) buf pos out
            = (true, (buf.drop pos).take (m.position + m.length),
                pos + (m.position + m.length))
          ∧ matchAt (buf.drop (pos + m.position)) = some (m.length, m.group1)
          ∧ ∀ j, j < m.position → matchAt (buf.drop (pos + j)) = none)
      ∧ (regex_search matchAt (buf.drop pos) = none →
          getStatement (regex_search matchAt) buf pos out = (false, out, pos)) := by
  constructor
  · intro m hm
    obtain ⟨hmatch, hbefore⟩ := regex_search_leftmost _ _ m hm
    refine ⟨?_, by simpa [List.drop_drop] using hmatch, ?_⟩
    · unfold getStatement
      rw [hm]
    · intro j hj
      simpa [List.drop_drop] using hbefore j hj
  · intro hm
    unfold getStatement
    rw [hm]

/-- Witness of C29: the end pattern of a string entry, searched from the
cursor at byte 2, matches `</string>` and the line feed after it. -/
theorem getStatement_result_witness :
    getStatement stringPatEnd (lit "  <string name=\"k\">v</string>\n<a>") 2 []
      = (true, lit "<string name=\"k\">v</string>\n", 2 + (18 + 10)) :=
  ((getStatement_result (litBlankAt (lit "</string>"))
      (lit "  <string name=\"k\">v</string>\n<a>") 2 []).1 ⟨18, 10, []⟩ (by decide)).1

/-! ## Synthetic keys -/

/-- C30, evaluated where it fails: `snprintf` into `tagStr[10]` keeps nine
bytes, so the row numbers 1000000, 10000000 and 10000001 all receive the key
`_#1000000`. -/
theorem nextKey_collision :
    nextKey 1000000 = lit "_#1000000" ∧ nextKey 10000000 = lit "_#1000000"
      ∧ nextKey 10000001 = lit "_#1000000" := by
  decide

/-! ## The buffer between two files -/

set_option synthInstance.maxSize 4096 in
set_option maxRecDepth 100000 in
/-- C27, evaluated where it fails: `resize(st_size + 1)` keeps the byte at
index `st_size` of the buffer of the previous file and `read` does not
overwrite it.  After `a.xml` (`<a> <b>`) the buffer of `c.xml` (`<c>`) is
`<c>`, a blank and one NUL, and the row of `<c>` carries the blank; loaded
first, the buffer is `<c>` and two NUL and the row is `<c>`. -/
theorem stale_byte_between_files :
    loadBuffer [] (lit "<c>") = lit "<c>" ++ [0, 0]
      ∧ loadBuffer (loadBuffer [] (lit "<a> <b>")) (lit "<c>") = lit "<c> " ++ [0]
      ∧ ((ParseFile staleFiles Run.init (lit "c.xml")).1.filesData.find (lit "c.xml")).map
          (fun d => d.meta) = some [(lit "_#0", lit "<c>")]
      ∧ ((ParseFile staleFiles (ParseFile staleFiles Run.init (lit "a.xml")).1
            (lit "c.xml")).1.filesData.find (lit "c.xml")).map
          (fun d => d.meta) = some [(lit "_#0", lit "<c> ")] := by
  decide

/-! ## Path template -/

set_option maxRecDepth 100000 in
/-- C21 as stated fails: in the template `%d` the character `%` is not copied,
`getParts` puts out `d` alone; the expansion the claim describes keeps `%d`. -/
theorem path_template_counterexample :
    getParts (lit "%d") (lit "r/a.xml") = some (lit "d")
      ∧ formatPath (lit "%d") (lit "r/a.xml") = lit "%d" := by
  decide

theorem getParts_formatPath (inPath : Bytes) (n : Nat) :
    ∀ fmt : Bytes, fmt.length ≤ n → (0 : Nat) ∉ fmt → substOnly fmt = true →
      getParts fmt inPath = some (formatPath fmt inPath) := by
  induction n with
  | zero =>
    intro fmt hlen _ _
    have : fmt = [] := List.length_eq_zero.mp (Nat.le_zero.mp hlen)
    subst this
    rfl
  | succ n ih =>
    intro fmt hlen hnul hesc
    match fmt, hlen, hnul, hesc with
    | [], _, _, _ => rfl
    | [c], _, hnul, hesc =>
      have hc0 : c ≠ 0 := fun h => hnul (by simp [h])
      have hc : c ≠ 37 := by simpa [substOnly] using hesc
      simp [getParts, formatPath, hc0, hc]
    | c :: d :: rest, hlen, hnul, hesc =>
      have hc0 : c ≠ 0 := fun h => hnul (by simp [h])
      have hnul1 : (0 : Nat) ∉ d :: rest := fun h => hnul (List.mem_cons_of_mem _ h)
      have hnul2 : (0 : Nat) ∉ rest := fun h => hnul1 (List.mem_cons_of_mem _ h)
      simp only [List.length_cons] at hlen
      by_cases hc : c = 37
      · subst hc
        simp only [substOnly, if_true, Bool.and_eq_true, Bool.or_eq_true, beq_iff_eq] at hesc
        have ih2 := ih rest (by omega) hnul2 hesc.2
        rcases hesc.1 with hd | hd
        · subst hd
          simp [getParts, formatPath, ih2]
        · subst hd
          simp [getParts, formatPath, ih2]
      · simp only [substOnly, hc, if_false] at hesc
        have ih1 := ih (d :: rest) (by simp only [List.length_cons]; omega) hnul1 hesc
        rw [getParts]
        simp only [hc0, hc, if_false, ne_eq, not_false_eq_true, if_true, ih1, Option.map_some']
        simp [formatPath, hc]

/-- C21, amended: for a template without NUL in which every `%` is followed
by `n` or `p`, `getParts` replaces each `%n` by the file name and each `%p` by
the containing directory and copies every other character unchanged; a `%`
followed by another character puts out that character alone, without the
`%`. -/
theorem path_template (fmt inPath : Bytes) :
    ((0 : Nat) ∉ fmt → substOnly fmt = true →
        getParts fmt inPath = some (formatPath fmt inPath))
      ∧ ∀ d rest, d ≠ 110 → d ≠ 112 →
          getParts (37 :: d :: rest) inPath = (getParts rest inPath).map fun out => d :: out := by
  refine ⟨getParts_formatPath inPath fmt.length fmt (Nat.le_refl _), ?_⟩
  intro d rest hn hp
  simp [getParts, hn, hp]

set_option maxRecDepth 100000 in
/-- Witness of C21: the template `%p/out-%n` applied to `r/a.xml`. -/
theorem path_template_witness :
    getParts (lit "%p/out-%n") (lit "r/a.xml") = some (lit "r/out-a.xml") :=
  ((path_template (lit "%p/out-%n") (lit "r/a.xml")).1 (by decide) (by decide)).trans
    (by decide)

/-! ## Text between statements -/

theorem record_master_rows (buf filePath : Bytes) (okay isMeta : Bool) (st st' : ParseState)
    (h : record buf filePath true okay isMeta st = some st') :
    st'.fileData.rows = st.fileData.rows ++ [st'.key] := by
  unfold record at h
  cases okay with
  | true =>
    cases isMeta <;> simp only [if_true] at h <;> simp at h <;> subst h <;> rfl
  | false =>
    simp only [Bool.false_eq_true, if_false, if_true] at h
    split at h
    · simp only [Option.some.injEq] at h
      subst h
      rfl
    · exact absurd h (by simp)

/-- C24: in master mode, at a located tag start, the bytes between the end
of the previous statement (`lastPos`) and the tag start are appended as a meta
row under the next synthetic key, before the row of the tag, if and only if
they are more than one byte; a gap of zero or one byte appends no row. -/
theorem free_text_emission (buf filePath : Bytes) (st : ParseState) (nextPtr pos : Nat)
    (hnext : getNext begPat buf st.pos = (some nextPtr, pos)) :
    (st.lastPos + 1 < pos →
        (gapRow buf filePath true { st with pos := pos }).fileData.rows
            = st.fileData.rows ++ [nextKey st.row]
          ∧ (gapRow buf filePath true { st with pos := pos }).fileData.meta
            = st.fileData.meta.insert (nextKey st.row)
                ((buf.drop st.lastPos).take (pos - st.lastPos))
          ∧ (gapRow buf filePath true { st with pos := pos }).fileData.meta.find (nextKey st.row)
            = some ((buf.drop st.lastPos).take (pos - st.lastPos))
          ∧ (gapRow buf filePath true { st with pos := pos }).fileData.data = st.fileData.data)
      ∧ (pos ≤ st.lastPos + 1 →
          (gapRow buf filePath true { st with pos := pos }).fileData = st.fileData)
      ∧ (∀ st1, parseStep buf filePath true st = (st1, none) →
          st1.fileData.rows
              = (gapRow buf filePath true { st with pos := pos }).fileData.rows ++ [st1.key]
            ∧ st1.lastPos = st1.pos)
      ∧ (∀ st1 b, parseStep buf filePath true st = (st1, some b) →
          st1.fileData = (gapRow buf filePath true { st with pos := pos }).fileData) := by
  refine ⟨?_, ?_, ?_, ?_⟩
  · intro hgap
    unfold gapRow
    simp only [gt_iff_lt, hgap, if_true]
    exact ⟨rfl, rfl, StdMap.find_insert_self _ _ _, rfl⟩
  · intro hgap
    unfold gapRow
    have : ¬ (pos > st.lastPos + 1) := by omega
    simp only [this, if_false]
  · intro st1 h
    have hprog := parseStep_progress buf filePath true st st1 h
    refine ⟨?_, hprog.2.2⟩
    unfold parseStep at h
    rw [hnext] at h
    simp only at h
    have hc := classify_classified buf filePath nextPtr
      (gapRow buf filePath true { st with pos := pos })
    generalize classify buf filePath nextPtr (gapRow buf filePath true { st with pos := pos })
      = c at h hc
    cases hr : record buf filePath true c.1 c.2.1 c.2.2 with
    | none => simp [hr] at h
    | some st2 =>
      simp only [hr, Prod.mk.injEq, and_true] at h
      have hrows := record_master_rows buf filePath c.1 c.2.1 c.2.2 st2 hr
      rw [hc.1] at hrows
      rw [← h]
      exact hrows
  · intro st1 b h
    exact (parseStep_fatal buf filePath true st st1 b nextPtr pos h hnext).2.1

set_option maxRecDepth 100000 in
/-- Witness of C24: the two bytes before the first tag of `ab<c>`. -/
theorem free_text_emission_witness :
    (gapRow (lit "ab<c>") (lit "a.xml") true
        { parseInit [] (lit "a.xml") true with pos := 2 }).fileData.meta.find (nextKey 0)
      = some (lit "ab") :=
  ((free_text_emission (lit "ab<c>") (lit "a.xml") (parseInit [] (lit "a.xml") true) 2 2
      (by decide)).1 (by decide)).2.2.1

/-! ## Closing tags -/

theorem strncmpEq_isPrefix (s1 s2 : Bytes) (h0 : (0 : Nat) ∉ s1) :
    strncmpEq s1 s2 s1.length = true ↔ s1 <+: s2 := by
  induction s1 generalizing s2 with
  | nil => simp [strncmpEq]
  | cons a rest ih =>
    have ha : a ≠ 0 := fun h => h0 (by simp [h])
    have hrest : (0 : Nat) ∉ rest := fun h => h0 (List.mem_cons_of_mem _ h)
    cases s2 with
    | nil =>
      simp [strncmpEq, ha]
    | cons b rest2 =>
      simp only [List.length_cons, strncmpEq, List.headD_cons, List.tail_cons]
      by_cases hab : a = b
      · subst hab
        simp only [ne_eq, not_true_eq_false, if_false, ha]
        rw [ih rest2 hrest]
        constructor
        · rintro ⟨t, ht⟩
          exact ⟨t, by simp [ht]⟩
        · rintro ⟨t, ht⟩
          simp only [List.cons_append, List.cons.injEq, true_and] at ht
          exact ⟨t, ht⟩
      · simp only [ne_eq, hab, not_false_eq_true, if_true]
        constructor
        · intro h
          exact absurd h (by simp)
        · rintro ⟨t, ht⟩
          simp only [List.cons_append, List.cons.injEq] at ht
          exact absurd ht.1 hab

theorem gapRow_frame (buf filePath : Bytes) (master : Bool) (st : ParseState) :
    (gapRow buf filePath master st).blockKeys = st.blockKeys
      ∧ (gapRow buf filePath master st).pos = st.pos := by
  unfold gapRow
  split
  · cases master <;> exact ⟨rfl, rfl⟩
  · exact ⟨rfl, rfl⟩

theorem closeStatement_mismatch (buf : Bytes) (nextPtr : Nat) (g : ParseState)
    (hc : closesTop buf nextPtr g.blockKeys = false) :
    closeStatement buf nextPtr g = (false, { g with key := (g.blockKeys.getLast?).getD [] }) := by
  unfold closesTop at hc
  unfold closeStatement
  cases hl : g.blockKeys.getLast? with
  | none => rfl
  | some back =>
    simp only [hl] at hc
    simp only [hc, Bool.false_eq_true, if_false, Option.getD_some]

theorem closeStatement_match (buf : Bytes) (nextPtr : Nat) (g : ParseState)
    (hc : closesTop buf nextPtr g.blockKeys = true) :
    closeStatement buf nextPtr g
      = ((getStatement eoxPat buf g.pos g.statement).1,
          { g with statement := (getStatement eoxPat buf g.pos g.statement).2.1,
                   pos := (getStatement eoxPat buf g.pos g.statement).2.2,
                   key := nextKey g.row, row := incr g.row,
                   blockKeys := g.blockKeys.dropLast }) := by
  unfold closesTop at hc
  unfold closeStatement
  cases hl : g.blockKeys.getLast? with
  | none => simp [hl] at hc
  | some back =>
    simp only [hl] at hc
    simp only [hc, if_true]

set_option synthInstance.maxSize 4096 in
set_option maxRecDepth 100000 in
/-- C25 as stated fails.  In `<a></b` the tag `</b` does not match the block
`<a>` and has no `>`: nothing is pushed or recorded, `parse` returns false.
In the second buffer the block `<a`, NUL, `b>` is popped by the tag `</a`,
NUL, `c>`, although the bytes after `</` differ from the block: the
comparison of C strings ends at the NUL. -/
theorem block_close_counterexample :
    (parseRun (lit "<a></b") [] (lit "a.xml") true).map
        (fun r => (r.2, r.1.blockKeys, r.1.fileData.rows))
      = some (false, [lit "<a>"], [lit "_#0"])
      ∧ (parseRun (lit "<a\x00b></a\x00c>") [] (lit "a.xml") true).map
          (fun r => (r.2, r.1.blockKeys, r.1.fileData.rows))
        = some (true, [], [lit "_#0", lit "_#1"])
      ∧ ¬ (lit "<a\x00b>").tail <+: lit "a\x00c>" := by
  decide

/-- C25, amended: a tag starting with `</` pops the block stack exactly when
the comparison of the stack top without its first byte with the bytes after
`</` reports equality; for a stack top without NUL that is equality byte for
byte over the whole length.  In every other case the fallback capture runs:
when it finds its `>`, the captured text is pushed on the stack and, in master
mode, recorded as a meta row; when it does not, `parse` returns false and the
stack stays as it is. -/
theorem block_close_rule (buf filePath : Bytes) (master : Bool) (st : ParseState)
    (nextPtr pos : Nat)
    (hnext : getNext begPat buf st.pos = (some nextPtr, pos))
    (htag : (buf.drop (nextPtr + 1)).headD 0 = 47) :
    (closesTop buf nextPtr st.blockKeys = true →
        (parseStep buf filePath master st).1.blockKeys = st.blockKeys.dropLast)
      ∧ (closesTop buf nextPtr st.blockKeys = false →
          (∀ m, eoxPat (buf.drop pos) = some m →
            ∃ st1, parseStep buf filePath master st = (st1, none)
              ∧ st1.blockKeys
                  = st.blockKeys ++ [(buf.drop pos).take (m.position + m.length)]
              ∧ (master = true →
                  st1.fileData.rows
                      = (gapRow buf filePath master { st with pos := pos }).fileData.rows
                        ++ [nextKey (gapRow buf filePath master { st with pos := pos }).row]
                    ∧ st1.fileData.meta
                      = (gapRow buf filePath master { st with pos := pos }).fileData.meta.insert
                          (nextKey (gapRow buf filePath master { st with pos := pos }).row)
                          ((buf.drop pos).take (m.position + m.length))))
            ∧ (eoxPat (buf.drop pos) = none →
                ∃ st1, parseStep buf filePath master st = (st1, some false)
                  ∧ st1.blockKeys = st.blockKeys))
      ∧ ∀ back, st.blockKeys.getLast? = some back → (0 : Nat) ∉ back.tail →
          (closesTop buf nextPtr st.blockKeys = true ↔ back.tail <+: buf.drop (nextPtr + 2)) := by
  obtain ⟨hgb, hgp⟩ := gapRow_frame buf filePath master { st with pos := pos }
  simp only at hgb hgp
  have hcl : classify buf filePath nextPtr (gapRow buf filePath master { st with pos := pos })
      = ((closeStatement buf nextPtr (gapRow buf filePath master { st with pos := pos })).1, true,
          (closeStatement buf nextPtr (gapRow buf filePath master { st with pos := pos })).2) := by
    unfold classify
    simp only [htag]
    rfl
  refine ⟨?_, ?_, ?_⟩
  · intro hc
    unfold parseStep
    rw [hnext]
    simp only [hcl]
    generalize gapRow buf filePath master { st with pos := pos } = g at hgb hgp
    rw [← hgb] at hc ⊢
    rw [closeStatement_match buf nextPtr g hc]
    cases hm : eoxPat (buf.drop g.pos) with
    | none =>
      have hget : ∀ out, getStatement eoxPat buf g.pos out = (false, out, g.pos) := by
        intro out
        unfold getStatement
        rw [hm]
      simp only [hget, record, Bool.false_eq_true, if_false]
    | some m =>
      have hget : ∀ out, getStatement eoxPat buf g.pos out
          = (true, (buf.drop g.pos).take (m.position + m.length),
              g.pos + (m.position + m.length)) := by
        intro out
        unfold getStatement
        rw [hm]
      simp only [hget, record, if_true]
      cases master
      · simp only [Bool.false_eq_true, if_false, Bool.not_true]
      · simp only [if_true, pushMeta]
  · intro hc
    constructor
    · intro m hm
      unfold parseStep
      rw [hnext]
      simp only [hcl]
      generalize gapRow buf filePath master { st with pos := pos } = g at hgb hgp
      rw [← hgb] at hc ⊢
      rw [closeStatement_mismatch buf nextPtr g hc]
      have hget : ∀ out, getStatement eoxPat buf g.pos out
          = (true, (buf.drop pos).take (m.position + m.length),
              pos + (m.position + m.length)) := by
        intro out
        unfold getStatement
        rw [hgp, hm]
      simp only [record, Bool.false_eq_true, if_false, hget, if_true]
      cases master
      · simp only [Bool.false_eq_true, if_false]
        exact ⟨_, rfl, rfl, fun h => absurd h (by simp)⟩
      · simp only [if_true]
        exact ⟨_, rfl, rfl, fun _ => ⟨rfl, rfl⟩⟩
    · intro hm
      unfold parseStep
      rw [hnext]
      simp only [hcl]
      generalize gapRow buf filePath master { st with pos := pos } = g at hgb hgp
      rw [← hgb] at hc ⊢
      rw [closeStatement_mismatch buf nextPtr g hc]
      have hget : ∀ out, getStatement eoxPat buf g.pos out = (false, out, g.pos) := by
        intro out
        unfold getStatement
        rw [hgp, hm]
      simp only [record, Bool.false_eq_true, if_false, hget]
      exact ⟨_, rfl, rfl⟩
  · intro back hl h0
    unfold closesTop
    simp only [hl]
    have hlen : back.length - 1 = back.tail.length := by simp
    rw [hlen]
    exact strncmpEq_isPrefix _ _ h0

set_option maxRecDepth 100000 in
/-- Witness of C25: the tag `</a>` met with the block `<a>` on the stack. -/
theorem block_close_rule_witness :
    (parseStep (lit "<a></a>") (lit "a.xml") true afterOpen).1.blockKeys
        = afterOpen.blockKeys.dropLast
      ∧ afterOpen.blockKeys = [lit "<a>"] :=
  ⟨(block_close_rule (lit "<a></a>") (lit "a.xml") true afterOpen 3 3 (by decide)
      (by decide)).1 (by decide), by decide⟩

/-! ## Comparison ignoring whitespace -/

theorem stripWhite_nil_iff (p : Bytes) :
    (stripWhite p = [] ∧ endsInWhite p = false) ↔ p = [] := by
  constructor
  · rintro ⟨hs, he⟩
    by_contra hne
    obtain ⟨c, hc⟩ : ∃ c, p.getLast? = some c := by
      cases hl : p.getLast? with
      | none => exact absurd (List.getLast?_eq_none_iff.mp hl) hne
      | some c => exact ⟨c, rfl⟩
    have hmem : c ∈ p := List.mem_of_getLast?_eq_some hc
    simp only [endsInWhite, hc] at he
    have : c ∈ stripWhite p := by
      simp only [stripWhite, List.mem_filter, hmem, he, Bool.not_false, and_self]
    rw [hs] at this
    exact absurd this (List.not_mem_nil _)
  · intro h
    subst h
    exact ⟨rfl, rfl⟩

theorem endsInWhite_append_cons (pre t : Bytes) (x : Nat) (hx : isspace x = false) :
    endsInWhite (pre ++ x :: t) = endsInWhite t := by
  cases t with
  | nil =>
    simp [endsInWhite, hx]
  | cons y t1 =>
    have : (pre ++ x :: y :: t1).getLast? = (y :: t1).getLast? := by
      rw [show pre ++ x :: y :: t1 = (pre ++ [x]) ++ (y :: t1) by simp]
      exact List.getLast?_append_of_ne_nil _ (by simp)
    simp only [endsInWhite, this]

theorem stripWhite_dropWhile (p : Bytes) : stripWhite (p.dropWhile isspace) = stripWhite p := by
  induction p with
  | nil => rfl
  | cons c rest ih =>
    by_cases hc : isspace c = true
    · simp only [List.dropWhile_cons, hc, if_true, ih, stripWhite, List.filter_cons,
        Bool.not_true, Bool.false_eq_true, if_false]
      exact ih
    · simp only [List.dropWhile_cons, hc, Bool.false_eq_true, if_false]

theorem dropWhile_isspace_cases (p : Bytes) :
    (p.dropWhile isspace = [] ∧ ∀ c ∈ p, isspace c = true)
      ∨ ∃ pre x t, p = pre ++ x :: t ∧ p.dropWhile isspace = x :: t ∧ isspace x = false := by
  induction p with
  | nil => exact Or.inl ⟨rfl, by simp⟩
  | cons c rest ih =>
    by_cases hc : isspace c = true
    · rcases ih with ⟨hnil, hall⟩ | ⟨pre, x, t, hp, hd, hx⟩
      · left
        refine ⟨by simp [List.dropWhile_cons, hc, hnil], ?_⟩
        intro d hd
        rcases List.mem_cons.mp hd with h | h
        · rw [h]; exact hc
        · exact hall d h
      · right
        exact ⟨c :: pre, x, t, by simp [hp], by simp [List.dropWhile_cons, hc, hd], hx⟩
    · right
      have hc' : isspace c = false := by simpa using hc
      exact ⟨[], c, rest, rfl, by simp [List.dropWhile_cons, hc'], hc'⟩

theorem equalIgnoreWhiteLoop_iff (fuel : Nat) :
    ∀ p1 p2 : Bytes, (0 : Nat) ∉ p1 → (0 : Nat) ∉ p2 → p1.length ≤ fuel →
      (equalIgnoreWhiteLoop fuel p1 p2 = true ↔
        stripWhite p1 = stripWhite p2 ∧ (endsInWhite p1 = true ∨ endsInWhite p2 = false)) := by
  have hhead : ∀ q : Bytes, (0 : Nat) ∉ q → (q.headD 0 = 0 ↔ q = []) := by
    intro q hq
    cases q with
    | nil => simp
    | cons a t =>
      have : a ≠ 0 := fun h => hq (by simp [h])
      simp [this]
  have hempty : ∀ p2 : Bytes, (0 : Nat) ∉ p2 →
      ((p2.headD 0 == 0) = true ↔
        stripWhite [] = stripWhite p2 ∧ (endsInWhite [] = true ∨ endsInWhite p2 = false)) := by
    intro p2 h2
    rw [beq_iff_eq, hhead p2 h2, ← stripWhite_nil_iff p2]
    constructor
    · rintro ⟨hs, he⟩
      exact ⟨by rw [hs]; rfl, Or.inr he⟩
    · rintro ⟨hs, he⟩
      refine ⟨hs.symm.trans rfl, ?_⟩
      rcases he with he | he
      · exact absurd he (by decide)
      · exact he
  induction fuel with
  | zero =>
    intro p1 p2 h1 h2 hlen
    have hp1 : p1 = [] := List.length_eq_zero.mp (Nat.le_zero.mp hlen)
    subst hp1
    simp only [equalIgnoreWhiteLoop]
    exact hempty p2 h2
  | succ fuel ih =>
    intro p1 p2 h1 h2 hlen
    by_cases hp1 : p1 = []
    · subst hp1
      simp only [equalIgnoreWhiteLoop, List.headD_nil, if_true]
      exact hempty p2 h2
    · have hh1 : ¬ p1.headD 0 = 0 := fun h => hp1 ((hhead p1 h1).mp h)
      simp only [equalIgnoreWhiteLoop, hh1, if_false]
      rw [← stripWhite_dropWhile p1, ← stripWhite_dropWhile p2]
      rcases dropWhile_isspace_cases p1 with ⟨hq1, hall1⟩ | ⟨pre1, x, t1, hp1e, hq1, hx⟩
      · -- the first string is whitespace only
        have hw1 : endsInWhite p1 = true := by
          obtain ⟨c, hc⟩ : ∃ c, p1.getLast? = some c := by
            cases hl : p1.getLast? with
            | none => exact absurd (List.getLast?_eq_none_iff.mp hl) hp1
            | some c => exact ⟨c, rfl⟩
          simp only [endsInWhite, hc]
          exact hall1 c (List.mem_of_getLast?_eq_some hc)
        rw [hq1]
        rcases dropWhile_isspace_cases p2 with ⟨hq2, _⟩ | ⟨pre2, y, t2, hp2e, hq2, hy⟩
        · rw [hq2]
          simp [hw1]
        · rw [hq2]
          have hy0 : y ≠ 0 := fun h => h2 (by rw [hp2e]; simp [h])
          have : stripWhite (y :: t2) ≠ [] := by
            simp [stripWhite, List.filter_cons, hy]
          simp only [List.headD_nil, List.headD_cons, ne_eq, Ne.symm hy0, not_false_eq_true,
            if_true, Bool.false_eq_true, false_iff, not_and]
          intro h
          exact absurd h.symm this
      · rw [hq1]
        have hx0 : x ≠ 0 := fun h => h1 (by rw [hp1e]; simp [h])
        have hw1 : endsInWhite p1 = endsInWhite t1 := by
          rw [hp1e]
          exact endsInWhite_append_cons pre1 t1 x hx
        have ht1 : (0 : Nat) ∉ t1 := fun h => h1 (by rw [hp1e]; simp [h])
        have hl1 : t1.length ≤ fuel := by
          have : p1.length = pre1.length + (t1.length + 1) := by rw [hp1e]; simp
          omega
        rcases dropWhile_isspace_cases p2 with ⟨hq2, _⟩ | ⟨pre2, y, t2, hp2e, hq2, hy⟩
        · rw [hq2]
          have : stripWhite (x :: t1) ≠ [] := by
            simp [stripWhite, List.filter_cons, hx]
          simp only [List.headD_nil, List.headD_cons, ne_eq, hx0, not_false_eq_true,
            if_true, Bool.false_eq_true, false_iff, not_and]
          intro h
          exact absurd h this
        · rw [hq2]
          have hw2 : endsInWhite p2 = endsInWhite t2 := by
            rw [hp2e]
            exact endsInWhite_append_cons pre2 t2 y hy
          have ht2 : (0 : Nat) ∉ t2 := fun h => h2 (by rw [hp2e]; simp [h])
          have hs1 : stripWhite (x :: t1) = x :: stripWhite t1 := by
            simp [stripWhite, List.filter_cons, hx]
          have hs2 : stripWhite (y :: t2) = y :: stripWhite t2 := by
            simp [stripWhite, List.filter_cons, hy]
          rw [hs1, hs2, hw1, hw2]
          simp only [List.headD_cons, List.tail_cons]
          by_cases hxy : x = y
          · subst hxy
            simp only [ne_eq, not_true_eq_false, if_false, hx0, List.cons.injEq, true_and]
            exact ih t1 t2 ht1 ht2 hl1
          · simp only [ne_eq, hxy, not_false_eq_true, if_true, Bool.false_eq_true, false_iff,
              List.cons.injEq, false_and, not_false_eq_true]

theorem c_str_of_not_mem (s : Bytes) (h : (0 : Nat) ∉ s) : c_str s = s := by
  unfold c_str
  rw [List.takeWhile_eq_self_iff]
  intro c hc
  have : c ≠ 0 := fun h0 => h (h0 ▸ hc)
  simpa using this

theorem equalIgnoreWhite_iff (a b : Bytes) (ha : (0 : Nat) ∉ a) (hb : (0 : Nat) ∉ b) :
    equalIgnoreWhite a b = true ↔
      stripWhite a = stripWhite b ∧ (endsInWhite a = true ∨ endsInWhite b = false) := by
  unfold equalIgnoreWhite
  rw [c_str_of_not_mem a ha, c_str_of_not_mem b hb]
  exact equalIgnoreWhiteLoop_iff a.length a b ha hb (Nat.le_refl _)

set_option maxRecDepth 100000 in
/-- C23 as stated fails: `equalIgnoreWhite` reports `a b` and `ab` equal,
which differ after their runs of whitespace are collapsed; and it reports `a`
and `a `, in this order, different, and equal the other way round. -/
theorem whitespace_comparison_counterexample :
    equalIgnoreWhite (lit "a b") (lit "ab") = true
      ∧ collapseWhite (lit "a b") ≠ collapseWhite (lit "ab")
      ∧ equalIgnoreWhite (lit "a") (lit "a ") = false
      ∧ equalIgnoreWhite (lit "a ") (lit "a") = true := by
  decide

/-- C23, amended: for strings `a` and `b` without NUL, of which `b` ends in a
whitespace character only if `a` does, `equalIgnoreWhite a b` is true exactly
when `a` and `b` are identical after all whitespace characters (space, tab,
LF, vertical tab, form feed, CR) are removed. -/
theorem whitespace_comparison (a b : Bytes) (ha : (0 : Nat) ∉ a) (hb : (0 : Nat) ∉ b)
    (hend : endsInWhite b = true → endsInWhite a = true) :
    equalIgnoreWhite a b = true ↔ stripWhite a = stripWhite b := by
  rw [equalIgnoreWhite_iff a b ha hb]
  constructor
  · exact fun h => h.1
  · intro h
    refine ⟨h, ?_⟩
    cases hw : endsInWhite b with
    | false => exact Or.inr rfl
    | true => exact Or.inl (hend hw)

set_option maxRecDepth 100000 in
/-- Witness of C23: two texts that differ in their line breaks and blanks. -/
theorem whitespace_comparison_witness :
    equalIgnoreWhite (lit "Your\n  Drive") (lit "Your Drive") = true
      ↔ stripWhite (lit "Your\n  Drive") = stripWhite (lit "Your Drive") :=
  whitespace_comparison (lit "Your\n  Drive") (lit "Your Drive") (by decide) (by decide)
    (by decide)

/-! ## Keys of the updates -/

theorem StdMap.mem_keys_insert {V : Type} (m : StdMap V) (key other : Bytes) (value : V)
    (h : other ∈ (m.insert key value).keys) : other = key ∨ other ∈ m.keys := by
  induction m with
  | nil =>
    simp only [StdMap.insert, StdMap.keys, List.map_cons, List.map_nil, List.mem_singleton] at h
    exact Or.inl h
  | cons e rest ih =>
    obtain ⟨k, v⟩ := e
    simp only [StdMap.insert] at h
    split at h
    · rename_i hk
      simp only [StdMap.keys, List.map_cons, List.mem_cons] at h ⊢
      rcases h with h | h
      · exact Or.inl h
      · exact Or.inr (Or.inr h)
    · split at h
      · simp only [StdMap.keys, List.map_cons, List.mem_cons] at h ⊢
        exact h
      · simp only [StdMap.keys, List.map_cons, List.mem_cons] at h ⊢
        rcases h with h | h
        · exact Or.inr (Or.inl h)
        · rcases ih h with h1 | h1
          · exact Or.inl h1
          · exact Or.inr (Or.inr h1)

theorem StdMap.mem_insert {V : Type} (m : StdMap V) (key : Bytes) (value : V) (e : Bytes × V)
    (h : e ∈ m.insert key value) : e = (key, value) ∨ e ∈ m := by
  induction m with
  | nil =>
    simp only [StdMap.insert, List.mem_singleton] at h
    exact Or.inl h
  | cons e1 rest ih =>
    obtain ⟨k, v⟩ := e1
    simp only [StdMap.insert] at h
    split at h
    · rcases List.mem_cons.mp h with h | h
      · exact Or.inl h
      · exact Or.inr (List.mem_cons_of_mem _ h)
    · split at h
      · rcases List.mem_cons.mp h with h | h
        · exact Or.inl h
        · exact Or.inr h
      · rcases List.mem_cons.mp h with h | h
        · exact Or.inr (by rw [h]; exact List.mem_cons_self _ _)
        · rcases ih h with h1 | h1
          · exact Or.inl h1
          · exact Or.inr (List.mem_cons_of_mem _ h1)

theorem StdMap.mem_of_find {V : Type} (m : StdMap V) (key : Bytes) (v : V)
    (h : m.find key = some v) : (key, v) ∈ m := by
  induction m with
  | nil => simp [StdMap.find] at h
  | cons e rest ih =>
    obtain ⟨k, u⟩ := e
    simp only [StdMap.find] at h
    split at h
    · rename_i hk
      simp only [Option.some.injEq] at h
      rw [hk, h]
      exact List.mem_cons_self _ _
    · exact List.mem_cons_of_mem _ (ih h)

theorem updateLoop_updatesInData (key statement : Bytes) (l : List (Bytes × FileData))
    (u : Bool) (h : ∀ file ∈ l, UpdatesInData file.2) :
    ∀ file ∈ (updateLoop key statement l u).1, UpdatesInData file.2 := by
  induction l generalizing u with
  | nil =>
    intro file hf
    simp [updateLoop] at hf
  | cons f rest ih =>
    obtain ⟨p, d⟩ := f
    have hd : UpdatesInData d := h (p, d) (List.mem_cons_self _ _)
    have hrest : ∀ file ∈ rest, UpdatesInData file.2 :=
      fun file hm => h file (List.mem_cons_of_mem _ hm)
    intro file hf
    simp only [updateLoop] at hf
    cases hfind : d.data.find key with
    | none =>
      simp only [hfind, List.mem_cons] at hf
      rcases hf with hf | hf
      · rw [hf]
        exact hd
      · exact ih _ hrest file hf
    | some prev =>
      simp only [hfind] at hf
      cases u with
      | true =>
        simp only [if_true, List.mem_cons] at hf
        rcases hf with hf | hf
        · rw [hf]
          exact hd
        · exact ih _ hrest file hf
      | false =>
        simp only [Bool.false_eq_true, if_false, List.mem_cons] at hf
        rcases hf with hf | hf
        · rw [hf]
          intro k hk
          simp only at hk ⊢
          have hk' : k = key ∨ k ∈ d.updates.keys := by
            split at hk
            · exact StdMap.mem_keys_insert _ _ _ _ hk
            · exact Or.inr hk
          rcases hk' with hk' | hk'
          · rw [hk']
            exact StdMap.mem_keys_insert_self _ _ _
          · exact StdMap.mem_keys_insert_of_mem _ _ _ _ (hd k hk')
        · exact ih _ hrest file hf

theorem parseLoop_slave_updatesInData (buf filePath : Bytes) (fuel : Nat)
    (st stF : ParseState) (b : Bool) (hinv : ∀ file ∈ st.filesData, UpdatesInData file.2)
    (h : parseLoop buf filePath false fuel st = some (stF, b)) :
    ∀ file ∈ stF.filesData, UpdatesInData file.2 := by
  induction fuel generalizing st with
  | zero => simp [parseLoop] at h
  | succ f ih =>
    unfold parseLoop at h
    cases hs : parseStep buf filePath false st with
    | mk st1 ret =>
      rw [hs] at h
      have h1 : ∀ file ∈ st1.filesData, UpdatesInData file.2 := by
        rcases (parseStep_slave buf filePath st st1 ret hs).2 with h1 | ⟨key, stmt, h1⟩
        · rw [h1]
          exact hinv
        · rw [h1]
          exact updateLoop_updatesInData key stmt st.filesData false hinv
      cases ret with
      | some c =>
        simp only [Option.some.injEq, Prod.mk.injEq] at h
        obtain ⟨h2, _⟩ := h
        subst h2
        exact h1
      | none => exact ih st1 h1 h

theorem MasterFrame.refl (d : FileData) : MasterFrame d d := ⟨rfl, rfl, fun _ h => h⟩

theorem MasterFrame.trans {a b c : FileData} (h1 : MasterFrame a b) (h2 : MasterFrame b c) :
    MasterFrame a c :=
  ⟨h2.1.trans h1.1, h2.2.1.trans h1.2.1, fun k hk => h2.2.2 k (h1.2.2 k hk)⟩

theorem pushMeta_masterFrame (filePath : Bytes) (st : ParseState) :
    MasterFrame st.fileData (pushMeta filePath st).fileData :=
  ⟨rfl, rfl, fun _ h => h⟩

theorem pushData_masterFrame (filePath : Bytes) (st : ParseState) :
    MasterFrame st.fileData (pushData filePath st).fileData :=
  ⟨rfl, rfl, fun _ h => StdMap.mem_keys_insert_of_mem _ _ _ _ h⟩

theorem gapRow_masterFrame (buf filePath : Bytes) (master : Bool) (st : ParseState) :
    MasterFrame st.fileData (gapRow buf filePath master st).fileData := by
  unfold gapRow
  split
  · cases master
    · exact MasterFrame.refl _
    · exact pushMeta_masterFrame _ _
  · exact MasterFrame.refl _

theorem record_masterFrame (buf filePath : Bytes) (okay isMeta : Bool) (st st' : ParseState)
    (h : record buf filePath true okay isMeta st = some st') :
    MasterFrame st.fileData st'.fileData := by
  unfold record at h
  cases okay with
  | true =>
    cases isMeta <;> simp only [if_true] at h <;> simp at h <;> subst h
    · exact pushData_masterFrame _ _
    · exact pushMeta_masterFrame _ _
  | false =>
    simp only [Bool.false_eq_true, if_false, if_true] at h
    split at h
    · simp only [Option.some.injEq] at h
      subst h
      exact pushMeta_masterFrame _ _
    · exact absurd h (by simp)

theorem parseStep_masterFrame (buf filePath : Bytes) (st st' : ParseState) (ret : Option Bool)
    (h : parseStep buf filePath true st = (st', ret)) :
    MasterFrame st.fileData st'.fileData := by
  cases hg : getNext begPat buf st.pos with
  | mk ptr pos =>
    cases ptr with
    | none =>
      unfold parseStep at h
      rw [hg] at h
      simp only [Prod.mk.injEq] at h
      rw [← h.1]
      exact MasterFrame.refl _
    | some nextPtr =>
      have hgap := gapRow_masterFrame buf filePath true { st with pos := pos }
      cases ret with
      | some b =>
        rw [(parseStep_fatal buf filePath true st st' b nextPtr pos h hg).2.1]
        exact hgap
      | none =>
        unfold parseStep at h
        rw [hg] at h
        simp only at h
        have hc := (classify_classified buf filePath nextPtr
          (gapRow buf filePath true { st with pos := pos })).1
        generalize classify buf filePath nextPtr
          (gapRow buf filePath true { st with pos := pos }) = c at h hc
        cases hr : record buf filePath true c.1 c.2.1 c.2.2 with
        | none => simp [hr] at h
        | some st2 =>
          simp only [hr, Prod.mk.injEq, and_true] at h
          have hrec := record_masterFrame buf filePath c.1 c.2.1 c.2.2 st2 hr
          rw [hc] at hrec
          rw [← h]
          exact MasterFrame.trans hgap hrec

theorem parseLoop_masterFrame (buf filePath : Bytes) (fuel : Nat) (st stF : ParseState)
    (b : Bool) (h : parseLoop buf filePath true fuel st = some (stF, b)) :
    MasterFrame st.fileData stF.fileData := by
  induction fuel generalizing st with
  | zero => simp [parseLoop] at h
  | succ f ih =>
    unfold parseLoop at h
    cases hs : parseStep buf filePath true st with
    | mk st1 ret =>
      rw [hs] at h
      have h1 := parseStep_masterFrame buf filePath st st1 ret hs
      cases ret with
      | some c =>
        simp only [Option.some.injEq, Prod.mk.injEq] at h
        rw [← h.1]
        exact h1
      | none => exact MasterFrame.trans h1 (ih st1 h)

theorem parse_updatesInData (buf : Bytes) (filesData : FilesData) (filePath : Bytes)
    (master : Bool) (r : ParseResult) (hinv : ∀ file ∈ filesData, UpdatesInData file.2)
    (h : parse buf filesData filePath master = some r) :
    ∀ file ∈ r.filesData, UpdatesInData file.2 := by
  unfold parse at h
  cases hres : parseRun buf filesData filePath master with
  | none => simp [hres] at h
  | some res =>
    obtain ⟨stF, b⟩ := res
    simp only [hres, Option.map_some', Option.some.injEq] at h
    subst h
    cases master with
    | false =>
      simp only [Bool.false_eq_true, if_false]
      exact parseLoop_slave_updatesInData buf filePath _ _ stF b
        (by simpa [parseInit] using hinv) hres
    | true =>
      simp only [if_true]
      have hfs : stF.filesData = (parseInit filesData filePath true).filesData :=
        parseLoop_master_filesData buf filePath _ _ stF b hres
      have hframe : MasterFrame (parseInit filesData filePath true).fileData stF.fileData :=
        parseLoop_masterFrame buf filePath _ _ stF b hres
      have h0 : UpdatesInData (parseInit filesData filePath true).fileData := by
        simp only [parseInit, if_true]
        cases hf : filesData.find filePath with
        | none =>
          intro k hk
          simp [FileData.empty, StdMap.keys] at hk
        | some d => exact hinv (filePath, d) (StdMap.mem_of_find _ _ _ hf)
      have hF : UpdatesInData stF.fileData := by
        intro k hk
        rw [hframe.1] at hk
        exact hframe.2.2 k (h0 k hk)
      intro file hfile
      rcases StdMap.mem_insert _ _ _ _ hfile with he | he
      · rw [he]
        exact hF
      · rw [hfs] at he
        simp only [parseInit, if_true] at he
        rcases StdMap.mem_insert _ _ _ _ he with he1 | he1
        · rw [he1]
          simpa [parseInit] using h0
        · exact hinv file he1

theorem clearData_updatesInData (filesData : FilesData)
    (hinv : ∀ file ∈ filesData, UpdatesInData file.2) :
    ∀ file ∈ clearData filesData, UpdatesInData file.2 := by
  intro file hfile
  simp only [clearData, List.mem_map] at hfile
  obtain ⟨f0, hf0, rfl⟩ := hfile
  intro k hk
  have := hinv f0 hf0 k hk
  simpa [StdMap.keys] using this

theorem applyOp_updatesInData (filesData : FilesData) (op : Op)
    (hinv : ∀ file ∈ filesData, UpdatesInData file.2) :
    ∀ file ∈ applyOp filesData op, UpdatesInData file.2 := by
  cases op with
  | clear => exact clearData_updatesInData filesData hinv
  | parse buf filePath master =>
    simp only [applyOp]
    cases h : parse buf filesData filePath master with
    | none => exact hinv
    | some r => exact parse_updatesInData buf filesData filePath master r hinv h

theorem foldl_applyOp_updatesInData (ops : List Op) (filesData : FilesData)
    (hinv : ∀ file ∈ filesData, UpdatesInData file.2) :
    ∀ file ∈ ops.foldl applyOp filesData, UpdatesInData file.2 := by
  induction ops generalizing filesData with
  | nil => exact hinv
  | cons op rest ih => exact ih _ (applyOp_updatesInData filesData op hinv)

set_option synthInstance.maxSize 4096 in
set_option maxRecDepth 100000 in
/-- C22 as stated fails: after the master parse of a file with the entry `k`
and the slave parse of a file with the entry `word3`, the extra map of the
document holds the key `word3`, which is a key of no data map. -/
theorem update_keys_counterexample :
    (runOps [Op.parse (lit "<string name=\"k\">v</string>") (lit "a.xml") true,
        Op.parse slaveWord3 (lit "b.xml") false]).map
      (fun file => (file.1, file.2.data.keys, file.2.updates.keys, file.2.extra.keys))
      = [(lit "a.xml", [lit "k"], [], [lit "word3"])] := by
  decide

/-- C22, amended: in every state reached from an empty Document Set by calls
of `parse` in master and in slave mode and of `clearData`, in any order, every
key of the updates map of a document is a key of the data map of that
document. -/
theorem update_keys_in_data (ops : List Op) (file : Bytes × FileData)
    (hfile : file ∈ runOps ops) (key : Bytes) (hkey : key ∈ file.2.updates.keys) :
    key ∈ file.2.data.keys :=
  foldl_applyOp_updatesInData ops [] (fun _ hf => absurd hf (List.not_mem_nil _)) file hfile
    key hkey

set_option synthInstance.maxSize 4096 in
set_option maxRecDepth 100000 in
/-- Witness of C22: a master parse, the separator and a slave parse that
changes the entry `k`. -/
theorem update_keys_in_data_witness :
    mergedFile ∈ runOps mergedOps ∧ lit "k" ∈ mergedFile.2.updates.keys
      ∧ lit "k" ∈ mergedFile.2.data.keys :=
  ⟨by decide, by decide,
    update_keys_in_data mergedOps mergedFile (by decide) (lit "k") (by decide)⟩

/-! ## The separator and the file filters -/

theorem InspectFile_separator (fs : FileSystem) (filters : Filters) (run : Run) :
    (InspectFile fs filters run separator).1
      = if !FileMatches separator filters.excludeFile false
            && FileMatches separator filters.includeFile true
        then { run with master := false, filesData := clearData run.filesData }
        else run := by
  have hname : getName separator = separator := by decide
  have hdirs : getDirs separator = [] := by decide
  have hne : (separator.isEmpty) = false := by decide
  unfold InspectFile
  simp only [hname, hdirs, hne, Bool.not_false, Bool.true_and]
  have hex : FileMatches [] filters.excludePath false = false := by
    simp [FileMatches]
  have hin : FileMatches [] filters.includePath true = true := by
    simp [FileMatches]
  simp only [hex, hin, Bool.not_false, Bool.and_true]
  split
  · simp [ParseFile]
  · rfl

set_option synthInstance.maxSize 4096 in
set_option maxRecDepth 100000 in
/-- C26, evaluated where it fails: with the include pattern of
`-fileInclude=*.xml` the separator `,` does not pass the name filter of
`InspectFile` and never reaches `ParseFile`; `master` stays set and `s.xml`
is parsed as a second master document.  Without a filter the separator clears
`master` and `s.xml` updates the entry `k` of `m.xml`. -/
theorem separator_filtered :
    modeAndDocs (inspectAll twoFilesDisk
        { includeFile := [xmlNamePat], excludeFile := [], includePath := [], excludePath := [] }
        1 [lit "m.xml", lit ",", lit "s.xml"])
      = (true, [(lit "m.xml", [lit "k"], []), (lit "s.xml", [lit "k"], [])])
    ∧ modeAndDocs (inspectAll twoFilesDisk
        { includeFile := [], excludeFile := [], includePath := [], excludePath := [] }
        1 [lit "m.xml", lit ",", lit "s.xml"])
      = (false, [(lit "m.xml", [lit "k"], [lit "k"])]) := by
  decide

/-! ## Path split -/

theorem rfind_split (s : Bytes) (c i : Nat) (h : rfind s c = some i) :
    s.take i ++ c :: s.drop (i + 1) = s := by
  induction s generalizing i with
  | nil => simp [rfind] at h
  | cons x rest ih =>
    simp only [rfind] at h
    cases hr : rfind rest c with
    | some j =>
      simp only [hr, Option.some.injEq] at h
      subst h
      simp only [List.take_succ_cons, List.drop_succ_cons, List.cons_append, List.cons.injEq,
        true_and]
      exact ih j hr
    | none =>
      simp only [hr] at h
      split at h
      · rename_i hx
        simp only [Option.some.injEq] at h
        subst h
        simp [hx]
      · exact absurd h (by simp)

theorem rfind_none_iff (s : Bytes) (c : Nat) : rfind s c = none ↔ c ∉ s := by
  induction s with
  | nil => simp [rfind]
  | cons x rest ih =>
    simp only [rfind]
    cases hr : rfind rest c with
    | some j =>
      have : c ∈ rest := by
        by_contra hn
        rw [ih.mpr hn] at hr
        exact absurd hr (by simp)
      simp [this]
    | none =>
      have hn : c ∉ rest := ih.mp hr
      by_cases hx : x = c
      · simp [hx]
      · simp [hx, hn, Ne.symm hx]

/-- C40: for a path with at least one `/`, `getDirs`, `/` and `getName` put
together give the path, so `getParts` with the template `%p/%n` returns the
path unchanged; for a path without `/`, `getName` is the whole path and
`getDirs` is empty. -/
theorem path_split_round_trip (inPath : Bytes) :
    (SLASH_CHAR ∈ inPath →
        getDirs inPath ++ [SLASH_CHAR] ++ getName inPath = inPath
          ∧ getParts (lit "%p/%n") inPath = some inPath)
      ∧ (SLASH_CHAR ∉ inPath → getName inPath = inPath ∧ getDirs inPath = []) := by
  constructor
  · intro hmem
    have hsplit : getDirs inPath ++ [SLASH_CHAR] ++ getName inPath = inPath := by
      unfold getDirs getName
      cases hr : rfind inPath SLASH_CHAR with
      | none => exact absurd hmem ((rfind_none_iff _ _).mp hr)
      | some i =>
        simp only [List.append_assoc, List.singleton_append]
        exact rfind_split inPath SLASH_CHAR i hr
    refine ⟨hsplit, ?_⟩
    have ht : lit "%p/%n" = [37, 112, 47, 37, 110] := by decide
    rw [ht]
    simp only [getParts]
    simp only [Nat.reduceEqDiff, if_false, if_true, ne_eq, not_true_eq_false,
      not_false_eq_true, Option.map_some', List.append_nil, Option.some.injEq]
    have hs : (47 : Nat) = SLASH_CHAR := rfl
    rw [hs]
    simpa using hsplit
  · intro hmem
    have hr := (rfind_none_iff inPath SLASH_CHAR).mpr hmem
    unfold getName getDirs
    rw [hr]
    exact ⟨rfl, rfl⟩

set_option maxRecDepth 100000 in
/-- Witness of C40: the path `res/values/strings.xml`. -/
theorem path_split_round_trip_witness :
    getDirs (lit "res/values/strings.xml") ++ [SLASH_CHAR] ++ getName (lit "res/values/strings.xml")
        = lit "res/values/strings.xml"
      ∧ getParts (lit "%p/%n") (lit "res/values/strings.xml")
        = some (lit "res/values/strings.xml") :=
  (path_split_round_trip (lit "res/values/strings.xml")).1 (by decide)

/-! ## Termination -/

/-- C39: in every pass of the loop of `parse` that does not return, the
cursor strictly increases and stays at most the size of the buffer; so the
loop ends after at most as many passes as the buffer has bytes, plus the one
that returns, and `parse` returns on every buffer. -/
theorem parse_terminates (buf filePath : Bytes) (master : Bool) :
    (∀ st st1, parseStep buf filePath master st = (st1, none) →
        st.pos < st1.pos ∧ st1.pos ≤ buf.length)
      ∧ (∀ st fuel, buf.length + 1 ≤ st.pos + fuel → 1 ≤ fuel →
          (parseLoop buf filePath master fuel st).isSome = true)
      ∧ ∀ filesData, (parse buf filesData filePath master).isSome = true := by
  refine ⟨?_, ?_, ?_⟩
  · intro st st1 h
    have := parseStep_progress buf filePath master st st1 h
    exact ⟨this.1, this.2.1⟩
  · intro st fuel h1 h2
    exact parseLoop_total buf filePath master fuel st h1 h2
  · intro filesData
    have htotal : (parseRun buf filesData filePath master).isSome = true :=
      parseLoop_total buf filePath master (buf.length + 1) _ (by simp [parseInit]) (by omega)
    simp [parse, htotal]

set_option maxRecDepth 100000 in
/-- Witness of C39: the first pass over `<a></a>` moves the cursor from 0 to 3. -/
theorem parse_terminates_witness :
    (parseInit [] (lit "a.xml") true).pos < afterOpen.pos
      ∧ afterOpen.pos ≤ (lit "<a></a>").length :=
  (parse_terminates (lit "<a></a>") (lit "a.xml") true).1
    (parseInit [] (lit "a.xml") true) afterOpen (by decide)

/-! ## Symmetry of the comparison -/

set_option synthInstance.maxSize 4096 in
set_option maxRecDepth 100000 in
/-- C37, evaluated where it fails: the statements of an entry with and without
the line feed after `</string>` are reported different in one order and equal
in the other.  A slave file that only adds the line feed records an update; a
slave file that only drops it records none. -/
theorem equalIgnoreWhite_asymmetric :
    equalIgnoreWhite entryAtEnd entryThenLf = false
      ∧ equalIgnoreWhite entryThenLf entryAtEnd = true
      ∧ (runOps [Op.parse entryAtEnd (lit "m.xml") true,
            Op.parse entryThenLf (lit "s.xml") false]).map (fun file => file.2.updates.keys)
          = [[lit "k"]]
      ∧ (runOps [Op.parse entryThenLf (lit "m.xml") true,
            Op.parse entryAtEnd (lit "s.xml") false]).map (fun file => file.2.updates.keys)
          = [[]] := by
  decide

/-! ## Lookups of the writer -/

set_option synthInstance.maxSize 4096 in
set_option maxRecDepth 100000 in
/-- C34, evaluated where it fails: the master parse of
`<string name="_#5">v</string>` returns true; the only key of rows, `_#5`,
starts with `_#` and is a key of data, not of meta, so the lookup of the
writer for that row finds nothing. -/
theorem writer_lookup_failure :
    (parse strayKeyXml [] (lit "a.xml") true).map
        (fun r => (r.ok, r.filesData.map fun file =>
          (file.2.rows, file.2.meta.keys, file.2.data.keys,
            file.2.rows.map fun key => (isMetaKey key, (rowText file.2 key).isSome))))
      = some (true, [([lit "_#5"], [], [lit "_#5"], [(true, false)])]) := by
  decide

/-! ## `clearData` -/

theorem updateLoop_other_key (key other statement : Bytes) (hne : other ≠ key)
    (l : List (Bytes × FileData)) (u : Bool)
    (h : ∀ file ∈ l, ∀ old, file.2.data.find key = some old → old = []) :
    ∀ file ∈ (updateLoop other statement l u).1,
      ∀ old, file.2.data.find key = some old → old = [] := by
  induction l generalizing u with
  | nil =>
    intro file hf
    simp [updateLoop] at hf
  | cons f rest ih =>
    obtain ⟨p, d⟩ := f
    have hd := h (p, d) (List.mem_cons_self _ _)
    have hrest : ∀ file ∈ rest, ∀ old, file.2.data.find key = some old → old = [] :=
      fun file hm => h file (List.mem_cons_of_mem _ hm)
    intro file hf
    simp only [updateLoop] at hf
    cases hfind : d.data.find other with
    | none =>
      simp only [hfind, List.mem_cons] at hf
      rcases hf with hf | hf
      · rw [hf]
        exact hd
      · exact ih _ hrest file hf
    | some prev =>
      simp only [hfind] at hf
      cases u with
      | true =>
        simp only [if_true, List.mem_cons] at hf
        rcases hf with hf | hf
        · rw [hf]
          exact hd
        · exact ih _ hrest file hf
      | false =>
        simp only [Bool.false_eq_true, if_false, List.mem_cons] at hf
        rcases hf with hf | hf
        · rw [hf]
          intro old hold
          simp only at hold
          rw [StdMap.find_insert_ne _ _ _ _ (Ne.symm hne)] at hold
          exact hd old hold
        · exact ih _ hrest file hf

theorem clearData_values (filesData : FilesData) :
    ∀ file ∈ clearData filesData, ∀ entry ∈ file.2.data, entry.2 = [] := by
  intro file hfile entry hentry
  simp only [clearData, List.mem_map] at hfile
  obtain ⟨f0, _, rfl⟩ := hfile
  simp only [List.mem_map] at hentry
  obtain ⟨e0, _, rfl⟩ := hentry
  rfl

/-- C35: `clearData` sets every value of every data map to the empty string
and keeps the documents, the keys of their data maps and their rows, meta,
updates and extra.  Hence the first `update` of a key after `clearData`
(updates of other keys may come in between) records, in the first document
that holds the key, `updates[key]` as the empty string. -/
theorem clearData_effect (filesData : FilesData) :
    (clearData filesData).map
        (fun file => (file.1, file.2.rows, file.2.meta, file.2.updates, file.2.extra,
          file.2.data.keys))
      = filesData.map
        (fun file => (file.1, file.2.rows, file.2.meta, file.2.updates, file.2.extra,
          file.2.data.keys))
    ∧ (∀ file ∈ clearData filesData, ∀ entry ∈ file.2.data, entry.2 = [])
    ∧ ∀ (others : List (Bytes × Bytes)) (key statement : Bytes),
        (∀ u ∈ others, u.1 ≠ key) →
        ∀ (pre post : List (Bytes × FileData)) (path : Bytes) (fd : FileData),
          others.foldl (fun fs u => (update fs u.1 u.2).1) (clearData filesData)
            = pre ++ (path, fd) :: post →
          (∀ file ∈ pre, file.2.data.find key = none) →
          (fd.data.find key).isSome = true →
          ∃ fd1, (update (pre ++ (path, fd) :: post) key statement).1[pre.length]?
              = some (path, fd1)
            ∧ fd1.updates.find key = some []
            ∧ fd1.data.find key = some statement := by
  refine ⟨?_, clearData_values filesData, ?_⟩
  · simp [clearData, StdMap.keys, Function.comp_def]
  · intro others key statement hothers pre post path fd hsplit hpre hk
    have hinv : ∀ (us : List (Bytes × Bytes)) (fs : FilesData), (∀ u ∈ us, u.1 ≠ key) →
        (∀ file ∈ fs, ∀ old, file.2.data.find key = some old → old = []) →
        ∀ file ∈ us.foldl (fun fs u => (update fs u.1 u.2).1) fs,
          ∀ old, file.2.data.find key = some old → old = [] := by
      intro us
      induction us with
      | nil => intro fs _ h; exact h
      | cons u rest ih =>
        intro fs hus h
        exact ih _ (fun v hv => hus v (List.mem_cons_of_mem _ hv))
          (updateLoop_other_key key u.1 u.2 (hus u (List.mem_cons_self _ _)) fs false h)
    have h0 : ∀ file ∈ clearData filesData, ∀ old, file.2.data.find key = some old → old = [] := by
      intro file hfile old hold
      exact clearData_values filesData file hfile (key, old) (StdMap.mem_of_find _ _ _ hold)
    have hall := hinv others (clearData filesData) hothers h0
    rw [hsplit] at hall
    obtain ⟨old, hold⟩ := Option.isSome_iff_exists.mp hk
    have hempty : old = [] := hall (path, fd) (by simp) old hold
    subst hempty
    have hfirst := updateLoop_first key statement pre post path fd [] hpre hold
    refine ⟨_, hfirst, ?_, ?_⟩
    · simp only [true_or, if_true]
      exact StdMap.find_insert_self _ _ _
    · exact StdMap.find_insert_self _ _ _

set_option synthInstance.maxSize 4096 in
set_option maxRecDepth 100000 in
/-- Witness of C35: one document with the entry `k`, cleared and then updated. -/
theorem clearData_effect_witness :
    ∃ fd1, (update ([] ++ (lit "a.xml", clearedDoc) :: []) (lit "k") entryThenLf).1[0]?
        = some (lit "a.xml", fd1)
      ∧ fd1.updates.find (lit "k") = some []
      ∧ fd1.data.find (lit "k") = some entryThenLf :=
  (clearData_effect oneEntryDocs).2.2 [] (lit "k") entryThenLf (by decide) [] []
    (lit "a.xml") clearedDoc (by decide) (by decide) (by decide)

/-! ## Updates that must be recorded -/

set_option synthInstance.maxSize 4096 in
set_option maxRecDepth 100000 in
/-- C36 as stated fails: the statements `entryNulB` and `entryNulC` differ
behind a NUL byte, also after their whitespace is removed, but
`equalIgnoreWhite` compares C strings and reports them equal; the slave parse
replaces the text of `k` and records no update. -/
theorem no_lost_update_counterexample :
    stripWhite entryNulB ≠ stripWhite entryNulC
      ∧ equalIgnoreWhite entryNulB entryNulC = true
      ∧ (runOps [Op.parse entryNulB (lit "m.xml") true,
            Op.parse entryNulC (lit "s.xml") false]).map
          (fun file => (file.2.data, file.2.updates))
        = [([(lit "k", entryNulC)], [])] := by
  decide

/-- C36, amended: for every `update(key, newText)` whose first matching
document holds an old value that, both being without NUL, differs from
`newText` after all whitespace characters are removed from both, the
`updates[key]` of that document is set to the old value; and
`equalIgnoreWhite` returning true implies that the stripped strings are
equal. -/
theorem no_lost_update (pre post : List (Bytes × FileData)) (path : Bytes) (fd : FileData)
    (key newText old : Bytes)
    (hpre : ∀ file ∈ pre, file.2.data.find key = none)
    (hk : fd.data.find key = some old)
    (hold : (0 : Nat) ∉ old) (hnew : (0 : Nat) ∉ newText) :
    (equalIgnoreWhite old newText = true → stripWhite old = stripWhite newText)
      ∧ (stripWhite old ≠ stripWhite newText →
          ∃ fd1, (update (pre ++ (path, fd) :: post) key newText).1[pre.length]?
              = some (path, fd1)
            ∧ fd1.updates.find key = some old
            ∧ fd1.data.find key = some newText) := by
  have himp : equalIgnoreWhite old newText = true → stripWhite old = stripWhite newText :=
    fun h => ((equalIgnoreWhite_iff old newText hold hnew).mp h).1
  refine ⟨himp, ?_⟩
  intro hdiff
  have hfalse : equalIgnoreWhite old newText = false := by
    cases h : equalIgnoreWhite old newText with
    | false => rfl
    | true => exact absurd (himp h) hdiff
  have hfirst := updateLoop_first key newText pre post path fd old hpre hk
  refine ⟨_, hfirst, ?_, ?_⟩
  · simp only [hfalse, or_true, if_true]
    exact StdMap.find_insert_self _ _ _
  · exact StdMap.find_insert_self _ _ _

set_option synthInstance.maxSize 4096 in
set_option maxRecDepth 100000 in
/-- Witness of C36: the entry `k` gets another value. -/
theorem no_lost_update_witness :
    ∃ fd1, (update ([] ++ (lit "a.xml", oneEntryDoc) :: []) (lit "k") entryOther).1[0]?
        = some (lit "a.xml", fd1)
      ∧ fd1.updates.find (lit "k") = some entryAtEnd
      ∧ fd1.data.find (lit "k") = some entryOther :=
  (no_lost_update [] [] (lit "a.xml") oneEntryDoc (lit "k") entryOther entryAtEnd
    (by decide) (by decide) (by decide) (by decide)).2 (by decide)

/-! ## Keys of updates and extra -/

theorem StdMap.not_mem_keys_of_find {V : Type} (m : StdMap V) (key : Bytes)
    (h : m.find key = none) : key ∉ m.keys := by
  induction m with
  | nil => simp [StdMap.keys]
  | cons e rest ih =>
    obtain ⟨k, u⟩ := e
    simp only [StdMap.find] at h
    split at h
    · exact absurd h (by simp)
    · rename_i hk
      simp only [StdMap.keys, List.map_cons, List.mem_cons, not_or]
      exact ⟨hk, ih h⟩

theorem updateLoop_extraOutside (key statement : Bytes) (l : List (Bytes × FileData))
    (u : Bool) (h : ∀ file ∈ l, ExtraOutside file.2) :
    ∀ file ∈ (updateLoop key statement l u).1, ExtraOutside file.2 := by
  induction l generalizing u with
  | nil =>
    intro file hf
    simp [updateLoop] at hf
  | cons f rest ih =>
    obtain ⟨p, d⟩ := f
    have hd : ExtraOutside d := h (p, d) (List.mem_cons_self _ _)
    have hrest : ∀ file ∈ rest, ExtraOutside file.2 :=
      fun file hm => h file (List.mem_cons_of_mem _ hm)
    intro file hf
    simp only [updateLoop] at hf
    cases hfind : d.data.find key with
    | none =>
      simp only [hfind, List.mem_cons] at hf
      rcases hf with hf | hf
      · rw [hf]
        intro k hk
        simp only at hk ⊢
        rcases StdMap.mem_keys_insert _ _ _ _ hk with hk1 | hk1
        · rw [hk1]
          exact StdMap.not_mem_keys_of_find _ _ hfind
        · exact hd k hk1
      · exact ih _ hrest file hf
    | some prev =>
      simp only [hfind] at hf
      cases u with
      | true =>
        simp only [if_true, List.mem_cons] at hf
        rcases hf with hf | hf
        · rw [hf]
          exact hd
        · exact ih _ hrest file hf
      | false =>
        simp only [Bool.false_eq_true, if_false, List.mem_cons] at hf
        rcases hf with hf | hf
        · rw [hf]
          intro k hk hin
          simp only at hk hin
          rcases StdMap.mem_keys_insert _ _ _ _ hin with hk1 | hk1
          · rw [hk1] at hk
            exact hd key hk (StdMap.mem_keys_of_find _ _ _ hfind)
          · exact hd k hk hk1
        · exact ih _ hrest file hf

theorem parse_slave_preserves (P : FileData → Prop)
    (hupd : ∀ key statement (l : List (Bytes × FileData)) u, (∀ file ∈ l, P file.2) →
      ∀ file ∈ (updateLoop key statement l u).1, P file.2)
    (buf : Bytes) (filesData : FilesData) (filePath : Bytes) (r : ParseResult)
    (hinv : ∀ file ∈ filesData, P file.2)
    (h : parse buf filesData filePath false = some r) :
    ∀ file ∈ r.filesData, P file.2 := by
  unfold parse at h
  cases hres : parseRun buf filesData filePath false with
  | none => simp [hres] at h
  | some res =>
    obtain ⟨stF, b⟩ := res
    simp only [hres, Option.map_some', Option.some.injEq] at h
    subst h
    simp only [Bool.false_eq_true, if_false]
    have hloop : ∀ (fuel : Nat) (st : ParseState), (∀ file ∈ st.filesData, P file.2) →
        parseLoop buf filePath false fuel st = some (stF, b) →
        ∀ file ∈ stF.filesData, P file.2 := by
      intro fuel
      induction fuel with
      | zero => intro st _ h; simp [parseLoop] at h
      | succ f ih =>
        intro st hst h
        unfold parseLoop at h
        cases hs : parseStep buf filePath false st with
        | mk st1 ret =>
          rw [hs] at h
          have h1 : ∀ file ∈ st1.filesData, P file.2 := by
            rcases (parseStep_slave buf filePath st st1 ret hs).2 with h1 | ⟨key, stmt, h1⟩
            · rw [h1]
              exact hst
            · rw [h1]
              exact hupd key stmt st.filesData false hst
          cases ret with
          | some c =>
            simp only [Option.some.injEq, Prod.mk.injEq] at h
            rw [← h.1]
            exact h1
          | none => exact ih st1 h1 h
    exact hloop _ _ (by simpa [parseInit] using hinv) hres

theorem parse_master_preserves (P : FileData → Prop)
    (hframe : ∀ d d1, MasterFrame d d1 → P d → P d1) (hempty : P FileData.empty)
    (buf : Bytes) (filesData : FilesData) (filePath : Bytes) (r : ParseResult)
    (hinv : ∀ file ∈ filesData, P file.2)
    (h : parse buf filesData filePath true = some r) :
    ∀ file ∈ r.filesData, P file.2 := by
  unfold parse at h
  cases hres : parseRun buf filesData filePath true with
  | none => simp [hres] at h
  | some res =>
    obtain ⟨stF, b⟩ := res
    simp only [hres, Option.map_some', Option.some.injEq] at h
    subst h
    simp only [if_true]
    have hfs : stF.filesData = (parseInit filesData filePath true).filesData :=
      parseLoop_master_filesData buf filePath _ _ stF b hres
    have hfr : MasterFrame (parseInit filesData filePath true).fileData stF.fileData :=
      parseLoop_masterFrame buf filePath _ _ stF b hres
    have h0 : P (parseInit filesData filePath true).fileData := by
      simp only [parseInit, if_true]
      cases hf : filesData.find filePath with
      | none => exact hempty
      | some d => exact hinv (filePath, d) (StdMap.mem_of_find _ _ _ hf)
    intro file hfile
    rcases StdMap.mem_insert _ _ _ _ hfile with he | he
    · rw [he]
      exact hframe _ _ hfr h0
    · rw [hfs] at he
      simp only [parseInit, if_true] at he
      rcases StdMap.mem_insert _ _ _ _ he with he1 | he1
      · rw [he1]
        simpa [parseInit] using h0
      · exact hinv file he1

theorem clearData_extra (P : List Bytes → List Bytes → Prop) (filesData : FilesData)
    (hinv : ∀ file ∈ filesData, P file.2.extra.keys file.2.data.keys) :
    ∀ file ∈ clearData filesData, P file.2.extra.keys file.2.data.keys := by
  intro file hfile
  simp only [clearData, List.mem_map] at hfile
  obtain ⟨f0, hf0, rfl⟩ := hfile
  have := hinv f0 hf0
  simpa [StdMap.keys, Function.comp_def] using this

theorem noMaster_extraOutside (ops : List Op) (filesData : FilesData)
    (hops : noMaster ops = true) (hinv : ∀ file ∈ filesData, ExtraOutside file.2) :
    ∀ file ∈ ops.foldl applyOp filesData, ExtraOutside file.2 := by
  induction ops generalizing filesData with
  | nil => exact hinv
  | cons op rest ih =>
    simp only [noMaster, List.all_cons, Bool.and_eq_true] at hops
    have hrest : noMaster rest = true := hops.2
    refine ih _ hrest ?_
    cases op with
    | clear =>
      exact clearData_extra (fun e d => ∀ key ∈ e, key ∉ d) filesData hinv
    | parse buf filePath master =>
      cases master with
      | true => exact absurd hops.1 (by simp)
      | false =>
        simp only [applyOp]
        cases h : parse buf filesData filePath false with
        | none => exact hinv
        | some r =>
          exact parse_slave_preserves ExtraOutside updateLoop_extraOutside buf filesData
            filePath r hinv h

theorem masterFirst_extraOutside (ops : List Op) (filesData : FilesData)
    (hops : masterFirst ops = true) (hinv : ∀ file ∈ filesData, file.2.extra = []) :
    ∀ file ∈ ops.foldl applyOp filesData, ExtraOutside file.2 := by
  have hout : ∀ fs : FilesData, (∀ file ∈ fs, file.2.extra = []) →
      ∀ file ∈ fs, ExtraOutside file.2 := by
    intro fs h file hfile key hkey
    rw [h file hfile] at hkey
    simp [StdMap.keys] at hkey
  induction ops generalizing filesData with
  | nil => exact hout filesData hinv
  | cons op rest ih =>
    cases op with
    | clear =>
      simp only [masterFirst] at hops
      refine ih _ hops ?_
      intro file hfile
      simp only [applyOp, clearData, List.mem_map] at hfile
      obtain ⟨f0, hf0, rfl⟩ := hfile
      exact hinv f0 hf0
    | parse buf filePath master =>
      cases master with
      | true =>
        simp only [masterFirst] at hops
        refine ih _ hops ?_
        simp only [List.foldl_cons, applyOp]
        cases h : parse buf filesData filePath true with
        | none => exact hinv
        | some r =>
          exact parse_master_preserves (fun d => d.extra = [])
            (fun d d1 hf hd => hf.2.1.trans hd) rfl buf filesData filePath r hinv h
      | false =>
        simp only [masterFirst] at hops
        exact noMaster_extraOutside (Op.parse buf filePath false :: rest) filesData
          (by
            simp only [noMaster, List.all_cons, Bool.and_eq_true]
            exact ⟨trivial, hops⟩) (hout filesData hinv)

/-- C38: in every state reached from an empty Document Set by master-mode
parses followed by slave-mode parses (with `clearData` at any point), every
key of the updates map of a document is a key of its data map, and no key of
its extra map is. -/
theorem merge_invariant (ops : List Op) (hops : masterFirst ops = true)
    (file : Bytes × FileData) (hfile : file ∈ runOps ops) :
    (∀ key ∈ file.2.updates.keys, key ∈ file.2.data.keys)
      ∧ ∀ key ∈ file.2.extra.keys, key ∉ file.2.data.keys :=
  ⟨foldl_applyOp_updatesInData ops [] (fun _ hf => absurd hf (List.not_mem_nil _)) file hfile,
    masterFirst_extraOutside ops [] hops (fun _ hf => absurd hf (List.not_mem_nil _)) file
      hfile⟩

set_option synthInstance.maxSize 4096 in
set_option maxRecDepth 100000 in
/-- Witness of C38: after `mergeOps` the document holds the update `k` and the
extra `word3`. -/
theorem merge_invariant_witness :
    (∀ key ∈ mergeFile.2.updates.keys, key ∈ mergeFile.2.data.keys)
      ∧ ∀ key ∈ mergeFile.2.extra.keys, key ∉ mergeFile.2.data.keys :=
  merge_invariant mergeOps (by decide) mergeFile (by decide)

/-! ## The block stack and the document -/

theorem gapRow_setStack (buf filePath : Bytes) (master : Bool) (st : ParseState)
    (bk : List Bytes) :
    gapRow buf filePath master { st with blockKeys := bk }
      = { gapRow buf filePath master st with blockKeys := bk } := by
  unfold gapRow
  simp only
  split
  · cases master <;> rfl
  · rfl

theorem stringStatement_setStack (buf filePath : Bytes) (nextPtr : Nat) (st : ParseState)
    (bk : List Bytes) :
    stringStatement buf filePath nextPtr { st with blockKeys := bk }
      = ((stringStatement buf filePath nextPtr st).1,
          (stringStatement buf filePath nextPtr st).2.1,
          { (stringStatement buf filePath nextPtr st).2.2 with blockKeys := bk }) := by
  unfold stringStatement
  simp only
  split
  · split
    · split <;> rfl
    · rfl
  · rfl

theorem classify_setStack (buf filePath : Bytes) (nextPtr : Nat) (st : ParseState)
    (bk : List Bytes) (hc : (buf.drop (nextPtr + 1)).headD 0 ≠ 47) :
    classify buf filePath nextPtr { st with blockKeys := bk }
      = ((classify buf filePath nextPtr st).1, (classify buf filePath nextPtr st).2.1,
          { (classify buf filePath nextPtr st).2.2 with blockKeys := bk }) := by
  unfold classify
  simp only [hc, if_false]
  split
  · rfl
  · split
    · rfl
    · split
      · exact stringStatement_setStack buf filePath nextPtr st bk
      · rfl

theorem record_setStack (buf filePath : Bytes) (okay isMeta : Bool) (st : ParseState)
    (bk : List Bytes) :
    record buf filePath true okay isMeta { st with blockKeys := bk }
      = (record buf filePath true okay isMeta st).map fun t =>
          { t with blockKeys := if okay then bk else bk ++ [t.statement] } := by
  unfold record
  cases okay with
  | true => cases isMeta <;> rfl
  | false =>
    simp only [Bool.false_eq_true, if_false, if_true]
    split <;> rfl

theorem parseStepNoStack_sim (buf filePath : Bytes) (st : ParseState) (bk : List Bytes) :
    (parseStepNoStack buf filePath true { st with blockKeys := bk }).2
        = (parseStep buf filePath true st).2
      ∧ ((parseStep buf filePath true st).2 = none →
          ∃ bk1, (parseStepNoStack buf filePath true { st with blockKeys := bk }).1
            = { (parseStep buf filePath true st).1 with blockKeys := bk1 })
      ∧ SameOutcome (parseStepNoStack buf filePath true { st with blockKeys := bk }).1
          (parseStep buf filePath true st).1 := by
  unfold parseStepNoStack parseStep
  simp only
  cases hg : getNext begPat buf st.pos with
  | mk ptr pos =>
    cases ptr with
    | none =>
      simp only
      exact ⟨trivial, fun h => absurd h (by simp), rfl, rfl, rfl, rfl⟩
    | some nextPtr =>
      simp only
      have hgs : gapRow buf filePath true
          { pos := pos, lastPos := st.lastPos, row := st.row, key := st.key,
            statement := st.statement, blockKeys := bk, fileData := st.fileData,
            filesData := st.filesData, err := st.err, cerr := st.cerr, skipped := st.skipped }
          = { gapRow buf filePath true { st with pos := pos } with blockKeys := bk } :=
        gapRow_setStack buf filePath true { st with pos := pos } bk
      rw [hgs]
      generalize gapRow buf filePath true { st with pos := pos } = g
      by_cases hc : (buf.drop (nextPtr + 1)).headD 0 = 47
      · -- a closing tag
        have hcl : classify buf filePath nextPtr g
            = ((closeStatement buf nextPtr g).1, true, (closeStatement buf nextPtr g).2) := by
          unfold classify
          simp only [hc]
          rfl
        have hcn : classifyNoStack buf filePath nextPtr { g with blockKeys := bk }
            = (false, true, { g with blockKeys := bk }) := by
          unfold classifyNoStack
          simp only [hc, if_true]
        rw [hcl, hcn]
        cases hm : eoxPat (buf.drop g.pos) with
        | none =>
          have hget : ∀ out, getStatement eoxPat buf g.pos out = (false, out, g.pos) := by
            intro out
            unfold getStatement
            rw [hm]
          cases hct : closesTop buf nextPtr g.blockKeys with
          | true =>
            rw [closeStatement_match buf nextPtr g hct]
            simp only [hget, record, Bool.false_eq_true, if_false]
            exact ⟨trivial, fun h => absurd h (by simp), rfl, rfl, rfl, rfl⟩
          | false =>
            rw [closeStatement_mismatch buf nextPtr g hct]
            simp only [hget, record, Bool.false_eq_true, if_false]
            exact ⟨trivial, fun h => absurd h (by simp), rfl, rfl, rfl, rfl⟩
        | some m =>
          have hget : ∀ out, getStatement eoxPat buf g.pos out
              = (true, (buf.drop g.pos).take (m.position + m.length),
                  g.pos + (m.position + m.length)) := by
            intro out
            unfold getStatement
            rw [hm]
          cases hct : closesTop buf nextPtr g.blockKeys with
          | true =>
            rw [closeStatement_match buf nextPtr g hct]
            simp only [hget, record, Bool.false_eq_true, if_false, if_true]
            exact ⟨trivial, fun _ => ⟨_, rfl⟩, rfl, rfl, rfl, rfl⟩
          | false =>
            rw [closeStatement_mismatch buf nextPtr g hct]
            simp only [hget, record, Bool.false_eq_true, if_false, if_true]
            exact ⟨trivial, fun _ => ⟨_, rfl⟩, rfl, rfl, rfl, rfl⟩
      · -- any other tag
        have hcn : classifyNoStack buf filePath nextPtr { g with blockKeys := bk }
            = classify buf filePath nextPtr { g with blockKeys := bk } := by
          unfold classifyNoStack
          simp only [hc, if_false]
        rw [hcn, classify_setStack buf filePath nextPtr g bk hc]
        simp only
        generalize classify buf filePath nextPtr g = c
        rw [record_setStack]
        cases hr : record buf filePath true c.1 c.2.1 c.2.2 with
        | none =>
          simp only [Option.map_none']
          exact ⟨trivial, fun h => absurd h (by simp), rfl, rfl, rfl, rfl⟩
        | some st2 =>
          simp only [Option.map_some']
          exact ⟨trivial, fun _ => ⟨_, rfl⟩, rfl, rfl, rfl, rfl⟩

theorem parseLoopNoStack_sim (buf filePath : Bytes) (fuel : Nat) :
    ∀ (st : ParseState) (bk : List Bytes),
      (parseLoopNoStack buf filePath true fuel { st with blockKeys := bk }).map
          (fun r => (r.2, r.1.fileData, r.1.filesData, r.1.err, r.1.cerr))
        = (parseLoop buf filePath true fuel st).map
          (fun r => (r.2, r.1.fileData, r.1.filesData, r.1.err, r.1.cerr)) := by
  induction fuel with
  | zero => intro st bk; rfl
  | succ f ih =>
    intro st bk
    obtain ⟨hret, hcont, hsame⟩ := parseStepNoStack_sim buf filePath st bk
    unfold parseLoopNoStack parseLoop
    cases hs : parseStep buf filePath true st with
    | mk s1 ret =>
      cases hv : parseStepNoStack buf filePath true { st with blockKeys := bk } with
      | mk v1 ret1 =>
        rw [hs, hv] at hret hsame
        rw [hs, hv] at hcont
        simp only at hret hcont hsame
        subst hret
        cases ret1 with
        | some b =>
          simp only [Option.map_some']
          obtain ⟨h1, h2, h3, h4⟩ := hsame
          rw [h1, h2, h3, h4]
        | none =>
          simp only
          obtain ⟨bk1, hbk⟩ := hcont rfl
          rw [hbk]
          exact ih s1 bk1

/-- C32: the block stack does not influence the outcome of a master-mode
parse.  With the comparison against an empty stack taken as a mismatch,
`parse` gives the same value, the same Document Set (hence the same rows, meta
and data of every document) and the same messages as the variant that sends
every `</` tag to the generic fallback without looking at the stack. -/
theorem block_stack_irrelevant (buf : Bytes) (filesData : FilesData) (filePath : Bytes) :
    parseNoStack buf filesData filePath true = parse buf filesData filePath true := by
  have h := parseLoopNoStack_sim buf filePath (buf.length + 1)
    (parseInit filesData filePath true) (parseInit filesData filePath true).blockKeys
  have hinit : ({ parseInit filesData filePath true with
      blockKeys := (parseInit filesData filePath true).blockKeys } : ParseState)
      = parseInit filesData filePath true := rfl
  rw [hinit] at h
  unfold parseNoStack parse parseRun
  cases hv : parseLoopNoStack buf filePath true (buf.length + 1)
      (parseInit filesData filePath true) with
  | none =>
    rw [hv] at h
    cases hp : parseLoop buf filePath true (buf.length + 1)
        (parseInit filesData filePath true) with
    | none => rfl
    | some r => rw [hp] at h; simp at h
  | some v =>
    rw [hv] at h
    cases hp : parseLoop buf filePath true (buf.length + 1)
        (parseInit filesData filePath true) with
    | none => rw [hp] at h; simp at h
    | some r =>
      rw [hp] at h
      simp only [Option.map_some', Option.some.injEq, Prod.mk.injEq] at h
      obtain ⟨h1, h2, h3, h4, h5⟩ := h
      simp only [Option.map_some', if_true, h1, h2, h3, h4, h5]

/-! ## Reconstruction of the scanned prefix -/

theorem gapRow_skipped (buf filePath : Bytes) (st : ParseState)
    (h : st.pos ≠ st.lastPos + 1) :
    (gapRow buf filePath true st).skipped = st.skipped := by
  unfold gapRow
  split
  · rfl
  · rename_i hle
    have : st.pos - st.lastPos = 0 := by omega
    simp only [this, Nat.add_zero]

theorem record_skipped (buf filePath : Bytes) (okay isMeta : Bool) (st st' : ParseState)
    (h : record buf filePath true okay isMeta st = some st') : st'.skipped = st.skipped := by
  unfold record at h
  cases okay with
  | true =>
    cases isMeta <;> simp only [if_true] at h <;> simp at h <;> subst h <;> rfl
  | false =>
    simp only [Bool.false_eq_true, if_false, if_true] at h
    split at h
    · simp only [Option.some.injEq] at h
      subst h
      rfl
    · exact absurd h (by simp)

theorem classify_skipped (buf filePath : Bytes) (nextPtr : Nat) (st : ParseState)
    (h : ((buf.drop (nextPtr + 1)).headD 0 == 115
      && strncmpEq (lit "<string ") (buf.drop nextPtr) 8
      && (match stringPatEnd (buf.drop st.pos) with
          | some m =>
            (stringPat (clean ((buf.drop st.pos).take (m.position + m.length)))).isNone
          | none => false)) = false) :
    (classify buf filePath nextPtr st).2.2.skipped = st.skipped := by
  unfold classify
  simp only
  split
  · rfl
  · split
    · rfl
    · split
      · unfold closeStatement
        split
        · rfl
        · split <;> rfl
      · split
        · rename_i hc
          simp only [hc, beq_self_eq_true, Bool.true_and] at h
          unfold stringStatement
          split
          · rename_i htag
            simp only [htag, Bool.true_and] at h
            unfold getStatement
            cases hm : stringPatEnd (buf.drop st.pos) with
            | none =>
              simp only
              split
              · rfl
              · simp
            | some m =>
              simp only [hm] at h
              simp only
              cases hs : stringPat (clean ((buf.drop st.pos).take (m.position + m.length))) with
              | none => simp [hs] at h
              | some m1 => rfl
          · rfl
        · rfl

theorem parseStep_skipped (buf filePath : Bytes) (st st1 : ParseState) (ret : Option Bool)
    (h : parseStep buf filePath true st = (st1, ret))
    (hgap : oneByteGap buf st = false) (hlost : lostString buf st = false) :
    st1.skipped = st.skipped := by
  unfold oneByteGap at hgap
  unfold lostString at hlost
  unfold parseStep at h
  cases hg : getNext begPat buf st.pos with
  | mk ptr pos =>
    rw [hg] at h hgap hlost
    cases ptr with
    | none =>
      simp only [Prod.mk.injEq] at h
      rw [← h.1]
    | some nextPtr =>
      simp only at h hgap hlost
      have hne : pos ≠ st.lastPos + 1 := by simpa using hgap
      have hgs : (gapRow buf filePath true { st with pos := pos }).skipped = st.skipped :=
        gapRow_skipped buf filePath { st with pos := pos } hne
      have hgp := (gapRow_frame buf filePath true { st with pos := pos }).2
      simp only at hgp
      have hcs := classify_skipped buf filePath nextPtr
        (gapRow buf filePath true { st with pos := pos }) (by rw [hgp]; exact hlost)
      generalize gapRow buf filePath true { st with pos := pos } = g at h hgs hcs
      generalize classify buf filePath nextPtr g = c at h hcs
      cases hr : record buf filePath true c.1 c.2.1 c.2.2 with
      | none =>
        simp only [hr, Prod.mk.injEq] at h
        rw [← h.1]
        exact hcs.trans hgs
      | some st2 =>
        simp only [hr, Prod.mk.injEq] at h
        rw [← h.1]
        exact (record_skipped buf filePath c.1 c.2.1 c.2.2 st2 hr).trans (hcs.trans hgs)

theorem parseLoop_skipped (buf filePath : Bytes) (fuel : Nat) (st stF : ParseState) (b : Bool)
    (h : parseLoop buf filePath true fuel st = some (stF, b))
    (hgap : ∀ s ∈ passes buf filePath fuel st, oneByteGap buf s = false)
    (hlost : ∀ s ∈ passes buf filePath fuel st, lostString buf s = false) :
    stF.skipped = st.skipped := by
  induction fuel generalizing st with
  | zero => simp [parseLoop] at h
  | succ f ih =>
    unfold parseLoop at h
    unfold passes at hgap hlost
    cases hs : parseStep buf filePath true st with
    | mk st1 ret =>
      rw [hs] at h hgap hlost
      have h1 := parseStep_skipped buf filePath st st1 ret hs
        (hgap st (List.mem_cons_self _ _)) (hlost st (List.mem_cons_self _ _))
      cases ret with
      | some c =>
        simp only [Option.some.injEq, Prod.mk.injEq] at h
        rw [← h.1]
        exact h1
      | none =>
        simp only at h hgap hlost
        exact (ih st1 h (fun s hm => hgap s (List.mem_cons_of_mem _ hm))
          (fun s hm => hlost s (List.mem_cons_of_mem _ hm))).trans h1

theorem parseLoop_lastPos (buf filePath : Bytes) (fuel : Nat) (st stF : ParseState)
    (hle : st.lastPos ≤ buf.length)
    (h : parseLoop buf filePath true fuel st = some (stF, true)) :
    stF.lastPos ≤ buf.length := by
  induction fuel generalizing st with
  | zero => simp [parseLoop] at h
  | succ f ih =>
    unfold parseLoop at h
    cases hs : parseStep buf filePath true st with
    | mk st1 ret =>
      rw [hs] at h
      cases ret with
      | some b =>
        simp only [Option.some.injEq, Prod.mk.injEq] at h
        obtain ⟨h1, h2⟩ := h
        subst h1 h2
        rw [(parseStep_done buf filePath true st st1 hs).2.1]
        exact hle
      | none =>
        have hp := parseStep_progress buf filePath true st st1 hs
        exact ih st1 (by rw [hp.2.2]; exact hp.2.1) h

/-- C31: for a master-mode parse into an empty Document Set that ends without
fatal failure, if no pass finds a gap of exactly one byte, no `<string `
statement fails the validation after its end pattern matched, the recorded
keys are pairwise distinct and no string name starts with `_#`, then the texts
of the rows in order, as the writer looks them up, give the bytes of the
buffer from offset 0 to the end of the last captured statement. -/
theorem prefix_reconstruction (buf filePath : Bytes) (stF : ParseState)
    (hrun : parseRun buf [] filePath true = some (stF, true))
    (hgap : ∀ s ∈ passes buf filePath (buf.length + 1) (parseInit [] filePath true),
      oneByteGap buf s = false)
    (hlost : ∀ s ∈ passes buf filePath (buf.length + 1) (parseInit [] filePath true),
      lostString buf s = false)
    (hkeys : stF.fileData.rows.Nodup)
    (hnames : ∀ key ∈ stF.fileData.data.keys, key.take 2 ≠ META_PREFIX) :
    writeRows stF.fileData = some (buf.take stF.lastPos)
      ∧ stF.lastPos ≤ buf.length
      ∧ ∃ r, parse buf [] filePath true = some r ∧ r.ok = true
          ∧ r.filesData.find filePath = some stF.fileData := by
  have hsk : stF.skipped = 0 :=
    parseLoop_skipped buf filePath _ _ stF true hrun hgap hlost
  have hw0 : Written buf (parseInit [] filePath true) (parseInit [] filePath true).lastPos := by
    intro _
    rfl
  have hw := parseLoop_written buf filePath (buf.length + 1) (parseInit [] filePath true) stF
    rfl hw0 hrun
  refine ⟨hw ⟨hsk, hkeys, hnames⟩, ?_, ?_⟩
  · exact parseLoop_lastPos buf filePath _ _ stF (Nat.zero_le _) hrun
  · exact ⟨{ ok := true, filesData := stF.filesData.insert filePath stF.fileData,
             err := stF.err, cerr := stF.cerr },
      by simp only [parse, hrun, Option.map_some', if_true], rfl,
      StdMap.find_insert_self _ _ _⟩


set_option synthInstance.maxSize 4096 in
set_option maxRecDepth 100000 in
/-- Witness of C31: the rows of `prefixXml` give the buffer without the text
after the last tag. -/
theorem prefix_reconstruction_witness :
    writeRows prefixFinal.fileData = some (prefixXml.take prefixFinal.lastPos)
      ∧ prefixFinal.lastPos = 45 ∧ prefixXml.length = 49 :=
  ⟨(prefix_reconstruction prefixXml (lit "a.xml") prefixFinal (by decide) (by decide)
      (by decide) (by decide) (by decide)).1, by decide, by decide⟩

/-! ## Closing tag on an empty block stack -/

set_option synthInstance.maxSize 4096 in
set_option maxRecDepth 100000 in
/-- C33, evaluated where it fails: after the declaration of `<?a?></#0` the
block stack is empty and `key` holds `_#0`.  At the tag `</#0` the source
assigns the empty string to `key` and compares from `key.c_str() + 1` on with
the length `SIZE_MAX`: the bytes found behind the terminator, `#0` and NUL,
are those that follow `</` in the buffer, the comparison reports equality and
`pop_back` runs on the empty stack.  The end pattern finds no `>`, so the
pass ends in the fatal exit. -/
theorem pop_on_empty_stack :
    strayCloseBuf = lit "<?a?></#0" ++ [0, 0]
      ∧ afterDecl.blockKeys = [] ∧ afterDecl.key = lit "_#0"
      ∧ getNext begPat strayCloseBuf afterDecl.pos = (some 5, 5)
      ∧ (strayCloseBuf.drop (5 + 1)).headD 0 = 47
      ∧ emptyStackCompare afterDecl.key strayCloseBuf 5 = true
      ∧ eoxPat (strayCloseBuf.drop 5) = none := by
  decide

end Llxml
